import Mathlib
/-!
Verification of the batched dataflow evaluation engine in
`source/blender/functions/intern/multi_functions/network.cc`
(`NetworkEvaluationStorage`, `compute_max_depth_per_node`,
`MF_EvaluateNetwork::call` and its helpers).

The graph interface consumed by the engine (`MFNetwork`, sockets, nodes) is
modelled as an abstract structure carrying exactly the accessors the engine
uses: socket kind, owning node, input origin, output targets, node input
lists, dummy flag and the parameter signature of each function node.

Machine state (`Store`) mirrors `NetworkEvaluationStorage`:
`m_value_per_output_id` becomes `values`, type-erased buffers become
identifiers into explicit heaps, and every `BLI_assert` in the source becomes
an explicit `Err` result.  Each storage operation appends bookkeeping events
(`Ev`) recording invocations, allocations, re-keyings, `finish_input`
decrements and buffer destructions, so that claims about invocation counts
and reference-count conservation can be stated over the event trace.
-/
/-- Parameter kinds of a multi-function, fused with `input_for_param` /
`output_for_param`: each parameter directly names the socket id(s) it binds,
as `MF_EvaluateNetwork::evaluate_function` obtains them. -/
inductive PSpec where
  | sIn (i : Nat)
  | vIn (i : Nat)
  | sOut (o : Nat)
  | vOut (o : Nat)
  | mutS (i : Nat) (o : Nat)
  | mutV (i : Nat) (o : Nat)
deriving DecidableEq
/-- Input sockets named by a parameter list (the sockets `finish_input` will
be called on are the node's inputs; these are the ones bound by params). -/
def PSpec.ins : PSpec → List Nat
  | .sIn i => [i]
  | .vIn i => [i]
  | .mutS i _ => [i]
  | .mutV i _ => [i]
  | _ => []
/-- Output sockets named by a parameter list. -/
def PSpec.outs : PSpec → List Nat
  | .sOut o => [o]
  | .vOut o => [o]
  | .mutS _ o => [o]
  | .mutV _ o => [o]
  | _ => []
def paramIns (l : List PSpec) : List Nat := (l.map PSpec.ins).flatten
def paramOuts (l : List PSpec) : List Nat := (l.map PSpec.outs).flatten
/-- The graph interface consumed by the engine (§6 of the design): per
socket its kind, data category, owning node and wiring; per node its input
socket list, dummy flag and function signature. Socket and node ids are
dense indices as in `MFNetwork`. -/
structure Graph where
  socketCount : Nat
  nodeCount : Nat
  /-- `MFSocket::is_input` -/
  isInput : Nat → Bool
  /-- `MFSocket::node().id()` -/
  socketNode : Nat → Nat
  /-- `MFInputSocket::origin().id()` -/
  origin : Nat → Nat
  /-- `MFOutputSocket::targets()` as a list of input-socket ids -/
  targets : Nat → List Nat
  /-- `MFNode::is_dummy()` -/
  isDummy : Nat → Bool
  /-- `MFNode::inputs()` as a list of input-socket ids -/
  nodeInputs : Nat → List Nat
  /-- parameter signature of a function node -/
  params : Nat → List PSpec
  /-- data-type category: `true` for Vector, `false` for Single -/
  isVec : Nat → Bool
  /-- `MFNetwork::dummy_nodes()` -/
  dummyNodes : List Nat
  /-- `MFNetwork::function_nodes()` -/
  functionNodes : List Nat
/-- A value slot (`OutputValue` and its subclasses): borrowed caller views
or owned buffers with a remaining-user count (`max_remaining_users`). -/
inductive Slot (V : Type) where
  | sCaller (view : Nat → V)
  | vCaller (view : Nat → List V)
  | sOwn (buf : Nat) (users : Nat)
  | vOwn (buf : Nat) (users : Nat)
/-- Whether a slot is an owned (engine-allocated) value. -/
def Slot.owned {V : Type} : Slot V → Bool
  | .sOwn _ _ => true
  | .vOwn _ _ => true
  | _ => false
/-- Buffer id of an owned slot (0 for caller views, unused). -/
def Slot.bufOf {V : Type} : Slot V → Nat
  | .sOwn b _ => b
  | .vOwn b _ => b
  | _ => 0
/-- Remaining-user count of an owned slot (0 for caller views, unused). -/
def Slot.usersOf {V : Type} : Slot V → Nat
  | .sOwn _ u => u
  | .vOwn _ u => u
  | _ => 0
/-- Bookkeeping events recorded by the storage operations. -/
inductive Ev where
  /-- `function.call` ran for this node -/
  | invoke (n : Nat)
  /-- an owned slot was created for socket `o` with buffer `buf` and
  remaining-user count `users` -/
  | alloc (o : Nat) (buf : Nat) (users : Nat)
  /-- the move-on-last-use path: the slot moved from `src` to `dst` -/
  | rekey (src : Nat) (dst : Nat) (buf : Nat) (users : Nat)
  /-- `finish_input_socket` decremented the origin `o`, leaving `left` users -/
  | finDec (o : Nat) (left : Nat)
  /-- `finish_input_socket` was a no-op on a from-caller slot at origin `o` -/
  | finNoop (o : Nat)
  /-- a buffer was destructed and deallocated when its count reached zero -/
  | destroy (buf : Nat)
  /-- a buffer was freed by the storage destructor at end of call -/
  | teardown (buf : Nat)
deriving DecidableEq
/-- Contract violations: each corresponds to a `BLI_assert` (or undefined
behaviour) in the source, plus `fuel` for an unfinished bounded iteration. -/
inductive Err where
  | occupied (o : Nat)
  | nullRead (s : Nat)
  | typeMismatch (s : Nat)
  | finishNull (i : Nat)
  | underflow (o : Nat)
  | dummyCall (n : Nat)
  | fuel
deriving DecidableEq
/-- Pointwise update of a total map. -/
def upd {α : Type} (f : Nat → α) (i : Nat) (v : α) : Nat → α :=
  fun j => if j = i then v else f j
/-- `NetworkEvaluationStorage`: the slot table `m_value_per_output_id`,
an allocation counter, the two heaps backing owned buffers, and the event
trace. A Single buffer holds `Option V` per index (`none` = uninitialized);
a Vector buffer holds a list per index. -/
structure Store (V : Type) where
  values : Nat → Option (Slot V)
  nextBuf : Nat
  sheap : Nat → Nat → Option V
  vheap : Nat → Nat → List V
  events : List Ev
/-- The empty storage at call start. -/
def initStore (V : Type) : Store V :=
  { values := fun _ => none
    nextBuf := 0
    sheap := fun _ _ => none
    vheap := fun _ _ => []
    events := [] }
/-- Evaluation context: the graph, the opaque function bodies (what each
invoked function writes into an output socket's buffer at a masked index),
the index mask, and the precomputed per-node depths used for sorting. -/
structure Ctx (V : Type) where
  g : Graph
  bodyS : Nat → Nat → V
  bodyV : Nat → Nat → List V
  mask : List Nat
  depths : Nat → Int
variable {V : Type}
/-- `NetworkEvaluationStorage::add_single_from_caller`. -/
def addSingleFromCaller (st : Store V) (o : Nat) (view : Nat → V) :
    Except Err (Store V) :=
  match st.values o with
  | some _ => .error (.occupied o)
  | none => .ok { st with values := upd st.values o (some (.sCaller view)) }
/-- `NetworkEvaluationStorage::add_vector_from_caller`. -/
def addVectorFromCaller (st : Store V) (o : Nat) (view : Nat → List V) :
    Except Err (Store V) :=
  match st.values o with
  | some _ => .error (.occupied o)
  | none => .ok { st with values := upd st.values o (some (.vCaller view)) }
/-- `NetworkEvaluationStorage::allocate_single_output`: fresh buffer,
remaining-user count = the socket's target count. -/
def allocateSingleOutput (g : Graph) (st : Store V) (o : Nat) :
    Except Err (Nat × Store V) :=
  match st.values o with
  | some _ => .error (.occupied o)
  | none =>
    let b := st.nextBuf
    let u := (g.targets o).length
    .ok (b, { st with
      values := upd st.values o (some (.sOwn b u))
      nextBuf := b + 1
      sheap := upd st.sheap b (fun _ => none)
      events := st.events ++ [.alloc o b u] })
/-- `NetworkEvaluationStorage::allocate_vector_output`. -/
def allocateVectorOutput (g : Graph) (st : Store V) (o : Nat) :
    Except Err (Nat × Store V) :=
  match st.values o with
  | some _ => .error (.occupied o)
  | none =>
    let b := st.nextBuf
    let u := (g.targets o).length
    .ok (b, { st with
      values := upd st.values o (some (.vOwn b u))
      nextBuf := b + 1
      vheap := upd st.vheap b (fun _ => [])
      events := st.events ++ [.alloc o b u] })
/-- `NetworkEvaluationStorage::get_mutable_single`: the move-or-copy
decision. With one remaining user the slot is re-keyed from the origin to
the output id (same buffer, count reset to the output's target count);
otherwise a fresh buffer is allocated and copy-constructed over the mask;
a from-caller origin is always copied out of. -/
def getMutableSingle (c : Ctx V) (st : Store V) (i o : Nat) :
    Except Err (Nat × Store V) :=
  let f := c.g.origin i
  match st.values f with
  | none => .error (.nullRead f)
  | some (.sOwn b u) =>
    if u = 1 then
      let u' := (c.g.targets o).length
      .ok (b, { st with
        values := upd (upd st.values o (some (.sOwn b u'))) f none
        events := st.events ++ [.rekey f o b u'] })
    else
      let nb := st.nextBuf
      let u' := (c.g.targets o).length
      .ok (nb, { st with
        values := upd st.values o (some (.sOwn nb u'))
        nextBuf := nb + 1
        sheap := (upd st.sheap nb
          (fun j => if j ∈ c.mask then st.sheap b j else none))
        events := st.events ++ [.alloc o nb u'] })
  | some (.sCaller view) =>
    let nb := st.nextBuf
    let u' := (c.g.targets o).length
    .ok (nb, { st with
      values := upd st.values o (some (.sOwn nb u'))
      nextBuf := nb + 1
      sheap := (upd st.sheap nb
        (fun j => if j ∈ c.mask then some (view j) else none))
      events := st.events ++ [.alloc o nb u'] })
  | some _ => .error (.typeMismatch f)
/-- `NetworkEvaluationStorage::get_mutable_vector`. -/
def getMutableVector (c : Ctx V) (st : Store V) (i o : Nat) :
    Except Err (Nat × Store V) :=
  let f := c.g.origin i
  match st.values f with
  | none => .error (.nullRead f)
  | some (.vOwn b u) =>
    if u = 1 then
      let u' := (c.g.targets o).length
      .ok (b, { st with
        values := upd (upd st.values o (some (.vOwn b u'))) f none
        events := st.events ++ [.rekey f o b u'] })
    else
      let nb := st.nextBuf
      let u' := (c.g.targets o).length
      .ok (nb, { st with
        values := upd st.values o (some (.vOwn nb u'))
        nextBuf := nb + 1
        vheap := (upd st.vheap nb
          (fun j => if j ∈ c.mask then st.vheap b j else []))
        events := st.events ++ [.alloc o nb u'] })
  | some (.vCaller view) =>
    let nb := st.nextBuf
    let u' := (c.g.targets o).length
    .ok (nb, { st with
      values := upd st.values o (some (.vOwn nb u'))
      nextBuf := nb + 1
      vheap := (upd st.vheap nb
        (fun j => if j ∈ c.mask then view j else []))
      events := st.events ++ [.alloc o nb u'] })
  | some _ => .error (.typeMismatch f)
/-- `NetworkEvaluationStorage::finish_input_socket`: no-op on from-caller
slots; otherwise decrement the origin's remaining-user count and destroy
the buffer when it reaches zero. -/
def finishInput (g : Graph) (st : Store V) (i : Nat) : Except Err (Store V) :=
  let o := g.origin i
  match st.values o with
  | none => .error (.finishNull i)
  | some (.sCaller _) => .ok { st with events := st.events ++ [.finNoop o] }
  | some (.vCaller _) => .ok { st with events := st.events ++ [.finNoop o] }
  | some (.sOwn b u) =>
    if u = 0 then .error (.underflow o)
    else if u = 1 then
      .ok { st with
        values := upd st.values o none
        events := st.events ++ [.finDec o 0, .destroy b] }
    else
      .ok { st with
        values := upd st.values o (some (.sOwn b (u - 1)))
        events := st.events ++ [.finDec o (u - 1)] }
  | some (.vOwn b u) =>
    if u = 0 then .error (.underflow o)
    else if u = 1 then
      .ok { st with
        values := upd st.values o none
        events := st.events ++ [.finDec o 0, .destroy b] }
    else
      .ok { st with
        values := upd st.values o (some (.vOwn b (u - 1)))
        events := st.events ++ [.finDec o (u - 1)] }
/-- `NetworkEvaluationStorage::get_single_input`: the materialized view for
an input's origin. -/
def getSingleInput (g : Graph) (st : Store V) (i : Nat) :
    Except Err (Nat → Option V) :=
  match st.values (g.origin i) with
  | none => .error (.nullRead (g.origin i))
  | some (.sOwn b _) => .ok (st.sheap b)
  | some (.sCaller view) => .ok (fun j => some (view j))
  | some _ => .error (.typeMismatch (g.origin i))
/-- `NetworkEvaluationStorage::get_vector_input`. -/
def getVectorInput (g : Graph) (st : Store V) (i : Nat) :
    Except Err (Nat → List V) :=
  match st.values (g.origin i) with
  | none => .error (.nullRead (g.origin i))
  | some (.vOwn b _) => .ok (st.vheap b)
  | some (.vCaller view) => .ok view
  | some _ => .error (.typeMismatch (g.origin i))
/-- `NetworkEvaluationStorage::input_is_computed`. -/
def inputIsComputed (g : Graph) (st : Store V) (i : Nat) : Bool :=
  (st.values (g.origin i)).isSome
/-- A buffer the invoked function will write through (an output or mutable
parameter binding). -/
structure WTgt where
  sock : Nat
  buf : Nat
  isVec : Bool
deriving DecidableEq
/-- One iteration of the parameter-binding loop of
`MF_EvaluateNetwork::evaluate_function`. -/
def bindParam (c : Ctx V) (acc : Store V × List WTgt) (p : PSpec) :
    Except Err (Store V × List WTgt) :=
  match p with
  | .sIn i => do
    let _ ← getSingleInput c.g acc.1 i
    .ok acc
  | .vIn i => do
    let _ ← getVectorInput c.g acc.1 i
    .ok acc
  | .sOut o => do
    let (b, st') ← allocateSingleOutput c.g acc.1 o
    .ok (st', acc.2 ++ [⟨o, b, false⟩])
  | .vOut o => do
    let (b, st') ← allocateVectorOutput c.g acc.1 o
    .ok (st', acc.2 ++ [⟨o, b, true⟩])
  | .mutS i o => do
    let (b, st') ← getMutableSingle c acc.1 i o
    .ok (st', acc.2 ++ [⟨o, b, false⟩])
  | .mutV i o => do
    let (b, st') ← getMutableVector c acc.1 i o
    .ok (st', acc.2 ++ [⟨o, b, true⟩])
/-- The opaque `function.call`: write each bound output/mutable buffer at
the masked indices (the function body is external; its results are the
oracle values `bodyS`/`bodyV`). -/
def writeTargets (c : Ctx V) (st : Store V) (ws : List WTgt) : Store V :=
  ws.foldl (fun st w =>
    if w.isVec then
      { st with vheap := (upd st.vheap w.buf
          (fun j => if j ∈ c.mask then c.bodyV w.sock j else st.vheap w.buf j)) }
    else
      { st with sheap := (upd st.sheap w.buf
          (fun j => if j ∈ c.mask then some (c.bodyS w.sock j)
                    else st.sheap w.buf j)) }) st
/-- `MF_EvaluateNetwork::evaluate_function`: bind every parameter by kind,
invoke the function over the mask, then call `finish_input` for every one
of the node's input sockets. -/
def evaluateFunction (c : Ctx V) (st : Store V) (n : Nat) :
    Except Err (Store V) := do
  let (st1, ws) ← (c.g.params n).foldlM (bindParam c) (st, [])
  let st2 := writeTargets c { st1 with events := st1.events ++ [.invoke n] } ws
  (c.g.nodeInputs n).foldlM (finishInput c.g) st2
/-- Insertion into a list that is kept sorted by ascending depth key. -/
def insKey (key : Nat → Int) (x : Nat) : List Nat → List Nat
  | [] => [x]
  | y :: ys => if key x ≤ key y then x :: y :: ys else y :: insKey key x ys
/-- Sorting by ascending depth key (the `std::sort` call on missing
inputs). -/
def sortKey (key : Nat → Int) : List Nat → List Nat
  | [] => []
  | x :: xs => insKey key x (sortKey key xs)
/-- The action the scheduler takes on the top-of-stack socket. -/
inductive Act where
  | pop
  | push (l : List Nat)
deriving DecidableEq
/-- One inspection of the top of `sockets_to_compute` in
`MF_EvaluateNetwork::evaluate_network_to_compute_outputs`: a computed input
is popped; an uncomputed input pushes its origin; an output with no missing
inputs invokes its node's function and is popped; otherwise the missing
inputs are pushed, sorted so inputs with greater origin-node depth end up on
top. -/
def stepTop (c : Ctx V) (st : Store V) (s : Nat) :
    Except Err (Store V × Act) :=
  if c.g.isInput s then
    if inputIsComputed c.g st s then .ok (st, .pop)
    else .ok (st, .push [c.g.origin s])
  else
    let n := c.g.socketNode s
    if c.g.isDummy n then .error (.dummyCall n)
    else
      let missing := (c.g.nodeInputs n).filter
        (fun i => !(inputIsComputed c.g st i))
      if missing.isEmpty then do
        let st' ← evaluateFunction c st n
        .ok (st', .pop)
      else
        .ok (st, .push (sortKey
          (fun i => c.depths (c.g.socketNode (c.g.origin i))) missing))
/-- Outcome of the scheduler loop: still running, finished, or stopped at a
contract violation (carrying the storage for its trace). -/
inductive OC (V : Type) where
  | run (st : Store V) (stk : List Nat)
  | done (st : Store V)
  | fail (e : Err) (st : Store V)
/-- One loop iteration (`while (!sockets_to_compute.is_empty())`). The
stack is a list with its head on top; `push_multiple l` makes the last
element of `l` the new top, hence `l.reverse ++ stack`. -/
def step1 (c : Ctx V) : OC V → OC V
  | .run st [] => .done st
  | .run st (x :: r) =>
    match stepTop c st x with
    | .error e => .fail e st
    | .ok (st', .pop) => .run st' r
    | .ok (st', .push l) => .run st' (l.reverse ++ (x :: r))
  | o => o
/-- `k` iterations of the scheduler loop. -/
def runN (c : Ctx V) : Nat → OC V → OC V
  | 0, o => o
  | k + 1, o => step1 c (runN c k o)
/-- State of the `compute_max_depth_per_node` worklist. -/
structure DSt where
  depths : Nat → Int
  stack : List Nat
/-- Outcome of the depth worklist. -/
inductive DOC where
  | drun (d : DSt)
  | ddone (depths : Nat → Int)
/-- Initial depth state: `-1` everywhere, `0` for dummy nodes, all function
nodes pushed (last pushed on top). -/
def dInit (g : Graph) : DSt :=
  { depths := fun n => if n ∈ g.dummyNodes then 0 else -1
    stack := g.functionNodes.reverse }
/-- The nodes a scan of `current` pushes: the origin node of every input
whose origin node's depth is still unresolved, in input order. -/
def dUnresolved (g : Graph) (dep : Nat → Int) (n : Nat) : List Nat :=
  ((g.nodeInputs n).filter
    (fun i => dep (g.socketNode (g.origin i)) = -1)).map
    (fun i => g.socketNode (g.origin i))
/-- The `max_incoming_depth` computed by a scan when all origins are
resolved. -/
def dMaxIn (g : Graph) (dep : Nat → Int) (n : Nat) : Int :=
  ((g.nodeInputs n).map (fun i => dep (g.socketNode (g.origin i)))).foldl
    max 0
/-- One iteration of the `compute_max_depth_per_node` worklist: a node with
a known depth is popped; a node with unresolved input origins pushes them
(last pushed on top); otherwise the node is popped and finalized at
`1 + max incoming depth`. -/
def dStep1 (g : Graph) : DOC → DOC
  | .drun ⟨dep, []⟩ => .ddone dep
  | .drun ⟨dep, n :: r⟩ =>
    if 0 ≤ dep n then .drun ⟨dep, r⟩
    else
      let u := dUnresolved g dep n
      if u.isEmpty then .drun ⟨upd dep n (dMaxIn g dep n + 1), r⟩
      else .drun ⟨dep, u.reverse ++ (n :: r)⟩
  | o => o
/-- `k` iterations of the depth worklist. -/
def dRunN (g : Graph) : Nat → DOC → DOC
  | 0, o => o
  | k + 1, o => dStep1 g (dRunN g k o)
/-- A caller-supplied input view (Single or Vector). -/
inductive CView (V : Type) where
  | s (f : Nat → V)
  | v (f : Nat → List V)
/-- A caller-supplied output destination (Single buffer or Vector
container). -/
inductive DBuf (V : Type) where
  | s (f : Nat → Option V)
  | v (f : Nat → List V)
/-- `MF_EvaluateNetwork::copy_inputs_to_storage`, one input socket. -/
def bindCaller (st : Store V) (p : Nat × CView V) : Except Err (Store V) :=
  match p.2 with
  | .s f => addSingleFromCaller st p.1 f
  | .v f => addVectorFromCaller st p.1 f
/-- `MF_EvaluateNetwork::copy_computed_values_to_outputs`, one requested
output socket: a Single result is materialized into the destination over
the mask, a Vector result is appended per masked index. -/
def copyOneOutput (c : Ctx V) (st : Store V) (acc : List (DBuf V))
    (p : Nat × DBuf V) : Except Err (List (DBuf V)) :=
  if c.g.isVec p.1 then do
    let f ← getVectorInput c.g st p.1
    match p.2 with
    | .v dv => .ok (acc ++ [.v (fun j => if j ∈ c.mask then dv j ++ f j else dv j)])
    | .s _ => .error (.typeMismatch p.1)
  else do
    let f ← getSingleInput c.g st p.1
    match p.2 with
    | .s ds => .ok (acc ++ [.s (fun j => if j ∈ c.mask then f j else ds j)])
    | .v _ => .error (.typeMismatch p.1)
/-- The destructor's action on one slot value: owned buffers are freed,
from-caller views and empty slots are left alone. -/
def tdSlot {V : Type} : Option (Slot V) → List Ev
  | some (.sOwn b _) => [.teardown b]
  | some (.vOwn b _) => [.teardown b]
  | _ => []
/-- The destructor's action on one socket id. -/
def tdOf (st : Store V) (o : Nat) : List Ev := tdSlot (st.values o)
/-- `NetworkEvaluationStorage::~NetworkEvaluationStorage`: every owned slot
still present is freed. -/
def teardownEvents (g : Graph) (st : Store V) : List Ev :=
  (List.range g.socketCount).foldl (fun acc o => acc ++ tdOf st o) []
/-- Result of `MF_EvaluateNetwork::call`: the final contents of the
caller's output destinations plus the event trace, or a contract
violation. -/
inductive CallOut (V : Type) where
  | ok (outs : List (DBuf V)) (trace : List Ev)
  | fail (e : Err) (trace : List Ev)
/-- The storage-and-scheduler phase of `MF_EvaluateNetwork::call`: bind the
caller inputs into a fresh storage and run the demand-driven loop seeded
with the requested sockets (last pushed on top), using the precomputed
node depths `dep`. -/
def schedPart (g : Graph) (bodyS : Nat → Nat → V) (bodyV : Nat → Nat → List V)
    (minputs : List (Nat × CView V)) (mouts : List Nat) (mask : List Nat)
    (dep : Nat → Int) (fuel : Nat) : OC V :=
  match minputs.foldlM bindCaller (initStore V) with
  | .error e => .fail e (initStore V)
  | .ok st0 => runN ⟨g, bodyS, bodyV, mask, dep⟩ fuel (.run st0 mouts.reverse)
/-- `MF_EvaluateNetwork::call`: an empty mask returns immediately;
otherwise node depths are precomputed, storage is constructed, caller
inputs are bound, the scheduler loop runs with the requested sockets as
seeds, computed values are copied to the caller's destinations, and the
storage destructor frees the remaining owned slots. -/
def callFn (g : Graph) (bodyS : Nat → Nat → V) (bodyV : Nat → Nat → List V)
    (minputs : List (Nat × CView V)) (mouts : List Nat) (mask : List Nat)
    (douts : List (DBuf V)) (fuel : Nat) : CallOut V :=
  if mask.isEmpty then .ok douts []
  else
    match dRunN g fuel (.drun (dInit g)) with
    | .drun _ => .fail .fuel []
    | .ddone dep =>
      let c : Ctx V := ⟨g, bodyS, bodyV, mask, dep⟩
      match schedPart g bodyS bodyV minputs mouts mask dep fuel with
      | .run st _ => .fail .fuel st.events
      | .fail e st => .fail e st.events
      | .done st =>
        match (mouts.zip douts).foldlM (copyOneOutput c st) [] with
        | .error e => .fail e st.events
        | .ok outs => .ok outs (st.events ++ teardownEvents g st)
/-- The nodes invoked in a trace, in order. -/
def invokesOf (tr : List Ev) : List Nat :=
  tr.filterMap (fun e => match e with | .invoke n => some n | _ => none)
/-- Trace of a call result. -/
def CallOut.trace {V : Type} : CallOut V → List Ev
  | .ok _ tr => tr
  | .fail _ tr => tr
/-- An owned slot of the category of socket `o`. -/
def mkOwn (V : Type) (vec : Bool) (b u : Nat) : Slot V :=
  if vec then .vOwn b u else .sOwn b u
/-- A node whose function has been invoked in this call, read off the
event trace. -/
def invoked (st : Store V) (n : Nat) : Prop := Ev.invoke n ∈ st.events
instance (st : Store V) (n : Nat) : Decidable (invoked st n) :=
  inferInstanceAs (Decidable (Ev.invoke n ∈ st.events))
/-- An input socket is finished once `finish_input` ran for it, which
happens exactly when its node's function is invoked. -/
def finished (g : Graph) (st : Store V) (i : Nat) : Prop :=
  invoked st (g.socketNode i)
instance (g : Graph) (st : Store V) (i : Nat) : Decidable (finished g st i) :=
  inferInstanceAs (Decidable (invoked st (g.socketNode i)))
/-- Number of targets of output `o` whose consuming node has not yet been
invoked. -/
def unfin (g : Graph) (st : Store V) (o : Nat) : Nat :=
  ((g.targets o).filter (fun t => !(decide (finished g st t)))).length
/-- Well-formedness of a parameter relative to its node: input sockets
belong to the node and every socket has the data category its parameter
kind demands. -/
def PWF (g : Graph) (n : Nat) : PSpec → Prop
  | .sIn i => i ∈ g.nodeInputs n ∧ g.isVec i = false
  | .vIn i => i ∈ g.nodeInputs n ∧ g.isVec i = true
  | .sOut o => g.isVec o = false
  | .vOut o => g.isVec o = true
  | .mutS i o => i ∈ g.nodeInputs n ∧ g.isVec i = false ∧ g.isVec o = false
  | .mutV i o => i ∈ g.nodeInputs n ∧ g.isVec i = true ∧ g.isVec o = true
instance (g : Graph) (n : Nat) : (p : PSpec) → Decidable (PWF g n p)
  | .sIn i => inferInstanceAs
      (Decidable (i ∈ g.nodeInputs n ∧ g.isVec i = false))
  | .vIn i => inferInstanceAs
      (Decidable (i ∈ g.nodeInputs n ∧ g.isVec i = true))
  | .sOut o => inferInstanceAs (Decidable (g.isVec o = false))
  | .vOut o => inferInstanceAs (Decidable (g.isVec o = true))
  | .mutS i o => inferInstanceAs
      (Decidable (i ∈ g.nodeInputs n ∧ g.isVec i = false ∧ g.isVec o = false))
  | .mutV i o => inferInstanceAs
      (Decidable (i ∈ g.nodeInputs n ∧ g.isVec i = true ∧ g.isVec o = true))
/-- Well-formedness of the graph interface: the structural facts
guaranteed by `MFNetwork` construction that the engine relies on. -/
structure GraphWF (g : Graph) : Prop where
  node_lt : ∀ s, s < g.socketCount → g.socketNode s < g.nodeCount
  origin_lt : ∀ s, s < g.socketCount → g.isInput s = true →
    g.origin s < g.socketCount
  origin_out : ∀ s, s < g.socketCount → g.isInput s = true →
    g.isInput (g.origin s) = false
  origin_cat : ∀ s, s < g.socketCount → g.isInput s = true →
    g.isVec (g.origin s) = g.isVec s
  tgt_mem : ∀ o, o < g.socketCount → ∀ i ∈ g.targets o,
    i < g.socketCount ∧ g.isInput i = true ∧ g.origin i = o
  tgt_complete : ∀ i, i < g.socketCount → g.isInput i = true →
    i ∈ g.targets (g.origin i)
  tgt_nodup : ∀ o, o < g.socketCount → (g.targets o).Nodup
  ni_mem : ∀ n, n < g.nodeCount → ∀ i ∈ g.nodeInputs n,
    i < g.socketCount ∧ g.isInput i = true ∧ g.socketNode i = n
  ni_complete : ∀ i, i < g.socketCount → g.isInput i = true →
    i ∈ g.nodeInputs (g.socketNode i)
  ni_nodup : ∀ n, n < g.nodeCount → (g.nodeInputs n).Nodup
  pi_perm : ∀ n, n < g.nodeCount → g.isDummy n = false →
    (paramIns (g.params n)).Perm (g.nodeInputs n)
  po_mem : ∀ n, n < g.nodeCount → g.isDummy n = false →
    ∀ o ∈ paramOuts (g.params n),
      o < g.socketCount ∧ g.isInput o = false ∧ g.socketNode o = n
  po_nodup : ∀ n, n < g.nodeCount → g.isDummy n = false →
    (paramOuts (g.params n)).Nodup
  po_complete : ∀ o, o < g.socketCount → g.isInput o = false →
    g.isDummy (g.socketNode o) = false →
    o ∈ paramOuts (g.params (g.socketNode o))
  p_wf : ∀ n, n < g.nodeCount → g.isDummy n = false →
    ∀ p ∈ g.params n, PWF g n p
  fn_mem : ∀ n ∈ g.functionNodes, n < g.nodeCount ∧ g.isDummy n = false
  fn_complete : ∀ n, n < g.nodeCount → g.isDummy n = false →
    n ∈ g.functionNodes
  fn_nodup : g.functionNodes.Nodup
  dn_mem : ∀ n ∈ g.dummyNodes, n < g.nodeCount ∧ g.isDummy n = true
  dn_complete : ∀ n, n < g.nodeCount → g.isDummy n = true → n ∈ g.dummyNodes
/-- Acyclicity witness: a rank strictly increasing along every edge into a
function node (dummy nodes need no rank; the graph is a DAG). -/
def RankOK (g : Graph) (rank : Nat → Nat) : Prop :=
  ∀ n, n < g.nodeCount → g.isDummy n = false →
    ∀ i ∈ g.nodeInputs n, rank (g.socketNode (g.origin i)) < rank n
instance (g : Graph) (rank : Nat → Nat) : Decidable (RankOK g rank) :=
  inferInstanceAs (Decidable (∀ n, n < g.nodeCount → g.isDummy n = false →
    ∀ i ∈ g.nodeInputs n, rank (g.socketNode (g.origin i)) < rank n))
/-- Well-formedness of one call's boundary data: caller inputs are
distinct dummy output sockets of matching category and requested outputs
are dummy input sockets. -/
structure CallWF (g : Graph) (minputs : List (Nat × CView V))
    (mouts : List Nat) : Prop where
  mi_nodup : (minputs.map Prod.fst).Nodup
  mi_mem : ∀ p ∈ minputs, p.1 < g.socketCount ∧ g.isInput p.1 = false ∧
    g.isDummy (g.socketNode p.1) = true
  mi_cat : ∀ p ∈ minputs,
    (match p.2 with
     | CView.s _ => g.isVec p.1 = false
     | CView.v _ => g.isVec p.1 = true)
  mo_mem : ∀ r ∈ mouts, r < g.socketCount ∧ g.isInput r = true ∧
    g.isDummy (g.socketNode r) = true
/-- Every input socket whose origin is a boundary output is bound by the
caller (the call contract: dangling dummy origins never occur). -/
def BoundOK (g : Graph) (minputs : List (Nat × CView V)) : Prop :=
  ∀ i, i < g.socketCount → g.isInput i = true →
    g.isDummy (g.socketNode (g.origin i)) = true →
    g.origin i ∈ minputs.map Prod.fst
/-- No function node of the graph has an in-place (mutable) parameter. -/
def NoMut (g : Graph) : Prop :=
  ∀ n, n < g.nodeCount → ∀ p ∈ g.params n,
    (match p with
     | PSpec.mutS _ _ => False
     | PSpec.mutV _ _ => False
     | _ => True)
/-- Dependency edge between nodes: `m` produces an input consumed by the
function node `n`. -/
def edgeRel (g : Graph) (m n : Nat) : Prop :=
  n < g.nodeCount ∧ g.isDummy n = false ∧
    ∃ i ∈ g.nodeInputs n, g.socketNode (g.origin i) = m
/-- Strict upstream (transitive) dependency between nodes. -/
def upR (g : Graph) : Nat → Nat → Prop := Relation.TransGen (edgeRel g)
/-- The node a stack entry demands work from: an input socket stands for
its origin node, an output socket for its own node. -/
def demNode (g : Graph) (s : Nat) : Nat :=
  if g.isInput s then g.socketNode (g.origin s) else g.socketNode s
/-- A stack entry strictly upstream of node `n`. -/
def UpS (g : Graph) (s : Nat) (n : Nat) : Prop := upR g (demNode g s) n
/-- Buffer hygiene: owned slots reference pairwise distinct buffers below
the allocation counter. -/
def BufOK (st : Store V) : Prop :=
  (∀ o sl, st.values o = some sl → sl.owned = true →
    sl.bufOf < st.nextBuf) ∧
  (∀ o o2 sl sl2, st.values o = some sl → st.values o2 = some sl2 →
    sl.owned = true → sl2.owned = true → sl.bufOf = sl2.bufOf → o = o2)
/-- How many of node `n`'s input sockets consume output `o` (the number of
`finish_input` decrements `o` receives when `n` is invoked). -/
def decCount (g : Graph) (n o : Nat) : Nat :=
  ((g.nodeInputs n).filter (fun i => decide (g.origin i = o))).length
/-- The data-category constraints a parameter imposes on its sockets. -/
def PCat (g : Graph) : PSpec → Prop
  | .sIn i => g.isVec i = false
  | .vIn i => g.isVec i = true
  | .sOut o => g.isVec o = false
  | .vOut o => g.isVec o = true
  | .mutS i o => g.isVec i = false ∧ g.isVec o = false
  | .mutV i o => g.isVec i = true ∧ g.isVec o = true
/-- The master loop invariant of the scheduler, over the storage state and
the work stack (`base` is the slot table created by caller-input binding,
which stays fixed at dummy outputs for the whole call). -/
structure SInv (g : Graph) (base : Nat → Option (Slot V)) (st : Store V)
    (stk : List Nat) : Prop where
  stk_lt : ∀ s ∈ stk, s < g.socketCount
  stk_in : ∀ i ∈ stk, g.isInput i = true → ¬ finished g st i
  stk_out : ∀ o ∈ stk, g.isInput o = false → ¬ invoked st (g.socketNode o)
  shape : ∀ pre o post, stk = pre ++ o :: post → g.isInput o = false →
    ∀ s ∈ pre, UpS g s (g.socketNode o)
  below : ∀ pre i post, stk = pre ++ i :: post → g.isInput i = true →
    g.isDummy (g.socketNode i) = false →
    ∃ pre2 o post2, post = pre2 ++ o :: post2 ∧ g.isInput o = false ∧
      g.socketNode o = g.socketNode i
  slot_fn : ∀ o, o < g.socketCount → g.isInput o = false →
    g.isDummy (g.socketNode o) = false → ∀ sl, st.values o = some sl →
      sl.owned = true ∧ (g.isVec o = true ↔ ∃ b u, sl = Slot.vOwn b u) ∧
      invoked st (g.socketNode o) ∧ sl.usersOf = unfin g st o
  slot_live : ∀ o, o < g.socketCount → g.isInput o = false →
    g.isDummy (g.socketNode o) = false → invoked st (g.socketNode o) →
    (g.targets o = [] ∨ 0 < unfin g st o) → (st.values o).isSome
  slot_dummy : ∀ o, o < g.socketCount → g.isInput o = false →
    g.isDummy (g.socketNode o) = true → st.values o = base o
  slot_input : ∀ i, g.isInput i = true → st.values i = none
  slot_big : ∀ o, g.socketCount ≤ o → st.values o = none
  inv_fn : ∀ n, invoked st n → n < g.nodeCount ∧ g.isDummy n = false
  inv_ord : ∀ i, i < g.socketCount → g.isInput i = true →
    g.isDummy (g.socketNode i) = false → finished g st i →
    invoked st (g.socketNode (g.origin i)) ∨
      g.isDummy (g.socketNode (g.origin i)) = true
  inv_nodup : (invokesOf st.events).Nodup
  slot_pos : ∀ o sl, st.values o = some sl → sl.owned = true →
    g.targets o = [] ∨ 0 < sl.usersOf
  bufok : BufOK st
/-- Invariant attached to a scheduler outcome: maintained while running
and at completion; a contract-violation stop ends the obligation. -/
def OCInv (g : Graph) (base : Nat → Option (Slot V)) : OC V → Prop
  | OC.run st stk => SInv g base st stk
  | OC.done st => SInv g base st []
  | OC.fail _ _ => True
/-- Number of `finish_input` decrements recorded against output `o`. -/
def countFinDec (tr : List Ev) (o : Nat) : Nat :=
  (tr.filter (fun e => match e with
    | Ev.finDec o2 _ => decide (o2 = o)
    | _ => false)).length
/-- Number of buffer destructions of buffer `b` recorded in the trace. -/
def countDestroy (tr : List Ev) (b : Nat) : Nat :=
  (tr.filter (fun e => match e with
    | Ev.destroy b2 => decide (b2 = b)
    | _ => false)).length
/-- Number of destructor frees of buffer `b` recorded in the trace. -/
def countTeardown (tr : List Ev) (b : Nat) : Nat :=
  (tr.filter (fun e => match e with
    | Ev.teardown b2 => decide (b2 = b)
    | _ => false)).length
/-- Number of owned-slot creations recorded for socket `o`. -/
def countAlloc (tr : List Ev) (o : Nat) : Nat :=
  (tr.filter (fun e => match e with
    | Ev.alloc o2 _ _ => decide (o2 = o)
    | _ => false)).length
/-- The storage carried by a scheduler outcome. -/
def OC.store : OC V → Store V
  | OC.run st _ => st
  | OC.done st => st
  | OC.fail _ st => st
/-- The error of a failed call, if any. -/
def CallOut.errOf : CallOut V → Option Err
  | CallOut.ok _ _ => none
  | CallOut.fail e _ => some e
/-- Example network: a caller input feeding a single-output function node
`F` (node 1) whose result feeds a node `M` (node 2) through an in-place
(`MutableSingle`) parameter, with `M`'s output requested. Sockets: 0 the
caller-bound dummy output, 1 `F`'s input, 2 `F`'s output, 3 `M`'s mutable
input, 4 `M`'s output, 5 the requested dummy input. -/
def exMut : Graph :=
  { socketCount := 6
    nodeCount := 4
    isInput := fun s => s == 1 || s == 3 || s == 5
    socketNode := fun s => [0, 1, 1, 2, 2, 3].getD s 0
    origin := fun s => [0, 0, 0, 2, 0, 4].getD s 0
    targets := fun s =>
      if s == 0 then [1] else if s == 2 then [3] else
      if s == 4 then [5] else []
    isDummy := fun n => n == 0 || n == 3
    nodeInputs := fun n =>
      if n == 1 then [1] else if n == 2 then [3] else
      if n == 3 then [5] else []
    params := fun n =>
      if n == 1 then [.sIn 1, .sOut 2] else
      if n == 2 then [.mutS 3 4] else []
    isVec := fun _ => false
    dummyNodes := [0, 3]
    functionNodes := [1, 2] }
/-- A rank witnessing acyclicity of `exMut`. -/
def exMutRank : Nat → Nat := fun n => n
/-- The caller input list of the `exMut` example. -/
def exMutIns : List (Nat × CView Nat) := [(0, .s (fun j => 100 + j))]
/-- Example network: one source function node (node 0, no inputs, single
output socket 0) feeding the requested dummy input socket 1 (node 1). -/
def exSimple : Graph :=
  { socketCount := 2
    nodeCount := 2
    isInput := fun s => s == 1
    socketNode := fun s => if s == 0 then 0 else 1
    origin := fun _ => 0
    targets := fun s => if s == 0 then [1] else []
    isDummy := fun n => n == 1
    nodeInputs := fun n => if n == 1 then [1] else []
    params := fun n => if n == 0 then [.sOut 0] else []
    isVec := fun _ => false
    dummyNodes := [1]
    functionNodes := [0] }
/-- Example network: a caller input (socket 0, dummy node 0) read by a
function node `F` (node 1, input socket 1, output socket 2) whose output
is requested (dummy input socket 3, node 2). -/
def exCaller : Graph :=
  { socketCount := 4
    nodeCount := 3
    isInput := fun s => s == 1 || s == 3
    socketNode := fun s => [0, 1, 1, 2].getD s 0
    origin := fun s => [0, 0, 0, 2].getD s 0
    targets := fun s => if s == 0 then [1] else if s == 2 then [3] else []
    isDummy := fun n => n == 0 || n == 2
    nodeInputs := fun n => if n == 1 then [1] else if n == 2 then [3] else []
    params := fun n => if n == 1 then [.sIn 1, .sOut 2] else []
    isVec := fun _ => false
    dummyNodes := [0, 2]
    functionNodes := [1] }
/-- The caller input list of the `exCaller` example. -/
def exCallerIns : List (Nat × CView Nat) := [(0, .s (fun j => 7 * j))]
/-- Example network with pure boundary passthrough: the requested dummy
input socket 1 originates directly at the caller-bound dummy output
socket 0; there are no function nodes. -/
def exPass : Graph :=
  { socketCount := 2
    nodeCount := 2
    isInput := fun s => s == 1
    socketNode := fun s => if s == 0 then 0 else 1
    origin := fun _ => 0
    targets := fun s => if s == 0 then [1] else []
    isDummy := fun _ => true
    nodeInputs := fun n => if n == 1 then [1] else []
    params := fun _ => []
    isVec := fun _ => false
    dummyNodes := [0, 1]
    functionNodes := [] }
/-- Whether a scheduler outcome completed normally. -/
def OC.isDone : OC V → Bool
  | OC.done _ => true
  | _ => false
/-- Whether a scheduler outcome stopped at a contract violation. -/
def OC.isFail : OC V → Bool
  | OC.fail _ _ => true
  | _ => false
/-- The claim that some fuel completes the scheduler loop normally with a
materialized value in storage for every requested output socket. -/
def schedComputesAll (g : Graph) (bodyS : Nat → Nat → V)
    (bodyV : Nat → Nat → List V) (minputs : List (Nat × CView V))
    (mouts mask : List Nat) (dep : Nat → Int) : Prop :=
  ∃ fuel st, schedPart g bodyS bodyV minputs mouts mask dep fuel = OC.done st ∧
    ∀ r ∈ mouts, (st.values (g.origin r)).isSome
/-- Claim C9 specialized to the `exMut` example (for any depth table the
sorting heuristic might use). -/
def exMutComputes : Prop :=
  ∃ dep, schedComputesAll (V := Nat) exMut (fun o j => o * 10 + j)
    (fun _ _ => []) exMutIns [5] [0, 1] dep
/-- A small evaluation context over `exCaller` for storage-level
witnesses. -/
def exCtx : Ctx Nat :=
  ⟨exCaller, fun _ _ => 0, fun _ _ => [], [0], fun _ => 0⟩
/-- A storage holding an owned single slot with one remaining user at
socket 0. -/
def exStOwn1 : Store Nat :=
  { values := upd (fun _ => none) 0 (some (.sOwn 5 1))
    nextBuf := 6
    sheap := fun _ _ => none
    vheap := fun _ _ => []
    events := [] }
/-- A storage holding a from-caller single view at socket 0. -/
def exStCaller : Store Nat :=
  { values := upd (fun _ => none) 0 (some (.sCaller (fun j => j)))
    nextBuf := 0
    sheap := fun _ _ => none
    vheap := fun _ _ => []
    events := [] }
/-- The slot a caller view binds to. -/
def slotOfView {V : Type} : CView V → Slot V
  | .s f => .sCaller f
  | .v f => .vCaller f
/-- The slot table produced by binding all caller inputs. -/
def baseOf (minputs : List (Nat × CView V)) : Nat → Option (Slot V) :=
  minputs.foldl (fun f p => upd f p.1 (some (slotOfView p.2))) (fun _ => none)
/-- Conclusions of a successful parameter-binding phase over a parameter
list `ps` starting from `st0`: `rk` lists the origins whose slots were
re-keyed away by a mutable take. -/
structure BindSpec (c : Ctx V) (ps : List PSpec) (st0 st1 : Store V)
    (rk : List Nat) : Prop where
  rk_src : ∀ r ∈ rk, (∃ i ∈ paramIns ps, c.g.origin i = r) ∧
    st1.values r = none ∧ r ∉ paramOuts ps
  outs : ∀ o ∈ paramOuts ps, ∃ b,
    st1.values o = some (mkOwn V (c.g.isVec o) b ((c.g.targets o).length)) ∧
    b < st1.nextBuf ∧ (rk = [] → st0.nextBuf ≤ b)
  frame : ∀ o, o ∉ paramOuts ps → o ∉ rk → st1.values o = st0.values o
  nb : st0.nextBuf ≤ st1.nextBuf
  bufok : BufOK st0 → BufOK st1
  ev : ∃ ext, st1.events = st0.events ++ ext ∧
    invokesOf ext = [] ∧ (∀ o2, countFinDec ext o2 = 0) ∧
    (∀ b2, countDestroy ext b2 = 0) ∧ (∀ b2, countTeardown ext b2 = 0) ∧
    (rk = [] → ∀ e ∈ ext, ∃ a b, e = Ev.alloc a b ((c.g.targets a).length) ∧
      a ∈ paramOuts ps ∧ st0.nextBuf ≤ b ∧
      st1.values a = some (mkOwn V (c.g.isVec a) b ((c.g.targets a).length))) ∧
    (rk = [] → ∀ a, countAlloc ext a = if a ∈ paramOuts ps then 1 else 0)
def cntOrig (g : Graph) (L : List Nat) (o : Nat) : Nat :=
  (L.filter (fun i => decide (g.origin i = o))).length
structure FinSpec {V : Type} (g : Graph) (L : List Nat) (st st' : Store V) :
    Prop where
  nvals : ∀ o, st.values o = none → cntOrig g L o = 0 ∧ st'.values o = none
  cvals : ∀ o sl, st.values o = some sl → sl.owned = false →
    st'.values o = some sl
  ovals : ∀ o b u, st.values o = some (.sOwn b u) →
    cntOrig g L o ≤ u ∧
    st'.values o = (if 0 < cntOrig g L o ∧ cntOrig g L o = u then none
      else some (.sOwn b (u - cntOrig g L o)))
  ovalsV : ∀ o b u, st.values o = some (.vOwn b u) →
    cntOrig g L o ≤ u ∧
    st'.values o = (if 0 < cntOrig g L o ∧ cntOrig g L o = u then none
      else some (.vOwn b (u - cntOrig g L o)))
  nb : st'.nextBuf = st.nextBuf
  bufok : BufOK st → BufOK st'
  heap : st'.sheap = st.sheap ∧ st'.vheap = st.vheap
  ev : ∃ ext, st'.events = st.events ++ ext ∧ invokesOf ext = [] ∧
    (∀ a, countAlloc ext a = 0) ∧ (∀ b2, countTeardown ext b2 = 0) ∧
    (∀ o, countFinDec ext o = (match st.values o with
       | some (Slot.sOwn _ _) => cntOrig g L o
       | some (Slot.vOwn _ _) => cntOrig g L o
       | _ => 0)) ∧
    (∀ b2, 0 < countDestroy ext b2 → ∃ o sl, st.values o = some sl ∧
      sl.owned = true ∧ sl.bufOf = b2) ∧
    (BufOK st → ∀ o sl, st.values o = some sl → sl.owned = true →
      (0 < cntOrig g L o ∧ cntOrig g L o = sl.usersOf →
        countDestroy ext sl.bufOf = 1 ∧
        ∃ p q, ext = p ++ [Ev.finDec o 0, Ev.destroy sl.bufOf] ++ q ∧
          countFinDec q o = 0) ∧
      (¬(0 < cntOrig g L o ∧ cntOrig g L o = sl.usersOf) →
        countDestroy ext sl.bufOf = 0))
/-- Set-once extension of a depth table: resolved entries never change. -/
def DExt (d d' : Nat → Int) : Prop := ∀ m, 0 ≤ d m → d' m = d m
/-- Depth values are either the unresolved marker `-1` or non-negative. -/
def VOK (d : Nat → Int) : Prop := ∀ m, d m = -1 ∨ 0 ≤ d m
/-- Dummy nodes are resolved from the start. -/
def DumZero (g : Graph) (d : Nat → Int) : Prop :=
  ∀ m, m < g.nodeCount → g.isDummy m = true → 0 ≤ d m
/-- Every resolved function node satisfies the max-depth equation and has
all its input origins resolved. -/
def FixInv (g : Graph) (d : Nat → Int) : Prop :=
  ∀ m ∈ g.functionNodes, 0 ≤ d m →
    (∀ i ∈ g.nodeInputs m, 0 ≤ d (g.socketNode (g.origin i))) ∧
    d m = dMaxIn g d m + 1
/-- The full depth-worklist invariant. -/
def DInvAll (g : Graph) (d : Nat → Int) : Prop :=
  VOK d ∧ DumZero g d ∧ FixInv g d
/-- A node the depth worklist can fully process off the top of the
stack within some fuel, resolving it. -/
def ProcessOK (g : Graph) (n : Nat) : Prop :=
  ∀ d stk, DInvAll g d → (0 ≤ d n ∨ n ∈ g.functionNodes) →
    ∃ k d', dRunN g k (.drun ⟨d, n :: stk⟩) = .drun ⟨d', stk⟩ ∧
      DExt d d' ∧ DInvAll g d' ∧ 0 ≤ d' n
/-- The caller view bound to output socket `o`, looked up by id. -/
def lookupView {V : Type} (minputs : List (Nat × CView V)) (o : Nat) :
    Option (CView V) :=
  (minputs.find? (fun p => p.1 == o)).map Prod.snd
/-- Conclusions of one successful `evaluate_function` call on node `n`
starting from `st`: fresh owned output slots, per-origin finish
decrements, a single `invoke` in the trace extension, and the
finish/destroy accounting. -/
structure EvalSpec (c : Ctx V) (n : Nat) (st st' : Store V) : Prop where
  vals_out : ∀ o ∈ paramOuts (c.g.params n), ∃ b, st.nextBuf ≤ b ∧
    st'.values o = some (mkOwn V (c.g.isVec o) b ((c.g.targets o).length))
  vals_none : ∀ o, o ∉ paramOuts (c.g.params n) → st.values o = none →
    st'.values o = none
  vals_caller : ∀ o sl, o ∉ paramOuts (c.g.params n) →
    st.values o = some sl → sl.owned = false → st'.values o = some sl
  vals_own : ∀ o b u, o ∉ paramOuts (c.g.params n) →
    st.values o = some (.sOwn b u) →
    cntOrig c.g (c.g.nodeInputs n) o ≤ u ∧
    st'.values o = (if 0 < cntOrig c.g (c.g.nodeInputs n) o ∧
        cntOrig c.g (c.g.nodeInputs n) o = u then none
      else some (.sOwn b (u - cntOrig c.g (c.g.nodeInputs n) o)))
  vals_ownV : ∀ o b u, o ∉ paramOuts (c.g.params n) →
    st.values o = some (.vOwn b u) →
    cntOrig c.g (c.g.nodeInputs n) o ≤ u ∧
    st'.values o = (if 0 < cntOrig c.g (c.g.nodeInputs n) o ∧
        cntOrig c.g (c.g.nodeInputs n) o = u then none
      else some (.vOwn b (u - cntOrig c.g (c.g.nodeInputs n) o)))
  nb : st.nextBuf ≤ st'.nextBuf
  bufok : BufOK st'
  ev : ∃ ext, st'.events = st.events ++ ext ∧ invokesOf ext = [n] ∧
    (∀ a, countAlloc ext a =
      if a ∈ paramOuts (c.g.params n) then 1 else 0) ∧
    (∀ b2, countTeardown ext b2 = 0) ∧
    (∀ o, countFinDec ext o = (match st.values o with
      | some (Slot.sOwn _ _) => cntOrig c.g (c.g.nodeInputs n) o
      | some (Slot.vOwn _ _) => cntOrig c.g (c.g.nodeInputs n) o
      | _ => 0)) ∧
    (∀ a b u, Ev.alloc a b u ∈ ext → a ∈ paramOuts (c.g.params n) ∧
      u = (c.g.targets a).length ∧ st.nextBuf ≤ b ∧
      st'.values a = some (mkOwn V (c.g.isVec a) b u)) ∧
    (∀ b2, 0 < countDestroy ext b2 → ∃ o sl, st.values o = some sl ∧
      sl.owned = true ∧ sl.bufOf = b2 ∧ o ∉ paramOuts (c.g.params n)) ∧
    (∀ o sl, st.values o = some sl → sl.owned = true →
      o ∉ paramOuts (c.g.params n) →
      (0 < cntOrig c.g (c.g.nodeInputs n) o ∧
          cntOrig c.g (c.g.nodeInputs n) o = sl.usersOf →
        countDestroy ext sl.bufOf = 1 ∧
        ∃ p q, ext = p ++ [Ev.finDec o 0, Ev.destroy sl.bufOf] ++ q ∧
          countFinDec q o = 0) ∧
      (¬(0 < cntOrig c.g (c.g.nodeInputs n) o ∧
          cntOrig c.g (c.g.nodeInputs n) o = sl.usersOf) →
        countDestroy ext sl.bufOf = 0))
/-- Progress-extension between storage states: invoked nodes stay
invoked, and a materialized origin slot of a still-unfinished input stays
materialized. -/
def SExt (g : Graph) (st st' : Store V) : Prop :=
  (∀ m, invoked st m → invoked st' m) ∧
  (∀ i, i < g.socketCount → g.isInput i = true → ¬ finished g st' i →
    (st.values (g.origin i)).isSome → (st'.values (g.origin i)).isSome)
/-- Whether a call outcome is a normal return. -/
def CallOut.isOk {V : Type} : CallOut V → Bool
  | CallOut.ok _ _ => true
  | CallOut.fail _ _ => false
/-- The corrected slot-presence invariant: storage (keyed by output id,
hence one slot per id) holds a slot for a function-node output iff that
node has been invoked and the output is unconsumed (or has no targets at
all), with the present slot's remaining-user count always equal to the
number of the output's targets whose consuming node has not been invoked,
while a caller-bound boundary output keeps its from-caller slot for
the whole call, consumed or not. -/
def slotPresenceIff {V : Type} (g : Graph) (minputs : List (Nat × CView V))
    (st : Store V) : Prop :=
  (∀ o, o < g.socketCount → g.isInput o = false →
    g.isDummy (g.socketNode o) = false →
    ((st.values o).isSome ↔ invoked st (g.socketNode o) ∧
      (g.targets o = [] ∨ 0 < unfin g st o))) ∧
  (∀ o sl, o < g.socketCount → g.isInput o = false →
    g.isDummy (g.socketNode o) = false → st.values o = some sl →
    sl.usersOf = unfin g st o) ∧
  (∀ o, o < g.socketCount → g.isInput o = false →
    g.isDummy (g.socketNode o) = true → st.values o = baseOf minputs o)
/-- A stack entry the scheduler can fully discharge: from any invariant
state with the entry on top, finitely many loop iterations pop it, leaving
the invariant, a progress extension, and the entry's demand satisfied. -/
def ProcOK2 {V : Type} (c : Ctx V) (base : Nat → Option (Slot V))
    (s : Nat) : Prop :=
  ∀ (st : Store V) (r : List Nat), SInv c.g base st (s :: r) →
    ∃ m st2, runN c m (.run st (s :: r)) = .run st2 r ∧
      SInv c.g base st2 r ∧ SExt c.g st st2 ∧
      (c.g.isInput s = true → inputIsComputed c.g st2 s = true) ∧
      (c.g.isInput s = false → invoked st2 (c.g.socketNode s))
instance (p : PSpec) : Decidable (match p with
    | PSpec.mutS _ _ => False
    | PSpec.mutV _ _ => False
    | _ => True) :=
  match p with
  | .sIn _ => isTrue trivial
  | .vIn _ => isTrue trivial
  | .sOut _ => isTrue trivial
  | .vOut _ => isTrue trivial
  | .mutS _ _ => isFalse id
  | .mutV _ _ => isFalse id
instance (g : Graph) : Decidable (NoMut g) :=
  inferInstanceAs (Decidable (∀ n, n < g.nodeCount → ∀ p ∈ g.params n,
    (match p with
     | PSpec.mutS _ _ => False
     | PSpec.mutV _ _ => False
     | _ => True)))
instance {V : Type} (g : Graph) (minputs : List (Nat × CView V)) :
    Decidable (BoundOK g minputs) :=
  inferInstanceAs (Decidable (∀ i, i < g.socketCount →
    g.isInput i = true → g.isDummy (g.socketNode (g.origin i)) = true →
    g.origin i ∈ minputs.map Prod.fst))
/-- Lifetime accounting for the owned slots created so far in this call,
read off the event trace: each `alloc` is unique per socket and records
the socket's target count; its slot is either still live (decrements
received so far plus the remaining-user count equal the recorded count,
nothing destroyed yet) or fully consumed (all decrements delivered and the
buffer destroyed exactly once, immediately after the last decrement). -/
structure AInv (g : Graph) (st : Store V) : Prop where
  a_once : ∀ o b u, Ev.alloc o b u ∈ st.events →
    countAlloc st.events o = 1
  a_tgt : ∀ o b u, Ev.alloc o b u ∈ st.events → u = (g.targets o).length
  a_inv : ∀ o b u, Ev.alloc o b u ∈ st.events →
    invoked st (g.socketNode o)
  a_lt : ∀ o b u, Ev.alloc o b u ∈ st.events → b < st.nextBuf
  d_lt : ∀ b, 0 < countDestroy st.events b → b < st.nextBuf
  a_state : ∀ o b u, Ev.alloc o b u ∈ st.events →
    (∃ sl, st.values o = some sl ∧ sl.owned = true ∧ sl.bufOf = b ∧
       countFinDec st.events o + sl.usersOf = u ∧
       (0 < u → 0 < sl.usersOf) ∧
       countDestroy st.events b = 0) ∨
    (st.values o = none ∧ countFinDec st.events o = u ∧ 0 < u ∧
       countDestroy st.events b = 1 ∧
       (∀ o2 sl2, st.values o2 = some sl2 → sl2.owned = true →
         sl2.bufOf ≠ b) ∧
       ∃ p q, st.events = p ++ [Ev.finDec o 0, Ev.destroy b] ++ q ∧
         countFinDec q o = 0)
  slot_alloc : ∀ o sl, st.values o = some sl → sl.owned = true →
    Ev.alloc o sl.bufOf ((g.targets o).length) ∈ st.events
  fin_alloc : ∀ o, countAlloc st.events o = 0 → countFinDec st.events o = 0
  td_none : ∀ b, countTeardown st.events b = 0
/-- Scheduler outcome carrying both the storage invariant and the
allocation-lifetime accounting. -/
def OCA {V : Type} (g : Graph) (base : Nat → Option (Slot V)) :
    OC V → Prop
  | OC.run st stk => SInv g base st stk ∧ AInv g st
  | OC.done st => SInv g base st [] ∧ AInv g st
  | OC.fail _ _ => True
@[simp] theorem upd_same {α : Type} (f : Nat → α) (i : Nat) (v : α) :
    upd f i v i = v := by simp [upd]
theorem upd_ne {α : Type} (f : Nat → α) {i j : Nat} (v : α) (h : j ≠ i) :
    upd f i v j = f j := by simp [upd, h]
@[simp] theorem upd_apply {α : Type} (f : Nat → α) (i j : Nat) (v : α) :
    upd f i v j = if j = i then v else f j := rfl
theorem runN_add (c : Ctx V) (a b : Nat) (o : OC V) :
    runN c (a + b) o = runN c a (runN c b o) := by
  induction a with
  | zero => simp [runN]
  | succ a ih => rw [Nat.succ_add, runN, ih, runN]
theorem step1_fail (c : Ctx V) (e : Err) (st : Store V) :
    step1 c (.fail e st) = .fail e st := rfl
theorem step1_done (c : Ctx V) (st : Store V) :
    step1 c (.done st) = .done st := rfl
theorem runN_fail (c : Ctx V) (k : Nat) (e : Err) (st : Store V) :
    runN c k (.fail e st) = .fail e st := by
  induction k with
  | zero => rfl
  | succ k ih => rw [runN, ih, step1_fail]
theorem runN_done (c : Ctx V) (k : Nat) (st : Store V) :
    runN c k (.done st) = .done st := by
  induction k with
  | zero => rfl
  | succ k ih => rw [runN, ih, step1_done]
theorem dRunN_add (g : Graph) (a b : Nat) (o : DOC) :
    dRunN g (a + b) o = dRunN g a (dRunN g b o) := by
  induction a with
  | zero => simp [dRunN]
  | succ a ih => rw [Nat.succ_add, dRunN, ih, dRunN]
theorem dStep1_ddone (g : Graph) (d : Nat → Int) :
    dStep1 g (.ddone d) = .ddone d := rfl
theorem dRunN_ddone (g : Graph) (k : Nat) (d : Nat → Int) :
    dRunN g k (.ddone d) = .ddone d := by
  induction k with
  | zero => rfl
  | succ k ih => rw [dRunN, ih, dStep1_ddone]
theorem isDone_false_of_isFail {o : OC V} (h : o.isFail = true) :
    o.isDone = false := by
  rcases o with ⟨st, stk⟩ | ⟨st⟩ | ⟨e, st⟩ <;> simp_all [OC.isFail, OC.isDone]
theorem runN_isFail (c : Ctx V) (k : Nat) {o : OC V} (h : o.isFail = true) :
    (runN c k o).isFail = true := by
  rcases o with ⟨st, stk⟩ | ⟨st⟩ | ⟨e, st⟩
  · simp [OC.isFail] at h
  · simp [OC.isFail] at h
  · rw [runN_fail]; exact h
/-- C10: if the index mask is empty, `MF_EvaluateNetwork::call` returns
immediately: no storage is constructed, no function node is invoked (the
trace is empty), and the caller's output destinations are returned
completely untouched. -/
theorem C10_empty_mask_noop (g : Graph) (bodyS : Nat → Nat → V)
    (bodyV : Nat → Nat → List V) (minputs : List (Nat × CView V))
    (mouts : List Nat) (douts : List (DBuf V)) (fuel : Nat) :
    callFn g bodyS bodyV minputs mouts [] douts fuel = .ok douts [] := by
  simp [callFn]
/-- C2: the code violates the claim at the `exMut` network. The node `M`
has a `MutableSingle` parameter whose `take_mutable` re-keys the origin
slot (socket 2, sole remaining user) to `M`'s output, so the subsequent
`finish_input` on `M`'s input socket 3 finds a null slot for its origin —
the `BLI_assert(any_value != nullptr)` in `finish_input_socket` fires
(undefined behaviour in release builds). The call stops with that
violation, with `F` invoked but `M`'s finish never completing; the trace
shows only `F`'s allocation, `F`'s invocation, and the no-op finish of
`F`'s caller-bound input. -/
theorem C2_rekey_breaks_finish_input :
    (callFn exMut (fun o j => o * 10 + j) (fun _ _ => []) exMutIns [5] [0, 1]
      [.s (fun _ => none)] 20).errOf = some (.finishNull 3) ∧
    (callFn exMut (fun o j => o * 10 + j) (fun _ _ => []) exMutIns [5] [0, 1]
      [.s (fun _ => none)] 20).trace =
      [.alloc 2 0 1, .invoke 1, .finNoop 0] := by
  exact ⟨by decide, by decide⟩
/-- C4 counterexample: in the `exSimple` network the slot for socket 0 is
created with recorded target count 1, but across its whole lifetime it
receives zero `finish_input` calls (the requested dummy input is never
finished), so the sum of finishes does not equal the target count; the
buffer is not destroyed after a last finish but freed by the storage
destructor at teardown. -/
theorem C4_counterexample :
    Ev.alloc 0 0 1 ∈ (callFn exSimple (fun o j => o + j) (fun _ _ => []) []
      [1] [0, 1] [.s (fun _ => none)] 20).trace ∧
    countFinDec ((callFn exSimple (fun o j => o + j) (fun _ _ => []) []
      [1] [0, 1] [.s (fun _ => none)] 20).trace) 0 = 0 ∧
    countFinDec ((callFn exSimple (fun o j => o + j) (fun _ _ => []) []
      [1] [0, 1] [.s (fun _ => none)] 20).trace) 0 ≠ 1 ∧
    countDestroy ((callFn exSimple (fun o j => o + j) (fun _ _ => []) []
      [1] [0, 1] [.s (fun _ => none)] 20).trace) 0 = 0 ∧
    countTeardown ((callFn exSimple (fun o j => o + j) (fun _ _ => []) []
      [1] [0, 1] [.s (fun _ => none)] 20).trace) 0 = 1 := by
  refine ⟨by decide, by decide, by decide, by decide, by decide⟩
/-- C5 counterexample: two steps into the scheduler loop on the
`exCaller` network, the caller-bound slot at socket 0 is still present
although its only target (socket 1, consumed by the already-invoked node
`F`) is fully consumed — `finish_input` is a no-op on from-caller slots,
so "present iff computed/supplied and not yet fully consumed" fails in
the right-to-left direction. -/
theorem C5_counterexample :
    ((schedPart (V := Nat) exCaller (fun o j => o + j) (fun _ _ => [])
      exCallerIns [3] [0] (fun _ => 0) 2).store.values 0).isSome = true ∧
    unfin exCaller ((schedPart (V := Nat) exCaller (fun o j => o + j)
      (fun _ _ => []) exCallerIns [3] [0] (fun _ => 0) 2).store) 0 = 0 ∧
    exCaller.targets 0 = [1] := by
  exact ⟨by decide, by decide, by decide⟩
/-- C9 counterexample: on the `exMut` network (which contains an in-place
parameter whose origin has a single remaining user) the scheduler loop
never completes normally for any fuel and any depth table: it always stops
at the `finish_input` contract violation caused by the re-keyed slot, so
no state with a materialized value for the requested socket is reached. -/
theorem C9_counterexample : ¬ exMutComputes := by
  rintro ⟨dep, fuel, st, hdone, -⟩
  have hnd : (schedPart (V := Nat) exMut (fun o j => o * 10 + j)
      (fun _ _ => []) exMutIns [5] [0, 1] dep fuel).isDone = false := by
    rcases Nat.lt_or_ge fuel 6 with hf | hf
    · interval_cases fuel <;> rfl
    · obtain ⟨k, rfl⟩ : ∃ k, fuel = k + 6 := ⟨fuel - 6, by omega⟩
      show (runN ⟨exMut, _, _, _, dep⟩ (k + 6) (.run _ [5])).isDone = false
      rw [runN_add]
      exact isDone_false_of_isFail (runN_isFail _ k (by rfl))
  rw [hdone] at hnd
  exact absurd hnd (by simp [OC.isDone])
theorem foldl_append_eq {α β : Type} (f : α → List β) (l : List α) (a : List β) :
    l.foldl (fun acc o => acc ++ f o) a = a ++ l.flatMap f := by
  induction l generalizing a with
  | nil => simp
  | cons x xs ih => simp [List.foldl, ih, List.flatMap_cons]
theorem teardownEvents_eq (g : Graph) (st : Store V) :
    teardownEvents g st = (List.range g.socketCount).flatMap (tdOf st) := by
  simp [teardownEvents, foldl_append_eq]
theorem mem_teardown (g : Graph) (st : Store V) (b : Nat)
    (h : Ev.teardown b ∈ teardownEvents g st) :
    ∃ o, o < g.socketCount ∧ ∃ sl, st.values o = some sl ∧
      sl.owned = true ∧ sl.bufOf = b := by
  rw [teardownEvents_eq] at h
  rcases List.mem_flatMap.mp h with ⟨o, ho, hin⟩
  refine ⟨o, List.mem_range.mp ho, ?_⟩
  rcases hv : st.values o with _ | sl
  · simp [tdOf, hv, tdSlot] at hin
  · rcases sl with ⟨view⟩ | ⟨view⟩ | ⟨b2, u⟩ | ⟨b2, u⟩
    · simp [tdOf, hv, tdSlot] at hin
    · simp [tdOf, hv, tdSlot] at hin
    · simp [tdOf, hv, tdSlot] at hin
      exact ⟨_, rfl, rfl, hin.symm⟩
    · simp [tdOf, hv, tdSlot] at hin
      exact ⟨_, rfl, rfl, hin.symm⟩
/-- C3: `get_mutable_single` / `get_mutable_vector` implement the
move-or-copy decision. With an owned origin slot of remaining-user count 1
the same buffer is re-keyed to the output id with no new allocation and
its count reset to the output's target count; with count greater than 1 a
fresh owned buffer is allocated and copy-constructed from the shared one
over the mask while the original slot is left unchanged; a borrowed
from-caller origin always yields a fresh owned buffer filled by copy from
the view. -/
theorem C3_take_mutable_move_or_copy (c : Ctx V) (st : Store V) (i o : Nat)
    (hne : o ≠ c.g.origin i) :
    ((∀ b, st.values (c.g.origin i) = some (.sOwn b 1) →
      ∃ st', getMutableSingle c st i o = .ok (b, st') ∧
        st'.nextBuf = st.nextBuf ∧
        st'.sheap = st.sheap ∧
        st'.values o = some (.sOwn b ((c.g.targets o).length)) ∧
        st'.values (c.g.origin i) = none) ∧
    (∀ b u, st.values (c.g.origin i) = some (.sOwn b u) → 2 ≤ u →
      ∃ st', getMutableSingle c st i o = .ok (st.nextBuf, st') ∧
        st'.nextBuf = st.nextBuf + 1 ∧
        st'.values o = some (.sOwn st.nextBuf ((c.g.targets o).length)) ∧
        st'.values (c.g.origin i) = some (.sOwn b u) ∧
        (∀ j ∈ c.mask, st'.sheap st.nextBuf j = st.sheap b j) ∧
        (∀ j, j ∉ c.mask → st'.sheap st.nextBuf j = none)) ∧
    (∀ view, st.values (c.g.origin i) = some (.sCaller view) →
      ∃ st', getMutableSingle c st i o = .ok (st.nextBuf, st') ∧
        st'.nextBuf = st.nextBuf + 1 ∧
        st'.values o = some (.sOwn st.nextBuf ((c.g.targets o).length)) ∧
        st'.values (c.g.origin i) = some (.sCaller view) ∧
        (∀ j ∈ c.mask, st'.sheap st.nextBuf j = some (view j)) ∧
        (∀ j, j ∉ c.mask → st'.sheap st.nextBuf j = none))) ∧
    ((∀ b, st.values (c.g.origin i) = some (.vOwn b 1) →
      ∃ st', getMutableVector c st i o = .ok (b, st') ∧
        st'.nextBuf = st.nextBuf ∧
        st'.vheap = st.vheap ∧
        st'.values o = some (.vOwn b ((c.g.targets o).length)) ∧
        st'.values (c.g.origin i) = none) ∧
    (∀ b u, st.values (c.g.origin i) = some (.vOwn b u) → 2 ≤ u →
      ∃ st', getMutableVector c st i o = .ok (st.nextBuf, st') ∧
        st'.nextBuf = st.nextBuf + 1 ∧
        st'.values o = some (.vOwn st.nextBuf ((c.g.targets o).length)) ∧
        st'.values (c.g.origin i) = some (.vOwn b u) ∧
        (∀ j ∈ c.mask, st'.vheap st.nextBuf j = st.vheap b j) ∧
        (∀ j, j ∉ c.mask → st'.vheap st.nextBuf j = [])) ∧
    (∀ view, st.values (c.g.origin i) = some (.vCaller view) →
      ∃ st', getMutableVector c st i o = .ok (st.nextBuf, st') ∧
        st'.nextBuf = st.nextBuf + 1 ∧
        st'.values o = some (.vOwn st.nextBuf ((c.g.targets o).length)) ∧
        st'.values (c.g.origin i) = some (.vCaller view) ∧
        (∀ j ∈ c.mask, st'.vheap st.nextBuf j = view j) ∧
        (∀ j, j ∉ c.mask → st'.vheap st.nextBuf j = []))) := by
  refine ⟨⟨?_, ?_, ?_⟩, ⟨?_, ?_, ?_⟩⟩
  · intro b h
    refine ⟨{ st with
        values := upd (upd st.values o
          (some (.sOwn b ((c.g.targets o).length)))) (c.g.origin i) none
        events := st.events ++
          [.rekey (c.g.origin i) o b ((c.g.targets o).length)] },
      by simp [getMutableSingle, h], rfl, rfl, ?_, by simp [upd]⟩
    simp [upd, hne]
  · intro b u h hu
    have h1 : u ≠ 1 := by omega
    refine ⟨{ st with
        values := upd st.values o (some (.sOwn st.nextBuf ((c.g.targets o).length)))
        nextBuf := st.nextBuf + 1
        sheap := (upd st.sheap st.nextBuf
          (fun j => if j ∈ c.mask then st.sheap b j else none))
        events := st.events ++ [.alloc o st.nextBuf ((c.g.targets o).length)] },
      by simp [getMutableSingle, h, h1], rfl, by simp [upd], ?_, ?_, ?_⟩
    · simp [upd, Ne.symm hne, h]
    · intro j hj; simp [upd, hj]
    · intro j hj; simp [upd, hj]
  · intro view h
    refine ⟨{ st with
        values := upd st.values o (some (.sOwn st.nextBuf ((c.g.targets o).length)))
        nextBuf := st.nextBuf + 1
        sheap := (upd st.sheap st.nextBuf
          (fun j => if j ∈ c.mask then some (view j) else none))
        events := st.events ++ [.alloc o st.nextBuf ((c.g.targets o).length)] },
      by simp [getMutableSingle, h], rfl, by simp [upd], ?_, ?_, ?_⟩
    · simp [upd, Ne.symm hne, h]
    · intro j hj; simp [upd, hj]
    · intro j hj; simp [upd, hj]
  · intro b h
    refine ⟨{ st with
        values := upd (upd st.values o
          (some (.vOwn b ((c.g.targets o).length)))) (c.g.origin i) none
        events := st.events ++
          [.rekey (c.g.origin i) o b ((c.g.targets o).length)] },
      by simp [getMutableVector, h], rfl, rfl, ?_, by simp [upd]⟩
    simp [upd, hne]
  · intro b u h hu
    have h1 : u ≠ 1 := by omega
    refine ⟨{ st with
        values := upd st.values o (some (.vOwn st.nextBuf ((c.g.targets o).length)))
        nextBuf := st.nextBuf + 1
        vheap := (upd st.vheap st.nextBuf
          (fun j => if j ∈ c.mask then st.vheap b j else []))
        events := st.events ++ [.alloc o st.nextBuf ((c.g.targets o).length)] },
      by simp [getMutableVector, h, h1], rfl, by simp [upd], ?_, ?_, ?_⟩
    · simp [upd, Ne.symm hne, h]
    · intro j hj; simp [upd, hj]
    · intro j hj; simp [upd, hj]
  · intro view h
    refine ⟨{ st with
        values := upd st.values o (some (.vOwn st.nextBuf ((c.g.targets o).length)))
        nextBuf := st.nextBuf + 1
        vheap := (upd st.vheap st.nextBuf
          (fun j => if j ∈ c.mask then view j else []))
        events := st.events ++ [.alloc o st.nextBuf ((c.g.targets o).length)] },
      by simp [getMutableVector, h], rfl, by simp [upd], ?_, ?_, ?_⟩
    · simp [upd, Ne.symm hne, h]
    · intro j hj; simp [upd, hj]
    · intro j hj; simp [upd, hj]
/-- Witness for C3 at a concrete input: an owned single slot with one
remaining user at socket 0 of `exCaller` is re-keyed to socket 2 with no
new allocation. -/
theorem C3_take_mutable_move_or_copy_witness :
    (2 : Nat) ≠ exCtx.g.origin 1 ∧
    (∃ st', getMutableSingle exCtx exStOwn1 1 2 = .ok (5, st') ∧
      st'.nextBuf = exStOwn1.nextBuf ∧
      st'.sheap = exStOwn1.sheap ∧
      st'.values 2 = some (.sOwn 5 ((exCtx.g.targets 2).length)) ∧
      st'.values (exCtx.g.origin 1) = none) :=
  ⟨by decide,
   ((C3_take_mutable_move_or_copy exCtx exStOwn1 1 2 (by decide)).1.1 5 rfl)⟩
/-- C8: values bound through the caller-input path are never mutated or
freed by the engine: `finish_input` on an input whose origin holds a
from-caller slot only records a no-op event and changes no state, the
storage destructor frees only owned slots, and `take_mutable` on a
from-caller origin allocates a fresh buffer filled by copy from the view
while leaving the from-caller slot in place. -/
theorem C8_caller_values_untouched (c : Ctx V) (st : Store V) (i o : Nat)
    (hne : o ≠ c.g.origin i) :
    (∀ view, st.values (c.g.origin i) = some (.sCaller view) →
      finishInput c.g st i =
        .ok { st with events := st.events ++ [.finNoop (c.g.origin i)] }) ∧
    (∀ view, st.values (c.g.origin i) = some (.vCaller view) →
      finishInput c.g st i =
        .ok { st with events := st.events ++ [.finNoop (c.g.origin i)] }) ∧
    (∀ b, Ev.teardown b ∈ teardownEvents c.g st →
      ∃ o2, o2 < c.g.socketCount ∧ ∃ sl, st.values o2 = some sl ∧
        sl.owned = true ∧ sl.bufOf = b) ∧
    (∀ view, st.values (c.g.origin i) = some (.sCaller view) →
      ∃ st', getMutableSingle c st i o = .ok (st.nextBuf, st') ∧
        st'.values (c.g.origin i) = some (.sCaller view) ∧
        st'.nextBuf = st.nextBuf + 1 ∧
        (∀ j ∈ c.mask, st'.sheap st.nextBuf j = some (view j))) ∧
    (∀ view, st.values (c.g.origin i) = some (.vCaller view) →
      ∃ st', getMutableVector c st i o = .ok (st.nextBuf, st') ∧
        st'.values (c.g.origin i) = some (.vCaller view) ∧
        st'.nextBuf = st.nextBuf + 1 ∧
        (∀ j ∈ c.mask, st'.vheap st.nextBuf j = view j)) := by
  refine ⟨?_, ?_, ?_, ?_, ?_⟩
  · intro view h; simp [finishInput, h]
  · intro view h; simp [finishInput, h]
  · intro b h; exact mem_teardown c.g st b h
  · intro view h
    refine ⟨{ st with
        values := upd st.values o (some (.sOwn st.nextBuf ((c.g.targets o).length)))
        nextBuf := st.nextBuf + 1
        sheap := (upd st.sheap st.nextBuf
          (fun j => if j ∈ c.mask then some (view j) else none))
        events := st.events ++ [.alloc o st.nextBuf ((c.g.targets o).length)] },
      by simp [getMutableSingle, h], by simp [upd, Ne.symm hne, h], rfl, ?_⟩
    intro j hj; simp [upd, hj]
  · intro view h
    refine ⟨{ st with
        values := upd st.values o (some (.vOwn st.nextBuf ((c.g.targets o).length)))
        nextBuf := st.nextBuf + 1
        vheap := (upd st.vheap st.nextBuf
          (fun j => if j ∈ c.mask then view j else []))
        events := st.events ++ [.alloc o st.nextBuf ((c.g.targets o).length)] },
      by simp [getMutableVector, h], by simp [upd, Ne.symm hne, h], rfl, ?_⟩
    intro j hj; simp [upd, hj]
/-- Witness for C8 at a concrete input: a from-caller slot at socket 0 of
`exCaller` survives `finish_input` untouched. -/
theorem C8_caller_values_untouched_witness :
    (2 : Nat) ≠ exCtx.g.origin 1 ∧
    finishInput exCtx.g exStCaller 1 =
      .ok { exStCaller with
        events := exStCaller.events ++ [.finNoop (exCtx.g.origin 1)] } :=
  ⟨by decide,
   (C8_caller_values_untouched exCtx exStCaller 1 2 (by decide)).1
     (fun j => j) rfl⟩
theorem bindFold_ok (minputs : List (Nat × CView V)) (st : Store V)
    (h : ∀ p ∈ minputs, st.values p.1 = none)
    (hnd : (minputs.map Prod.fst).Nodup) :
    minputs.foldlM bindCaller st = .ok { st with
      values := minputs.foldl
        (fun f p => upd f p.1 (some (slotOfView p.2))) st.values } := by
  induction minputs generalizing st with
  | nil => rfl
  | cons p ps ih =>
    have hb : bindCaller st p = .ok { st with
        values := upd st.values p.1 (some (slotOfView p.2)) } := by
      rcases p with ⟨o, f | f⟩
      · simp [bindCaller, addSingleFromCaller, h _ (List.mem_cons_self _ _),
          slotOfView]
      · simp [bindCaller, addVectorFromCaller, h _ (List.mem_cons_self _ _),
          slotOfView]
    rw [List.foldlM_cons, hb]
    simp only [List.map_cons, List.nodup_cons] at hnd
    have := ih { st with
        values := upd st.values p.1 (some (slotOfView p.2)) }
      (fun q hq => by
        have hne : q.1 ≠ p.1 := by
          intro he
          exact hnd.1 (he ▸ List.mem_map_of_mem Prod.fst hq)
        simp [upd, hne, h _ (List.mem_cons_of_mem _ hq)])
      hnd.2
    simpa [List.foldl_cons] using this
theorem bindFold_init (minputs : List (Nat × CView V))
    (hnd : (minputs.map Prod.fst).Nodup) :
    minputs.foldlM bindCaller (initStore V) = .ok { initStore V with
      values := baseOf minputs } :=
  bindFold_ok minputs (initStore V) (fun _ _ => rfl) hnd
theorem exc_bind_ok {α β : Type} {x : Except Err α} {f : α → Except Err β}
    {b : β} (h : (x >>= f) = .ok b) : ∃ a, x = .ok a ∧ f a = .ok b := by
  rcases x with e | a
  · simp [Bind.bind, Except.bind] at h
  · exact ⟨a, rfl, h⟩
@[simp] theorem paramIns_nil : paramIns [] = [] := rfl
@[simp] theorem paramIns_cons (p : PSpec) (ps : List PSpec) :
    paramIns (p :: ps) = p.ins ++ paramIns ps := by
  simp [paramIns]
@[simp] theorem paramOuts_nil : paramOuts [] = [] := rfl
@[simp] theorem paramOuts_cons (p : PSpec) (ps : List PSpec) :
    paramOuts (p :: ps) = p.outs ++ paramOuts ps := by
  simp [paramOuts]
theorem countFinDec_append (a b : List Ev) (o : Nat) :
    countFinDec (a ++ b) o = countFinDec a o + countFinDec b o := by
  simp [countFinDec]
theorem countDestroy_append (a b : List Ev) (x : Nat) :
    countDestroy (a ++ b) x = countDestroy a x + countDestroy b x := by
  simp [countDestroy]
theorem countTeardown_append (a b : List Ev) (x : Nat) :
    countTeardown (a ++ b) x = countTeardown a x + countTeardown b x := by
  simp [countTeardown]
theorem countAlloc_append (a b : List Ev) (o : Nat) :
    countAlloc (a ++ b) o = countAlloc a o + countAlloc b o := by
  simp [countAlloc]
theorem invokesOf_append (a b : List Ev) :
    invokesOf (a ++ b) = invokesOf a ++ invokesOf b := by
  simp [invokesOf]
theorem invoked_append_iff (st : Store V) (ext : List Ev) (m : Nat) :
    (Ev.invoke m ∈ st.events ++ ext) ↔
      (invoked st m ∨ Ev.invoke m ∈ ext) := by
  simp [invoked]
theorem mem_invokesOf (ext : List Ev) (m : Nat) :
    m ∈ invokesOf ext ↔ Ev.invoke m ∈ ext := by
  simp [invokesOf]
  constructor
  · rintro ⟨e, he, hm⟩
    rcases e <;> simp_all
  · intro h
    exact ⟨Ev.invoke m, h, rfl⟩
theorem writeTargets_values (c : Ctx V) (st : Store V) (ws : List WTgt) :
    (writeTargets c st ws).values = st.values ∧
    (writeTargets c st ws).events = st.events ∧
    (writeTargets c st ws).nextBuf = st.nextBuf := by
  induction ws generalizing st with
  | nil => exact ⟨rfl, rfl, rfl⟩
  | cons w ws ih =>
    rcases hw : w.isVec with _ | _ <;>
      simpa [writeTargets, hw] using ih _
theorem paramOuts_single (p : PSpec) : paramOuts [p] = p.outs := by
  simp [paramOuts]
theorem paramIns_single (p : PSpec) : paramIns [p] = p.ins := by
  simp [paramIns]
theorem bindSpec_cons {V : Type} (c : Ctx V) (p : PSpec) (ps : List PSpec)
    (st0 stA st1 : Store V) (rkp rk : List Nat)
    (hsep : ∀ i ∈ paramIns (p :: ps), ∀ o ∈ paramOuts (p :: ps),
      c.g.origin i ≠ o)
    (hnd : (paramOuts (p :: ps)).Nodup)
    (h1 : BindSpec c [p] st0 stA rkp)
    (h2 : BindSpec c ps stA st1 rk) :
    BindSpec c (p :: ps) st0 st1 (rkp ++ rk) := by
  have houts1 : ∀ o ∈ p.outs, o ∈ paramOuts (p :: ps) := by
    intro o ho; rw [paramOuts_cons]; exact List.mem_append_left _ ho
  have houts2 : ∀ o ∈ paramOuts ps, o ∈ paramOuts (p :: ps) := by
    intro o ho; rw [paramOuts_cons]; exact List.mem_append_right _ ho
  have hdisj : ∀ o ∈ p.outs, o ∉ paramOuts ps := by
    intro o ho hmem
    rw [paramOuts_cons] at hnd
    exact (List.disjoint_of_nodup_append hnd) ho hmem
  have hins1 : ∀ i ∈ paramIns [p], i ∈ paramIns (p :: ps) := by
    intro i hi; rw [paramIns_single] at hi
    rw [paramIns_cons]; exact List.mem_append_left _ hi
  have hins2 : ∀ i ∈ paramIns ps, i ∈ paramIns (p :: ps) := by
    intro i hi; rw [paramIns_cons]; exact List.mem_append_right _ hi
  have hrkp : ∀ r ∈ rkp, ∀ o ∈ paramOuts (p :: ps), r ≠ o := by
    intro r hr o ho
    obtain ⟨⟨i, hi, hio⟩, -, -⟩ := h1.rk_src r hr
    exact hio ▸ hsep i (hins1 i hi) o ho
  have hrk2 : ∀ r ∈ rk, ∀ o ∈ paramOuts (p :: ps), r ≠ o := by
    intro r hr o ho
    obtain ⟨⟨i, hi, hio⟩, -, -⟩ := h2.rk_src r hr
    exact hio ▸ hsep i (hins2 i hi) o ho
  refine ⟨?_, ?_, ?_, le_trans h1.nb h2.nb,
    fun hb => h2.bufok (h1.bufok hb), ?_⟩
  · intro r hr
    rcases List.mem_append.mp hr with hr1 | hr2
    · obtain ⟨⟨i, hi, hio⟩, hAnone, -⟩ := h1.rk_src r hr1
      refine ⟨⟨i, hins1 i hi, hio⟩, ?_, ?_⟩
      · by_cases hmem : r ∈ rk
        · exact (h2.rk_src r hmem).2.1
        · have hro : r ∉ paramOuts ps := fun hx =>
            hrkp r hr1 r (houts2 r hx) rfl
          rw [h2.frame r hro hmem]; exact hAnone
      · exact fun hx => hrkp r hr1 r hx rfl
    · obtain ⟨⟨i, hi, hio⟩, hnone, -⟩ := h2.rk_src r hr2
      exact ⟨⟨i, hins2 i hi, hio⟩, hnone, fun hx => hrk2 r hr2 r hx rfl⟩
  · intro o ho
    rw [paramOuts_cons] at ho
    rcases List.mem_append.mp ho with ho1 | ho2
    · obtain ⟨b, hv, hblt, hfresh⟩ := h1.outs o (by
        rw [paramOuts_single]; exact ho1)
      have hnotrk : o ∉ rk := fun hx => hrk2 o hx o (houts1 o ho1) rfl
      refine ⟨b, ?_, lt_of_lt_of_le hblt h2.nb, ?_⟩
      · rw [h2.frame o (hdisj o ho1) hnotrk]; exact hv
      · intro hnil
        rcases List.append_eq_nil.mp hnil with ⟨h1n, -⟩
        exact hfresh h1n
    · obtain ⟨b, hv, hblt, hfresh⟩ := h2.outs o ho2
      refine ⟨b, hv, hblt, ?_⟩
      intro hnil
      rcases List.append_eq_nil.mp hnil with ⟨-, h2n⟩
      exact le_trans h1.nb (hfresh h2n)
  · intro o ho hork
    have ho1 : o ∉ paramOuts [p] := by
      rw [paramOuts_single]
      exact fun hx => ho (houts1 o hx)
    have ho2 : o ∉ paramOuts ps := fun hx => ho (houts2 o hx)
    have hr1 : o ∉ rkp := fun hx => hork (List.mem_append_left _ hx)
    have hr2 : o ∉ rk := fun hx => hork (List.mem_append_right _ hx)
    rw [h2.frame o ho2 hr2, h1.frame o ho1 hr1]
  · obtain ⟨e1, hev1, hinv1, hfd1, hde1, htd1, hall1, hcnt1⟩ := h1.ev
    obtain ⟨e2, hev2, hinv2, hfd2, hde2, htd2, hall2, hcnt2⟩ := h2.ev
    refine ⟨e1 ++ e2, ?_, ?_, ?_, ?_, ?_, ?_, ?_⟩
    · rw [hev2, hev1, List.append_assoc]
    · rw [invokesOf_append, hinv1, hinv2]; rfl
    · intro o2; rw [countFinDec_append, hfd1, hfd2]
    · intro b2; rw [countDestroy_append, hde1, hde2]
    · intro b2; rw [countTeardown_append, htd1, htd2]
    · intro hnil e he
      rcases List.append_eq_nil.mp hnil with ⟨h1n, h2n⟩
      rcases List.mem_append.mp he with he1 | he2
      · obtain ⟨a, b, hee, ha, hb, hsl⟩ := hall1 h1n e he1
        rw [paramOuts_single] at ha
        refine ⟨a, b, hee, houts1 a ha, hb, ?_⟩
        rw [h2.frame a (hdisj a ha) (by rw [h2n]; exact List.not_mem_nil a)]
        exact hsl
      · obtain ⟨a, b, hee, ha, hb, hsl⟩ := hall2 h2n e he2
        exact ⟨a, b, hee, houts2 a ha, le_trans h1.nb hb, hsl⟩
    · intro hnil a
      rcases List.append_eq_nil.mp hnil with ⟨h1n, h2n⟩
      rw [countAlloc_append, hcnt1 h1n a, hcnt2 h2n a, paramOuts_single]
      by_cases hap : a ∈ p.outs
      · simp [hap, houts1 a hap, hdisj a hap]
      · by_cases has : a ∈ paramOuts ps
        · simp [hap, has, houts2 a has]
        · have : a ∉ paramOuts (p :: ps) := by
            rw [paramOuts_cons]
            intro hx
            rcases List.mem_append.mp hx with h | h
            · exact hap h
            · exact has h
          simp [hap, has, this]
theorem BufOK_fresh {V : Type} {st st' : Store V} {o : Nat} {sl : Slot V}
    (hv : st'.values = upd st.values o (some sl))
    (hn : st'.nextBuf = st.nextBuf + 1)
    (hsl : sl.owned = true) (hb : sl.bufOf = st.nextBuf)
    (h : BufOK st) : BufOK st' := by
  obtain ⟨hl, hj⟩ := h
  constructor
  · intro o2 sl2 hv2 ho2
    rw [hv] at hv2
    rw [hn]
    by_cases he : o2 = o
    · subst he
      rw [upd_same] at hv2
      cases hv2
      omega
    · rw [upd_ne _ _ he] at hv2
      exact lt_trans (hl o2 sl2 hv2 ho2) (Nat.lt_succ_self _)
  · intro o1 o2 sl1 sl2 hv1 hv2 ho1 ho2 hbb
    rw [hv] at hv1 hv2
    by_cases he1 : o1 = o <;> by_cases he2 : o2 = o
    · rw [he1, he2]
    · subst he1
      rw [upd_same] at hv1
      cases hv1
      rw [upd_ne _ _ he2] at hv2
      have := hl o2 sl2 hv2 ho2
      omega
    · subst he2
      rw [upd_same] at hv2
      cases hv2
      rw [upd_ne _ _ he1] at hv1
      have := hl o1 sl1 hv1 ho1
      omega
    · rw [upd_ne _ _ he1] at hv1
      rw [upd_ne _ _ he2] at hv2
      exact hj o1 o2 sl1 sl2 hv1 hv2 ho1 ho2 hbb
theorem BufOK_rekey {V : Type} {st st' : Store V} {r o : Nat}
    {sl sl' : Slot V}
    (hv : st'.values = upd (upd st.values o (some sl')) r none)
    (hn : st'.nextBuf = st.nextBuf)
    (hor : o ≠ r) (hold : st.values r = some sl)
    (hsl : sl.owned = true) (hsl' : sl'.owned = true)
    (hbb : sl'.bufOf = sl.bufOf) (h : BufOK st) : BufOK st' := by
  obtain ⟨hl, hj⟩ := h
  constructor
  · intro o2 sl2 hv2 ho2
    rw [hv] at hv2
    rw [hn]
    by_cases he2 : o2 = r
    · subst he2
      rw [upd_same] at hv2
      cases hv2
    · rw [upd_ne _ _ he2] at hv2
      by_cases he3 : o2 = o
      · subst he3
        rw [upd_same] at hv2
        cases hv2
        rw [hbb]
        exact hl r sl hold hsl
      · rw [upd_ne _ _ he3] at hv2
        exact hl o2 sl2 hv2 ho2
  · intro o1 o2 sl1 sl2 hv1 hv2 ho1 ho2 hbb2
    rw [hv] at hv1 hv2
    by_cases he1 : o1 = r
    · subst he1; rw [upd_same] at hv1; cases hv1
    by_cases he2 : o2 = r
    · subst he2; rw [upd_same] at hv2; cases hv2
    rw [upd_ne _ _ he1] at hv1
    rw [upd_ne _ _ he2] at hv2
    by_cases he3 : o1 = o <;> by_cases he4 : o2 = o
    · rw [he3, he4]
    · subst he3
      rw [upd_same] at hv1
      cases hv1
      rw [upd_ne _ _ he4] at hv2
      have : o2 = r := hj o2 r sl2 sl hv2 hold ho2 hsl (by omega)
      exact absurd this he2
    · subst he4
      rw [upd_same] at hv2
      cases hv2
      rw [upd_ne _ _ he3] at hv1
      have : o1 = r := hj o1 r sl1 sl hv1 hold ho1 hsl (by omega)
      exact absurd this he1
    · rw [upd_ne _ _ he3] at hv1
      rw [upd_ne _ _ he4] at hv2
      exact hj o1 o2 sl1 sl2 hv1 hv2 ho1 ho2 hbb2
theorem bindSpec_id {V : Type} (c : Ctx V) (p : PSpec) (st0 : Store V)
    (houts : p.outs = []) : BindSpec c [p] st0 st0 [] := by
  refine ⟨by simp, ?_, fun _ _ _ => rfl, le_refl _, id,
    ⟨[], by simp, rfl, fun _ => rfl, fun _ => rfl, fun _ => rfl, by simp, ?_⟩⟩
  · intro o ho
    rw [paramOuts_single, houts] at ho
    simp at ho
  · intro _ a
    rw [paramOuts_single, houts]
    simp [countAlloc]
theorem mkOwn_owned {V : Type} (vec : Bool) (b u : Nat) :
    (mkOwn V vec b u).owned = true := by
  rcases vec <;> simp [mkOwn, Slot.owned]
theorem mkOwn_bufOf {V : Type} (vec : Bool) (b u : Nat) :
    (mkOwn V vec b u).bufOf = b := by
  rcases vec <;> simp [mkOwn, Slot.bufOf]
theorem bindSpec_fresh {V : Type} (c : Ctx V) (p : PSpec) (st0 stA : Store V)
    (o : Nat) (houts : p.outs = [o])
    (hvv : stA.values = upd st0.values o
      (some (mkOwn V (c.g.isVec o) st0.nextBuf ((c.g.targets o).length))))
    (hnb : stA.nextBuf = st0.nextBuf + 1)
    (hev : stA.events = st0.events ++
      [.alloc o st0.nextBuf ((c.g.targets o).length)]) :
    BindSpec c [p] st0 stA [] := by
  refine ⟨by simp, ?_, ?_, by omega, ?_, ?_⟩
  · intro o' ho'
    rw [paramOuts_single, houts] at ho'
    simp at ho'
    subst ho'
    refine ⟨st0.nextBuf, ?_, by omega, fun _ => le_refl _⟩
    rw [hvv, upd_same]
  · intro o' ho' _
    rw [paramOuts_single, houts] at ho'
    simp at ho'
    rw [hvv, upd_ne _ _ ho']
  · exact fun h => BufOK_fresh hvv hnb (mkOwn_owned _ _ _) (mkOwn_bufOf _ _ _) h
  · refine ⟨[.alloc o st0.nextBuf ((c.g.targets o).length)], hev, rfl,
      fun _ => rfl, fun _ => rfl, fun _ => rfl, ?_, ?_⟩
    · intro _ e he
      simp at he
      subst he
      refine ⟨o, st0.nextBuf, rfl, ?_, le_refl _, ?_⟩
      · rw [paramOuts_single, houts]
        simp
      · rw [hvv, upd_same]
    · intro _ a
      rw [paramOuts_single, houts]
      by_cases ha : a = o
      · subst ha; simp [countAlloc]
      · simp [countAlloc, ha, Ne.symm ha]
theorem bindSpec_rekey {V : Type} (c : Ctx V) (p : PSpec) (st0 stA : Store V)
    (i o b : Nat) (sl : Slot V)
    (houts : p.outs = [o]) (hins : p.ins = [i])
    (hor : o ≠ c.g.origin i)
    (hold : st0.values (c.g.origin i) = some sl) (hsl : sl.owned = true)
    (hbof : sl.bufOf = b) (hblt : b < st0.nextBuf)
    (hvv : stA.values = upd (upd st0.values o
      (some (mkOwn V (c.g.isVec o) b ((c.g.targets o).length))))
      (c.g.origin i) none)
    (hnb : stA.nextBuf = st0.nextBuf)
    (hev : stA.events = st0.events ++
      [.rekey (c.g.origin i) o b ((c.g.targets o).length)]) :
    BindSpec c [p] st0 stA [c.g.origin i] := by
  refine ⟨?_, ?_, ?_, by omega, ?_, ?_⟩
  · intro r hr
    simp at hr
    subst hr
    refine ⟨⟨i, ?_, rfl⟩, ?_, ?_⟩
    · rw [paramIns_single, hins]; simp
    · rw [hvv, upd_same]
    · rw [paramOuts_single, houts]
      simp
      exact fun h => hor h.symm
  · intro o' ho'
    rw [paramOuts_single, houts] at ho'
    simp at ho'
    subst ho'
    refine ⟨b, ?_, by omega, fun h => by simp at h⟩
    rw [hvv, upd_ne _ _ hor, upd_same]
  · intro o' ho' hr'
    rw [paramOuts_single, houts] at ho'
    simp at ho'
    simp at hr'
    rw [hvv, upd_ne _ _ hr', upd_ne _ _ ho']
  · exact fun h => BufOK_rekey hvv hnb hor hold hsl (mkOwn_owned _ _ _)
      ((mkOwn_bufOf _ _ _).trans hbof.symm) h
  · refine ⟨[.rekey (c.g.origin i) o b ((c.g.targets o).length)], hev, rfl,
      fun _ => rfl, fun _ => rfl, fun _ => rfl, ?_, ?_⟩
    · intro h; simp at h
    · intro h; simp at h
theorem bindParam_spec {V : Type} (c : Ctx V) (p : PSpec) (st0 : Store V)
    (ws0 : List WTgt) (out : Store V × List WTgt)
    (hcat : PCat c.g p)
    (hsep1 : ∀ i ∈ p.ins, ∀ o ∈ p.outs, c.g.origin i ≠ o)
    (hlt : ∀ o2 sl, st0.values o2 = some sl → sl.owned = true →
      sl.bufOf < st0.nextBuf)
    (hok : bindParam c (st0, ws0) p = .ok out) :
    ∃ rk, BindSpec c [p] st0 out.1 rk := by
  rcases p with i | i | o | o | ⟨i, o⟩ | ⟨i, o⟩
  · simp only [bindParam] at hok
    obtain ⟨v, hv, hout⟩ := exc_bind_ok hok
    obtain rfl : (st0, ws0) = out := Except.ok.inj hout
    exact ⟨[], bindSpec_id c _ st0 rfl⟩
  · simp only [bindParam] at hok
    obtain ⟨v, hv, hout⟩ := exc_bind_ok hok
    obtain rfl : (st0, ws0) = out := Except.ok.inj hout
    exact ⟨[], bindSpec_id c _ st0 rfl⟩
  · simp only [bindParam] at hok
    obtain ⟨⟨b, stA⟩, hv, hout⟩ := exc_bind_ok hok
    obtain rfl : (stA, ws0 ++ [⟨o, b, false⟩]) = out := Except.ok.inj hout
    rcases hvs : st0.values o with _ | sl
    · rw [allocateSingleOutput] at hv
      rw [hvs] at hv
      simp only [Except.ok.injEq, Prod.mk.injEq] at hv
      obtain ⟨rfl, rfl⟩ := hv
      refine ⟨[], bindSpec_fresh c _ st0 _ o rfl ?_ rfl rfl⟩
      have hc : c.g.isVec o = false := hcat
      simp [mkOwn, hc]
    · rw [allocateSingleOutput] at hv
      rw [hvs] at hv
      simp at hv
  · simp only [bindParam] at hok
    obtain ⟨⟨b, stA⟩, hv, hout⟩ := exc_bind_ok hok
    obtain rfl : (stA, ws0 ++ [⟨o, b, true⟩]) = out := Except.ok.inj hout
    rcases hvs : st0.values o with _ | sl
    · rw [allocateVectorOutput] at hv
      rw [hvs] at hv
      simp only [Except.ok.injEq, Prod.mk.injEq] at hv
      obtain ⟨rfl, rfl⟩ := hv
      refine ⟨[], bindSpec_fresh c _ st0 _ o rfl ?_ rfl rfl⟩
      have hc : c.g.isVec o = true := hcat
      simp [mkOwn, hc]
    · rw [allocateVectorOutput] at hv
      rw [hvs] at hv
      simp at hv
  · simp only [bindParam] at hok
    obtain ⟨⟨b, stA⟩, hv, hout⟩ := exc_bind_ok hok
    obtain rfl : (stA, ws0 ++ [⟨o, b, false⟩]) = out := Except.ok.inj hout
    have hor : o ≠ c.g.origin i :=
      Ne.symm (hsep1 i (by simp [PSpec.ins]) o (by simp [PSpec.outs]))
    have hc : c.g.isVec o = false := hcat.2
    rcases hvs : st0.values (c.g.origin i) with _ | sl
    · rw [getMutableSingle] at hv
      rw [hvs] at hv
      simp at hv
    · rcases sl with ⟨view⟩ | ⟨view⟩ | ⟨b0, u⟩ | ⟨b0, u⟩
      · rw [getMutableSingle] at hv
        rw [hvs] at hv
        simp only [Except.ok.injEq, Prod.mk.injEq] at hv
        obtain ⟨rfl, rfl⟩ := hv
        refine ⟨[], bindSpec_fresh c _ st0 _ o rfl ?_ rfl rfl⟩
        simp [mkOwn, hc]
      · rw [getMutableSingle] at hv
        rw [hvs] at hv
        simp at hv
      · rw [getMutableSingle] at hv
        rw [hvs] at hv
        by_cases hu : u = 1
        · subst hu
          simp only [if_pos rfl, Except.ok.injEq, Prod.mk.injEq] at hv
          obtain ⟨rfl, rfl⟩ := hv
          refine ⟨[c.g.origin i],
            bindSpec_rekey c _ st0 _ i o b (.sOwn b 1) rfl rfl hor hvs rfl rfl
              (hlt _ _ hvs rfl) ?_ rfl rfl⟩
          simp [mkOwn, hc]
        · simp only [if_neg hu, Except.ok.injEq, Prod.mk.injEq] at hv
          obtain ⟨rfl, rfl⟩ := hv
          refine ⟨[], bindSpec_fresh c _ st0 _ o rfl ?_ rfl rfl⟩
          simp [mkOwn, hc]
      · rw [getMutableSingle] at hv
        rw [hvs] at hv
        simp at hv
  · simp only [bindParam] at hok
    obtain ⟨⟨b, stA⟩, hv, hout⟩ := exc_bind_ok hok
    obtain rfl : (stA, ws0 ++ [⟨o, b, true⟩]) = out := Except.ok.inj hout
    have hor : o ≠ c.g.origin i :=
      Ne.symm (hsep1 i (by simp [PSpec.ins]) o (by simp [PSpec.outs]))
    have hc : c.g.isVec o = true := hcat.2
    rcases hvs : st0.values (c.g.origin i) with _ | sl
    · rw [getMutableVector] at hv
      rw [hvs] at hv
      simp at hv
    · rcases sl with ⟨view⟩ | ⟨view⟩ | ⟨b0, u⟩ | ⟨b0, u⟩
      · rw [getMutableVector] at hv
        rw [hvs] at hv
        simp at hv
      · rw [getMutableVector] at hv
        rw [hvs] at hv
        simp only [Except.ok.injEq, Prod.mk.injEq] at hv
        obtain ⟨rfl, rfl⟩ := hv
        refine ⟨[], bindSpec_fresh c _ st0 _ o rfl ?_ rfl rfl⟩
        simp [mkOwn, hc]
      · rw [getMutableVector] at hv
        rw [hvs] at hv
        simp at hv
      · rw [getMutableVector] at hv
        rw [hvs] at hv
        by_cases hu : u = 1
        · subst hu
          simp only [if_pos rfl, Except.ok.injEq, Prod.mk.injEq] at hv
          obtain ⟨rfl, rfl⟩ := hv
          refine ⟨[c.g.origin i],
            bindSpec_rekey c _ st0 _ i o b (.vOwn b 1) rfl rfl hor hvs rfl rfl
              (hlt _ _ hvs rfl) ?_ rfl rfl⟩
          simp [mkOwn, hc]
        · simp only [if_neg hu, Except.ok.injEq, Prod.mk.injEq] at hv
          obtain ⟨rfl, rfl⟩ := hv
          refine ⟨[], bindSpec_fresh c _ st0 _ o rfl ?_ rfl rfl⟩
          simp [mkOwn, hc]
theorem bindSpec_nil {V : Type} (c : Ctx V) (st0 : Store V) :
    BindSpec c [] st0 st0 [] := by
  refine ⟨by simp, by simp [paramOuts], fun _ _ _ => rfl, le_refl _, id,
    ⟨[], by simp, rfl, fun _ => rfl, fun _ => rfl, fun _ => rfl, by simp, ?_⟩⟩
  intro _ a
  simp [paramOuts, countAlloc]
theorem bindFold_spec {V : Type} (c : Ctx V) (ps : List PSpec) :
    ∀ (st0 : Store V) (ws0 : List WTgt) (out : Store V × List WTgt),
    (∀ p ∈ ps, PCat c.g p) →
    (∀ i ∈ paramIns ps, ∀ o ∈ paramOuts ps, c.g.origin i ≠ o) →
    (paramOuts ps).Nodup →
    BufOK st0 →
    ps.foldlM (bindParam c) (st0, ws0) = .ok out →
    ∃ rk, BindSpec c ps st0 out.1 rk := by
  induction ps with
  | nil =>
    intro st0 ws0 out _ _ _ _ hok
    obtain rfl : (st0, ws0) = out := by
      have : (Except.ok (st0, ws0) : Except Err (Store V × List WTgt)) =
          .ok out := by simpa [List.foldlM, pure, Except.pure] using hok
      exact Except.ok.inj this
    exact ⟨[], bindSpec_nil c st0⟩
  | cons p ps ih =>
    intro st0 ws0 out hcat hsep hnd hbuf hok
    rw [List.foldlM_cons] at hok
    obtain ⟨mid, hv, hrest⟩ := exc_bind_ok hok
    obtain ⟨rkp, h1⟩ := bindParam_spec c p st0 ws0 mid (hcat p (by simp))
      (fun i hi o ho => hsep i (by simp [paramIns_cons, hi])
        o (by simp [paramOuts_cons, ho]))
      hbuf.1 hv
    have hrest2 : ps.foldlM (bindParam c) (mid.1, mid.2) = .ok out := by
      simpa using hrest
    obtain ⟨rk, h2⟩ := ih mid.1 mid.2 out
      (fun q hq => hcat q (List.mem_cons_of_mem _ hq))
      (fun i hi o ho => hsep i (by simp [paramIns_cons, hi])
        o (by simp [paramOuts_cons, ho]))
      (by rw [paramOuts_cons] at hnd; exact hnd.of_append_right)
      (h1.bufok hbuf) hrest2
    exact ⟨rkp ++ rk, bindSpec_cons c p ps st0 mid.1 out.1 rkp rk hsep hnd h1 h2⟩
theorem cntOrig_cons (g : Graph) (i : Nat) (L : List Nat) (o : Nat) :
    cntOrig g (i :: L) o =
      (if g.origin i = o then 1 else 0) + cntOrig g L o := by
  by_cases h : g.origin i = o <;> simp [cntOrig, h, Nat.add_comm]
theorem BufOK_remove {V : Type} {st st' : Store V} {r : Nat}
    (hv : st'.values = upd st.values r none)
    (hn : st'.nextBuf = st.nextBuf) (h : BufOK st) : BufOK st' := by
  obtain ⟨hl, hj⟩ := h
  constructor
  · intro o sl hvo ho
    rw [hv] at hvo
    rw [hn]
    by_cases he : o = r
    · subst he; rw [upd_same] at hvo; cases hvo
    · rw [upd_ne _ _ he] at hvo; exact hl o sl hvo ho
  · intro o1 o2 sl1 sl2 h1 h2 ho1 ho2 hb
    rw [hv] at h1 h2
    by_cases he1 : o1 = r
    · subst he1; rw [upd_same] at h1; cases h1
    by_cases he2 : o2 = r
    · subst he2; rw [upd_same] at h2; cases h2
    rw [upd_ne _ _ he1] at h1
    rw [upd_ne _ _ he2] at h2
    exact hj o1 o2 sl1 sl2 h1 h2 ho1 ho2 hb
theorem BufOK_dec {V : Type} {st st' : Store V} {r : Nat} {sl sl' : Slot V}
    (hv : st'.values = upd st.values r (some sl'))
    (hn : st'.nextBuf = st.nextBuf)
    (hold : st.values r = some sl) (hso : sl.owned = true)
    (hso' : sl'.owned = true) (hbb : sl'.bufOf = sl.bufOf)
    (h : BufOK st) : BufOK st' := by
  obtain ⟨hl, hj⟩ := h
  constructor
  · intro o sl2 hvo ho
    rw [hv] at hvo
    rw [hn]
    by_cases he : o = r
    · rw [he, upd_same] at hvo
      cases hvo
      rw [hbb]
      exact hl r sl hold hso
    · rw [upd_ne _ _ he] at hvo; exact hl o sl2 hvo ho
  · intro o1 o2 sl1 sl2 h1 h2 ho1 ho2 hb
    rw [hv] at h1 h2
    by_cases he1 : o1 = r <;> by_cases he2 : o2 = r
    · rw [he1, he2]
    · rw [he1]
      rw [he1, upd_same] at h1
      cases h1
      rw [upd_ne _ _ he2] at h2
      exact (hj o2 r sl2 sl h2 hold ho2 hso (hb.symm.trans hbb)).symm
    · rw [he2]
      rw [he2, upd_same] at h2
      cases h2
      rw [upd_ne _ _ he1] at h1
      exact hj o1 r sl1 sl h1 hold ho1 hso (hb.trans hbb)
    · rw [upd_ne _ _ he1] at h1
      rw [upd_ne _ _ he2] at h2
      exact hj o1 o2 sl1 sl2 h1 h2 ho1 ho2 hb
theorem cntOrig_cons_ne (g : Graph) {i o : Nat} (L : List Nat)
    (h : g.origin i ≠ o) : cntOrig g (i :: L) o = cntOrig g L o := by
  rw [cntOrig_cons, if_neg h]
  exact Nat.zero_add _
theorem cntOrig_cons_eq (g : Graph) {i o : Nat} (L : List Nat)
    (h : g.origin i = o) : cntOrig g (i :: L) o = 1 + cntOrig g L o := by
  rw [cntOrig_cons, if_pos h]
theorem finSpec_cons_noop {V : Type} (g : Graph) (i : Nat) (L : List Nat)
    (st st' : Store V) (sl0 : Slot V)
    (hvs : st.values (g.origin i) = some sl0) (hown : sl0.owned = false)
    (spec : FinSpec g L
      { st with events := st.events ++ [Ev.finNoop (g.origin i)] } st') :
    FinSpec g (i :: L) st st' := by
  have hne : ∀ o, st.values o ≠ some sl0 → g.origin i ≠ o := by
    intro o hno he
    rw [he] at hvs
    exact hno hvs
  have hneo : ∀ o b u, st.values o = some (Slot.sOwn b u) → g.origin i ≠ o := by
    intro o b u h
    refine hne o ?_
    rw [h]
    intro hx
    cases hx
    rw [Slot.owned] at hown
    cases hown
  have hneoV : ∀ o b u, st.values o = some (Slot.vOwn b u) → g.origin i ≠ o := by
    intro o b u h
    refine hne o ?_
    rw [h]
    intro hx
    cases hx
    rw [Slot.owned] at hown
    cases hown
  have hnen : ∀ o, st.values o = none → g.origin i ≠ o := by
    intro o h
    refine hne o ?_
    rw [h]
    intro hx
    cases hx
  refine ⟨?_, spec.cvals, ?_, ?_, spec.nb, spec.bufok, spec.heap, ?_⟩
  · intro o h
    obtain ⟨h1, h2⟩ := spec.nvals o h
    exact ⟨by rw [cntOrig_cons_ne g L (hnen o h)]; exact h1, h2⟩
  · intro o b u h
    rw [cntOrig_cons_ne g L (hneo o b u h)]
    exact spec.ovals o b u h
  · intro o b u h
    rw [cntOrig_cons_ne g L (hneoV o b u h)]
    exact spec.ovalsV o b u h
  · obtain ⟨ext, hev, hinv, hca, hct, hcf, hds, hadj⟩ := spec.ev
    refine ⟨Ev.finNoop (g.origin i) :: ext, ?_, ?_, ?_, ?_, ?_, ?_, ?_⟩
    · rw [hev]
      simp
    · rw [show Ev.finNoop (g.origin i) :: ext =
        [Ev.finNoop (g.origin i)] ++ ext from rfl, invokesOf_append, hinv]
      rfl
    · intro a
      rw [show Ev.finNoop (g.origin i) :: ext =
        [Ev.finNoop (g.origin i)] ++ ext from rfl, countAlloc_append, hca]
      rfl
    · intro b2
      rw [show Ev.finNoop (g.origin i) :: ext =
        [Ev.finNoop (g.origin i)] ++ ext from rfl, countTeardown_append, hct]
      rfl
    · intro o
      rw [show Ev.finNoop (g.origin i) :: ext =
        [Ev.finNoop (g.origin i)] ++ ext from rfl, countFinDec_append, hcf]
      rcases hvo : st.values o with _ | sl
      · rfl
      · rcases sl with ⟨w⟩ | ⟨w⟩ | ⟨b, u⟩ | ⟨b, u⟩
        · rfl
        · rfl
        · simp [countFinDec, cntOrig_cons_ne g L (hneo o b u hvo)]
        · simp [countFinDec, cntOrig_cons_ne g L (hneoV o b u hvo)]
    · intro b2 hpos
      rw [show Ev.finNoop (g.origin i) :: ext =
        [Ev.finNoop (g.origin i)] ++ ext from rfl, countDestroy_append] at hpos
      have : 0 < countDestroy ext b2 := by
        simpa [countDestroy] using hpos
      exact hds b2 this
    · intro hbuf o sl hvo hso
      have hne2 : g.origin i ≠ o := by
        refine hne o ?_
        rw [hvo]
        intro hx
        cases hx
        rw [hso] at hown
        cases hown
      have := hadj hbuf o sl hvo hso
      rw [cntOrig_cons_ne g L hne2]
      constructor
      · intro hcase
        obtain ⟨hc1, p, q, hsplit, hq⟩ := this.1 hcase
        refine ⟨?_, Ev.finNoop (g.origin i) :: p, q, ?_, hq⟩
        · rw [show Ev.finNoop (g.origin i) :: ext =
            [Ev.finNoop (g.origin i)] ++ ext from rfl, countDestroy_append]
          simpa [countDestroy] using hc1
        · rw [hsplit]
          rfl
      · intro hcase
        have h0 := this.2 hcase
        rw [show Ev.finNoop (g.origin i) :: ext =
          [Ev.finNoop (g.origin i)] ++ ext from rfl, countDestroy_append, h0]
        rfl
theorem countFinDec_pair (f b0 o : Nat) :
    countFinDec [Ev.finDec f 0, Ev.destroy b0] o =
      if f = o then 1 else 0 := by
  by_cases h : f = o <;> simp [countFinDec, h]
theorem countDestroy_pair (f b0 b2 : Nat) :
    countDestroy [Ev.finDec f 0, Ev.destroy b0] b2 =
      if b0 = b2 then 1 else 0 := by
  by_cases h : b0 = b2 <;> simp [countDestroy, h]
theorem finSpec_cons_destroyS {V : Type} (g : Graph) (i : Nat) (L : List Nat)
    (st st' : Store V) (b0 : Nat)
    (hvs : st.values (g.origin i) = some (Slot.sOwn b0 1))
    (spec : FinSpec g L
      { st with values := upd st.values (g.origin i) none,
                events := st.events ++
                  [Ev.finDec (g.origin i) 0, Ev.destroy b0] } st') :
    FinSpec g (i :: L) st st' := by
  set f := g.origin i with hf
  have hupd : ∀ o, o ≠ f →
      upd st.values f none o = st.values o := fun o ho => upd_ne _ _ ho
  have hupdf : upd st.values f none f = none := upd_same _ _ _
  refine ⟨?_, ?_, ?_, ?_, spec.nb, ?_, spec.heap, ?_⟩
  · intro o h
    have hne : f ≠ o := by
      intro he
      rw [← he] at h
      rw [h] at hvs
      cases hvs
    obtain ⟨h1, h2⟩ := spec.nvals o (by
      show upd st.values f none o = none
      rw [hupd o (Ne.symm hne)]
      exact h)
    exact ⟨by rw [cntOrig_cons_ne g L hne]; exact h1, h2⟩
  · intro o sl h hno
    have hne : o ≠ f := by
      intro he
      rw [he, hvs] at h
      cases h
      rw [Slot.owned] at hno
      cases hno
    exact spec.cvals o sl (by
      show upd st.values f none o = some sl
      rw [hupd o hne]; exact h) hno
  · intro o b u h
    by_cases he : o = f
    · rw [he, hvs] at h
      cases h
      obtain ⟨h1, h2⟩ := spec.nvals f hupdf
      rw [he, cntOrig_cons_eq g L rfl, h1]
      refine ⟨by omega, ?_⟩
      rw [if_pos (by omega)]
      exact h2
    · rw [cntOrig_cons_ne g L (fun hx => he hx.symm)]
      exact spec.ovals o b u (by
        show upd st.values f none o = some (Slot.sOwn b u)
        rw [hupd o he]; exact h)
  · intro o b u h
    have hne : o ≠ f := by
      intro he
      rw [he, hvs] at h
      cases h
    rw [cntOrig_cons_ne g L (fun hx => hne hx.symm)]
    exact spec.ovalsV o b u (by
      show upd st.values f none o = some (Slot.vOwn b u)
      rw [hupd o hne]; exact h)
  · intro hb
    exact spec.bufok (BufOK_remove rfl rfl hb)
  · obtain ⟨ext, hev, hinv, hca, hct, hcf, hds, hadj⟩ := spec.ev
    have hcf2 : ∀ o, countFinDec ext o =
        (match upd st.values f none o with
         | some (Slot.sOwn _ _) => cntOrig g L o
         | some (Slot.vOwn _ _) => cntOrig g L o
         | _ => 0) := hcf
    have hds2 : ∀ b2, 0 < countDestroy ext b2 → ∃ o sl,
        upd st.values f none o = some sl ∧ sl.owned = true ∧
          sl.bufOf = b2 := hds
    clear hcf hds
    refine ⟨[Ev.finDec f 0, Ev.destroy b0] ++ ext, ?_, ?_, ?_, ?_, ?_, ?_, ?_⟩
    · rw [hev]
      simp
    · rw [invokesOf_append, hinv]
      rfl
    · intro a
      rw [countAlloc_append, hca]
      rfl
    · intro b2
      rw [countTeardown_append, hct]
      rfl
    · intro o
      rw [countFinDec_append, hcf2, countFinDec_pair]
      by_cases he : f = o
      · rw [← he, hvs, if_pos rfl, hupdf, cntOrig_cons_eq g L rfl,
          (spec.nvals f hupdf).1]
      · rw [if_neg he, hupd o (Ne.symm he)]
        rcases hvo : st.values o with _ | sl
        · rfl
        · rcases sl with ⟨w⟩ | ⟨w⟩ | ⟨b, u⟩ | ⟨b, u⟩
          · simp
          · simp
          · rw [cntOrig_cons_ne g L he]
            omega
          · rw [cntOrig_cons_ne g L he]
            omega
    · intro b2 hpos
      rw [countDestroy_append, countDestroy_pair] at hpos
      by_cases he : b0 = b2
      · exact ⟨f, Slot.sOwn b0 1, hvs, rfl, he⟩
      · rw [if_neg he] at hpos
        obtain ⟨o, sl, hvo, hso, hbo⟩ := hds2 b2 (by omega)
        by_cases hof : o = f
        · rw [hof, hupdf] at hvo
          cases hvo
        · rw [hupd o hof] at hvo
          exact ⟨o, sl, hvo, hso, hbo⟩
    · intro hbuf o sl hvo hso
      by_cases he : o = f
      · rw [he, hvs] at hvo
        cases hvo
        rw [he]
        constructor
        · intro _
          have hnoM : ∀ o2 sl2, upd st.values f none o2 = some sl2 →
              sl2.owned = true → sl2.bufOf ≠ b0 := by
            intro o2 sl2 hv2 hs2 hbb
            by_cases h2f : o2 = f
            · rw [h2f, hupdf] at hv2
              cases hv2
            · rw [hupd o2 h2f] at hv2
              exact h2f (hbuf.2 o2 f sl2 (Slot.sOwn b0 1) hv2 hvs hs2 rfl hbb)
          have hz : countDestroy ext b0 = 0 := by
            by_contra hzz
            obtain ⟨o2, sl2, hv2, hs2, hb2⟩ := hds2 b0 (Nat.pos_of_ne_zero hzz)
            exact hnoM o2 sl2 hv2 hs2 hb2
          refine ⟨?_, [], ext, rfl, ?_⟩
          · show countDestroy ([Ev.finDec f 0, Ev.destroy b0] ++ ext) b0 = 1
            rw [countDestroy_append, countDestroy_pair, if_pos rfl, hz]
          · have hx := hcf2 f
            rw [hupdf] at hx
            exact hx
        · intro hcase
          refine absurd ⟨?_, ?_⟩ hcase
          · rw [cntOrig_cons_eq g L rfl, (spec.nvals f hupdf).1]
            omega
          · show cntOrig g (i :: L) f = (Slot.sOwn b0 1).usersOf
            rw [cntOrig_cons_eq g L rfl, (spec.nvals f hupdf).1]
            rfl
      · have hvoM : upd st.values f none o = some sl := by
          rw [hupd o he]; exact hvo
        have hnb0 : sl.bufOf ≠ b0 := by
          intro hbb
          exact he (hbuf.2 o f sl (Slot.sOwn b0 1) hvo hvs hso rfl hbb)
        have hadj2 := hadj (BufOK_remove rfl rfl hbuf) o sl hvoM hso
        rw [cntOrig_cons_ne g L (fun hx => he hx.symm)]
        constructor
        · intro hcase
          obtain ⟨hc1, p, q, hsplit, hq⟩ := hadj2.1 hcase
          refine ⟨?_, [Ev.finDec f 0, Ev.destroy b0] ++ p, q, ?_, hq⟩
          · rw [countDestroy_append, countDestroy_pair,
              if_neg (Ne.symm hnb0), hc1]
          · rw [hsplit]
            simp
        · intro hcase
          rw [countDestroy_append, countDestroy_pair,
            if_neg (Ne.symm hnb0), hadj2.2 hcase]
theorem finSpec_cons_destroyV {V : Type} (g : Graph) (i : Nat) (L : List Nat)
    (st st' : Store V) (b0 : Nat)
    (hvs : st.values (g.origin i) = some (Slot.vOwn b0 1))
    (spec : FinSpec g L
      { st with values := upd st.values (g.origin i) none,
                events := st.events ++
                  [Ev.finDec (g.origin i) 0, Ev.destroy b0] } st') :
    FinSpec g (i :: L) st st' := by
  set f := g.origin i with hf
  have hupd : ∀ o, o ≠ f →
      upd st.values f none o = st.values o := fun o ho => upd_ne _ _ ho
  have hupdf : upd st.values f none f = none := upd_same _ _ _
  refine ⟨?_, ?_, ?_, ?_, spec.nb, ?_, spec.heap, ?_⟩
  · intro o h
    have hne : f ≠ o := by
      intro he
      rw [← he] at h
      rw [h] at hvs
      cases hvs
    obtain ⟨h1, h2⟩ := spec.nvals o (by
      show upd st.values f none o = none
      rw [hupd o (Ne.symm hne)]
      exact h)
    exact ⟨by rw [cntOrig_cons_ne g L hne]; exact h1, h2⟩
  · intro o sl h hno
    have hne : o ≠ f := by
      intro he
      rw [he, hvs] at h
      cases h
      rw [Slot.owned] at hno
      cases hno
    exact spec.cvals o sl (by
      show upd st.values f none o = some sl
      rw [hupd o hne]; exact h) hno
  · intro o b u h
    have hne : o ≠ f := by
      intro he
      rw [he, hvs] at h
      cases h
    rw [cntOrig_cons_ne g L (fun hx => hne hx.symm)]
    exact spec.ovals o b u (by
      show upd st.values f none o = some (Slot.sOwn b u)
      rw [hupd o hne]; exact h)
  · intro o b u h
    by_cases he : o = f
    · rw [he, hvs] at h
      cases h
      obtain ⟨h1, h2⟩ := spec.nvals f hupdf
      rw [he, cntOrig_cons_eq g L rfl, h1]
      refine ⟨by omega, ?_⟩
      rw [if_pos (by omega)]
      exact h2
    · rw [cntOrig_cons_ne g L (fun hx => he hx.symm)]
      exact spec.ovalsV o b u (by
        show upd st.values f none o = some (Slot.vOwn b u)
        rw [hupd o he]; exact h)
  · intro hb
    exact spec.bufok (BufOK_remove rfl rfl hb)
  · obtain ⟨ext, hev, hinv, hca, hct, hcf, hds, hadj⟩ := spec.ev
    have hcf2 : ∀ o, countFinDec ext o =
        (match upd st.values f none o with
         | some (Slot.sOwn _ _) => cntOrig g L o
         | some (Slot.vOwn _ _) => cntOrig g L o
         | _ => 0) := hcf
    have hds2 : ∀ b2, 0 < countDestroy ext b2 → ∃ o sl,
        upd st.values f none o = some sl ∧ sl.owned = true ∧
          sl.bufOf = b2 := hds
    clear hcf hds
    refine ⟨[Ev.finDec f 0, Ev.destroy b0] ++ ext, ?_, ?_, ?_, ?_, ?_, ?_, ?_⟩
    · rw [hev]
      simp
    · rw [invokesOf_append, hinv]
      rfl
    · intro a
      rw [countAlloc_append, hca]
      rfl
    · intro b2
      rw [countTeardown_append, hct]
      rfl
    · intro o
      rw [countFinDec_append, hcf2, countFinDec_pair]
      by_cases he : f = o
      · rw [← he, hvs, if_pos rfl, hupdf, cntOrig_cons_eq g L rfl,
          (spec.nvals f hupdf).1]
      · rw [if_neg he, hupd o (Ne.symm he)]
        rcases hvo : st.values o with _ | sl
        · rfl
        · rcases sl with ⟨w⟩ | ⟨w⟩ | ⟨b, u⟩ | ⟨b, u⟩
          · simp
          · simp
          · rw [cntOrig_cons_ne g L he]
            omega
          · rw [cntOrig_cons_ne g L he]
            omega
    · intro b2 hpos
      rw [countDestroy_append, countDestroy_pair] at hpos
      by_cases he : b0 = b2
      · exact ⟨f, Slot.vOwn b0 1, hvs, rfl, he⟩
      · rw [if_neg he] at hpos
        obtain ⟨o, sl, hvo, hso, hbo⟩ := hds2 b2 (by omega)
        by_cases hof : o = f
        · rw [hof, hupdf] at hvo
          cases hvo
        · rw [hupd o hof] at hvo
          exact ⟨o, sl, hvo, hso, hbo⟩
    · intro hbuf o sl hvo hso
      by_cases he : o = f
      · rw [he, hvs] at hvo
        cases hvo
        rw [he]
        constructor
        · intro _
          have hnoM : ∀ o2 sl2, upd st.values f none o2 = some sl2 →
              sl2.owned = true → sl2.bufOf ≠ b0 := by
            intro o2 sl2 hv2 hs2 hbb
            by_cases h2f : o2 = f
            · rw [h2f, hupdf] at hv2
              cases hv2
            · rw [hupd o2 h2f] at hv2
              exact h2f (hbuf.2 o2 f sl2 (Slot.vOwn b0 1) hv2 hvs hs2 rfl hbb)
          have hz : countDestroy ext b0 = 0 := by
            by_contra hzz
            obtain ⟨o2, sl2, hv2, hs2, hb2⟩ := hds2 b0 (Nat.pos_of_ne_zero hzz)
            exact hnoM o2 sl2 hv2 hs2 hb2
          refine ⟨?_, [], ext, rfl, ?_⟩
          · show countDestroy ([Ev.finDec f 0, Ev.destroy b0] ++ ext) b0 = 1
            rw [countDestroy_append, countDestroy_pair, if_pos rfl, hz]
          · have hx := hcf2 f
            rw [hupdf] at hx
            exact hx
        · intro hcase
          refine absurd ⟨?_, ?_⟩ hcase
          · rw [cntOrig_cons_eq g L rfl, (spec.nvals f hupdf).1]
            omega
          · show cntOrig g (i :: L) f = (Slot.vOwn b0 1).usersOf
            rw [cntOrig_cons_eq g L rfl, (spec.nvals f hupdf).1]
            rfl
      · have hvoM : upd st.values f none o = some sl := by
          rw [hupd o he]; exact hvo
        have hnb0 : sl.bufOf ≠ b0 := by
          intro hbb
          exact he (hbuf.2 o f sl (Slot.vOwn b0 1) hvo hvs hso rfl hbb)
        have hadj2 := hadj (BufOK_remove rfl rfl hbuf) o sl hvoM hso
        rw [cntOrig_cons_ne g L (fun hx => he hx.symm)]
        constructor
        · intro hcase
          obtain ⟨hc1, p, q, hsplit, hq⟩ := hadj2.1 hcase
          refine ⟨?_, [Ev.finDec f 0, Ev.destroy b0] ++ p, q, ?_, hq⟩
          · rw [countDestroy_append, countDestroy_pair,
              if_neg (Ne.symm hnb0), hc1]
          · rw [hsplit]
            simp
        · intro hcase
          rw [countDestroy_append, countDestroy_pair,
            if_neg (Ne.symm hnb0), hadj2.2 hcase]
theorem countFinDec_single (f k o : Nat) :
    countFinDec [Ev.finDec f k] o = if f = o then 1 else 0 := by
  by_cases h : f = o <;> simp [countFinDec, h]
theorem countDestroy_finDec (f k b2 : Nat) :
    countDestroy [Ev.finDec f k] b2 = 0 := rfl
theorem finSpec_cons_decS {V : Type} (g : Graph) (i : Nat) (L : List Nat)
    (st st' : Store V) (b0 u0 : Nat) (hu : 2 ≤ u0)
    (hvs : st.values (g.origin i) = some (Slot.sOwn b0 u0))
    (spec : FinSpec g L
      { st with values := upd st.values (g.origin i)
                  (some (Slot.sOwn b0 (u0 - 1))),
                events := st.events ++ [Ev.finDec (g.origin i) (u0 - 1)] }
      st') :
    FinSpec g (i :: L) st st' := by
  set f := g.origin i with hf
  have hupd : ∀ o, o ≠ f → upd st.values f (some (Slot.sOwn b0 (u0 - 1))) o =
      st.values o := fun o ho => upd_ne _ _ ho
  have hupdf : upd st.values f (some (Slot.sOwn b0 (u0 - 1))) f =
      some (Slot.sOwn b0 (u0 - 1)) := upd_same _ _ _
  have hdec := spec.ovals f b0 (u0 - 1) hupdf
  refine ⟨?_, ?_, ?_, ?_, spec.nb, ?_, spec.heap, ?_⟩
  · intro o h
    have hne : f ≠ o := by
      intro he
      rw [← he] at h
      rw [h] at hvs
      cases hvs
    obtain ⟨h1, h2⟩ := spec.nvals o (by
      show upd st.values f (some (Slot.sOwn b0 (u0 - 1))) o = none
      rw [hupd o (Ne.symm hne)]
      exact h)
    exact ⟨by rw [cntOrig_cons_ne g L hne]; exact h1, h2⟩
  · intro o sl h hno
    have hne : o ≠ f := by
      intro he
      rw [he, hvs] at h
      cases h
      rw [Slot.owned] at hno
      cases hno
    exact spec.cvals o sl (by
      show upd st.values f (some (Slot.sOwn b0 (u0 - 1))) o = some sl
      rw [hupd o hne]; exact h) hno
  · intro o b u h
    by_cases he : o = f
    · rw [he, hvs] at h
      cases h
      obtain ⟨h1, h2⟩ := hdec
      rw [he, cntOrig_cons_eq g L hf.symm]
      refine ⟨by omega, ?_⟩
      by_cases hd : cntOrig g L f = u0 - 1
      · rw [if_pos (by omega)]
        rw [if_pos (by constructor <;> omega)] at h2
        exact h2
      · rw [if_neg (by omega)]
        rw [if_neg (by
          rintro ⟨hx1, hx2⟩
          exact hd hx2)] at h2
        rw [show u0 - (1 + cntOrig g L f) = u0 - 1 - cntOrig g L f from
          by omega]
        exact h2
    · rw [cntOrig_cons_ne g L (fun hx => he hx.symm)]
      exact spec.ovals o b u (by
        show upd st.values f (some (Slot.sOwn b0 (u0 - 1))) o =
          some (Slot.sOwn b u)
        rw [hupd o he]; exact h)
  · intro o b u h
    have hne : o ≠ f := by
      intro he
      rw [he, hvs] at h
      cases h
    rw [cntOrig_cons_ne g L (fun hx => hne hx.symm)]
    exact spec.ovalsV o b u (by
      show upd st.values f (some (Slot.sOwn b0 (u0 - 1))) o =
        some (Slot.vOwn b u)
      rw [hupd o hne]; exact h)
  · intro hb
    exact spec.bufok (BufOK_dec rfl rfl hvs rfl rfl rfl hb)
  · obtain ⟨ext, hev, hinv, hca, hct, hcf, hds, hadj⟩ := spec.ev
    have hcf2 : ∀ o, countFinDec ext o =
        (match upd st.values f (some (Slot.sOwn b0 (u0 - 1))) o with
         | some (Slot.sOwn _ _) => cntOrig g L o
         | some (Slot.vOwn _ _) => cntOrig g L o
         | _ => 0) := hcf
    have hds2 : ∀ b2, 0 < countDestroy ext b2 → ∃ o sl,
        upd st.values f (some (Slot.sOwn b0 (u0 - 1))) o = some sl ∧
          sl.owned = true ∧ sl.bufOf = b2 := hds
    clear hcf hds
    refine ⟨[Ev.finDec f (u0 - 1)] ++ ext, ?_, ?_, ?_, ?_, ?_, ?_, ?_⟩
    · rw [hev]
      simp
    · rw [invokesOf_append, hinv]
      rfl
    · intro a
      rw [countAlloc_append, hca]
      rfl
    · intro b2
      rw [countTeardown_append, hct]
      rfl
    · intro o
      rw [countFinDec_append, hcf2, countFinDec_single]
      by_cases he : f = o
      · rw [← he, hvs, if_pos rfl, hupdf, cntOrig_cons_eq g L rfl]
      · rw [if_neg he, hupd o (Ne.symm he)]
        rcases hvo : st.values o with _ | sl
        · rfl
        · rcases sl with ⟨w⟩ | ⟨w⟩ | ⟨b, u⟩ | ⟨b, u⟩
          · simp
          · simp
          · rw [cntOrig_cons_ne g L he]
            omega
          · rw [cntOrig_cons_ne g L he]
            omega
    · intro b2 hpos
      rw [countDestroy_append, countDestroy_finDec] at hpos
      obtain ⟨o, sl, hvo, hso, hbo⟩ := hds2 b2 (by omega)
      by_cases hof : o = f
      · rw [hof, hupdf] at hvo
        cases hvo
        exact ⟨f, Slot.sOwn b0 u0, hvs, rfl, hbo⟩
      · rw [hupd o hof] at hvo
        exact ⟨o, sl, hvo, hso, hbo⟩
    · intro hbuf o sl hvo hso
      by_cases he : o = f
      · rw [he, hvs] at hvo
        cases hvo
        rw [he]
        have hadj2 := hadj (BufOK_dec rfl rfl hvs rfl rfl rfl hbuf)
          f (Slot.sOwn b0 (u0 - 1)) hupdf rfl
        rw [cntOrig_cons_eq g L hf.symm]
        constructor
        · rintro ⟨hc1, hc2⟩
          have hc2b : 1 + cntOrig g L f = u0 := hc2
          have hc2x : cntOrig g L f = u0 - 1 := by omega
          obtain ⟨hd1, p, q, hsplit, hq⟩ := hadj2.1 (by
            show 0 < cntOrig g L f ∧ cntOrig g L f = u0 - 1
            constructor <;> omega)
          refine ⟨?_, [Ev.finDec f (u0 - 1)] ++ p, q, ?_, hq⟩
          · show countDestroy ([Ev.finDec f (u0 - 1)] ++ ext) b0 = 1
            rw [countDestroy_append, countDestroy_finDec, Nat.zero_add]
            exact hd1
          · rw [hsplit]
            simp [Slot.bufOf]
        · intro hcase
          have hnd := hadj2.2 (by
            show ¬(0 < cntOrig g L f ∧ cntOrig g L f = u0 - 1)
            rintro ⟨hx1, hx2⟩
            apply hcase
            constructor
            · exact Nat.lt_of_lt_of_le Nat.one_pos (Nat.le_add_right 1 _)
            · show 1 + cntOrig g L f = u0
              rw [hx2]
              exact Nat.add_sub_cancel' (Nat.le_of_succ_le hu))
          show countDestroy ([Ev.finDec f (u0 - 1)] ++ ext) b0 = 0
          rw [countDestroy_append, countDestroy_finDec, Nat.zero_add]
          exact hnd
      · have hvoM : upd st.values f (some (Slot.sOwn b0 (u0 - 1))) o =
            some sl := by
          rw [hupd o he]; exact hvo
        have hadj2 := hadj (BufOK_dec rfl rfl hvs rfl rfl rfl hbuf)
          o sl hvoM hso
        rw [cntOrig_cons_ne g L (fun hx => he hx.symm)]
        constructor
        · intro hcase
          obtain ⟨hc1, p, q, hsplit, hq⟩ := hadj2.1 hcase
          refine ⟨?_, [Ev.finDec f (u0 - 1)] ++ p, q, ?_, hq⟩
          · rw [countDestroy_append, countDestroy_finDec, hc1]
          · rw [hsplit]
            simp
        · intro hcase
          rw [countDestroy_append, countDestroy_finDec, hadj2.2 hcase]
theorem finSpec_cons_decV {V : Type} (g : Graph) (i : Nat) (L : List Nat)
    (st st' : Store V) (b0 u0 : Nat) (hu : 2 ≤ u0)
    (hvs : st.values (g.origin i) = some (Slot.vOwn b0 u0))
    (spec : FinSpec g L
      { st with values := upd st.values (g.origin i)
                  (some (Slot.vOwn b0 (u0 - 1))),
                events := st.events ++ [Ev.finDec (g.origin i) (u0 - 1)] }
      st') :
    FinSpec g (i :: L) st st' := by
  set f := g.origin i with hf
  have hupd : ∀ o, o ≠ f → upd st.values f (some (Slot.vOwn b0 (u0 - 1))) o =
      st.values o := fun o ho => upd_ne _ _ ho
  have hupdf : upd st.values f (some (Slot.vOwn b0 (u0 - 1))) f =
      some (Slot.vOwn b0 (u0 - 1)) := upd_same _ _ _
  have hdec := spec.ovalsV f b0 (u0 - 1) hupdf
  refine ⟨?_, ?_, ?_, ?_, spec.nb, ?_, spec.heap, ?_⟩
  · intro o h
    have hne : f ≠ o := by
      intro he
      rw [← he] at h
      rw [h] at hvs
      cases hvs
    obtain ⟨h1, h2⟩ := spec.nvals o (by
      show upd st.values f (some (Slot.vOwn b0 (u0 - 1))) o = none
      rw [hupd o (Ne.symm hne)]
      exact h)
    exact ⟨by rw [cntOrig_cons_ne g L hne]; exact h1, h2⟩
  · intro o sl h hno
    have hne : o ≠ f := by
      intro he
      rw [he, hvs] at h
      cases h
      rw [Slot.owned] at hno
      cases hno
    exact spec.cvals o sl (by
      show upd st.values f (some (Slot.vOwn b0 (u0 - 1))) o = some sl
      rw [hupd o hne]; exact h) hno
  · intro o b u h
    have hne : o ≠ f := by
      intro he
      rw [he, hvs] at h
      cases h
    rw [cntOrig_cons_ne g L (fun hx => hne hx.symm)]
    exact spec.ovals o b u (by
      show upd st.values f (some (Slot.vOwn b0 (u0 - 1))) o =
        some (Slot.sOwn b u)
      rw [hupd o hne]; exact h)
  · intro o b u h
    by_cases he : o = f
    · rw [he, hvs] at h
      cases h
      obtain ⟨h1, h2⟩ := hdec
      rw [he, cntOrig_cons_eq g L hf.symm]
      refine ⟨by omega, ?_⟩
      by_cases hd : cntOrig g L f = u0 - 1
      · rw [if_pos (by omega)]
        rw [if_pos (by constructor <;> omega)] at h2
        exact h2
      · rw [if_neg (by omega)]
        rw [if_neg (by
          rintro ⟨hx1, hx2⟩
          exact hd hx2)] at h2
        rw [show u0 - (1 + cntOrig g L f) = u0 - 1 - cntOrig g L f from
          by omega]
        exact h2
    · rw [cntOrig_cons_ne g L (fun hx => he hx.symm)]
      exact spec.ovalsV o b u (by
        show upd st.values f (some (Slot.vOwn b0 (u0 - 1))) o =
          some (Slot.vOwn b u)
        rw [hupd o he]; exact h)
  · intro hb
    exact spec.bufok (BufOK_dec rfl rfl hvs rfl rfl rfl hb)
  · obtain ⟨ext, hev, hinv, hca, hct, hcf, hds, hadj⟩ := spec.ev
    have hcf2 : ∀ o, countFinDec ext o =
        (match upd st.values f (some (Slot.vOwn b0 (u0 - 1))) o with
         | some (Slot.sOwn _ _) => cntOrig g L o
         | some (Slot.vOwn _ _) => cntOrig g L o
         | _ => 0) := hcf
    have hds2 : ∀ b2, 0 < countDestroy ext b2 → ∃ o sl,
        upd st.values f (some (Slot.vOwn b0 (u0 - 1))) o = some sl ∧
          sl.owned = true ∧ sl.bufOf = b2 := hds
    clear hcf hds
    refine ⟨[Ev.finDec f (u0 - 1)] ++ ext, ?_, ?_, ?_, ?_, ?_, ?_, ?_⟩
    · rw [hev]
      simp
    · rw [invokesOf_append, hinv]
      rfl
    · intro a
      rw [countAlloc_append, hca]
      rfl
    · intro b2
      rw [countTeardown_append, hct]
      rfl
    · intro o
      rw [countFinDec_append, hcf2, countFinDec_single]
      by_cases he : f = o
      · rw [← he, hvs, if_pos rfl, hupdf, cntOrig_cons_eq g L rfl]
      · rw [if_neg he, hupd o (Ne.symm he)]
        rcases hvo : st.values o with _ | sl
        · rfl
        · rcases sl with ⟨w⟩ | ⟨w⟩ | ⟨b, u⟩ | ⟨b, u⟩
          · simp
          · simp
          · rw [cntOrig_cons_ne g L he]
            omega
          · rw [cntOrig_cons_ne g L he]
            omega
    · intro b2 hpos
      rw [countDestroy_append, countDestroy_finDec] at hpos
      obtain ⟨o, sl, hvo, hso, hbo⟩ := hds2 b2 (by omega)
      by_cases hof : o = f
      · rw [hof, hupdf] at hvo
        cases hvo
        exact ⟨f, Slot.vOwn b0 u0, hvs, rfl, hbo⟩
      · rw [hupd o hof] at hvo
        exact ⟨o, sl, hvo, hso, hbo⟩
    · intro hbuf o sl hvo hso
      by_cases he : o = f
      · rw [he, hvs] at hvo
        cases hvo
        rw [he]
        have hadj2 := hadj (BufOK_dec rfl rfl hvs rfl rfl rfl hbuf)
          f (Slot.vOwn b0 (u0 - 1)) hupdf rfl
        rw [cntOrig_cons_eq g L hf.symm]
        constructor
        · rintro ⟨hc1, hc2⟩
          have hc2b : 1 + cntOrig g L f = u0 := hc2
          have hc2x : cntOrig g L f = u0 - 1 := by omega
          obtain ⟨hd1, p, q, hsplit, hq⟩ := hadj2.1 (by
            show 0 < cntOrig g L f ∧ cntOrig g L f = u0 - 1
            constructor <;> omega)
          refine ⟨?_, [Ev.finDec f (u0 - 1)] ++ p, q, ?_, hq⟩
          · show countDestroy ([Ev.finDec f (u0 - 1)] ++ ext) b0 = 1
            rw [countDestroy_append, countDestroy_finDec, Nat.zero_add]
            exact hd1
          · rw [hsplit]
            simp [Slot.bufOf]
        · intro hcase
          have hnd := hadj2.2 (by
            show ¬(0 < cntOrig g L f ∧ cntOrig g L f = u0 - 1)
            rintro ⟨hx1, hx2⟩
            apply hcase
            constructor
            · exact Nat.lt_of_lt_of_le Nat.one_pos (Nat.le_add_right 1 _)
            · show 1 + cntOrig g L f = u0
              rw [hx2]
              exact Nat.add_sub_cancel' (Nat.le_of_succ_le hu))
          show countDestroy ([Ev.finDec f (u0 - 1)] ++ ext) b0 = 0
          rw [countDestroy_append, countDestroy_finDec, Nat.zero_add]
          exact hnd
      · have hvoM : upd st.values f (some (Slot.vOwn b0 (u0 - 1))) o =
            some sl := by
          rw [hupd o he]; exact hvo
        have hadj2 := hadj (BufOK_dec rfl rfl hvs rfl rfl rfl hbuf)
          o sl hvoM hso
        rw [cntOrig_cons_ne g L (fun hx => he hx.symm)]
        constructor
        · intro hcase
          obtain ⟨hc1, p, q, hsplit, hq⟩ := hadj2.1 hcase
          refine ⟨?_, [Ev.finDec f (u0 - 1)] ++ p, q, ?_, hq⟩
          · rw [countDestroy_append, countDestroy_finDec, hc1]
          · rw [hsplit]
            simp
        · intro hcase
          rw [countDestroy_append, countDestroy_finDec, hadj2.2 hcase]
theorem finishFold_spec {V : Type} (g : Graph) (L : List Nat) :
    ∀ (st st' : Store V), L.foldlM (finishInput g) st = .ok st' →
      FinSpec g L st st' := by
  induction L with
  | nil =>
    intro st st' hok
    obtain rfl : st = st' := by
      have : (Except.ok st : Except Err (Store V)) = .ok st' := by
        simpa [List.foldlM, pure, Except.pure] using hok
      exact Except.ok.inj this
    refine ⟨fun o h => ⟨rfl, h⟩, fun o sl h _ => h, ?_, ?_, rfl, id, ⟨rfl, rfl⟩, ?_⟩
    · intro o b u h
      simp [cntOrig, h]
    · intro o b u h
      simp [cntOrig, h]
    · refine ⟨[], by simp, rfl, fun _ => rfl, fun _ => rfl, ?_, ?_, ?_⟩
      · intro o
        rcases st.values o with _ | sl
        · rfl
        · rcases sl <;> simp [countFinDec, cntOrig]
      · intro b2 h
        simp [countDestroy] at h
      · intro _ o sl hvo hso
        constructor
        · rintro ⟨hpos, -⟩
          simp [cntOrig] at hpos
        · intro _
          rfl
  | cons i L ih =>
    intro st st' hok
    rw [List.foldlM_cons] at hok
    obtain ⟨stM, hv, hrest⟩ := exc_bind_ok hok
    have spec := ih stM st' hrest
    rcases hvs : st.values (g.origin i) with _ | sl
    · rw [finishInput] at hv
      rw [hvs] at hv
      simp at hv
    · rcases sl with ⟨view⟩ | ⟨view⟩ | ⟨b0, u0⟩ | ⟨b0, u0⟩
      · rw [finishInput] at hv
        rw [hvs] at hv
        simp only [Except.ok.injEq] at hv
        rw [← hv] at spec
        exact finSpec_cons_noop g i L st st' (Slot.sCaller view) hvs rfl spec
      · rw [finishInput] at hv
        rw [hvs] at hv
        simp only [Except.ok.injEq] at hv
        rw [← hv] at spec
        exact finSpec_cons_noop g i L st st' (Slot.vCaller view) hvs rfl spec
      · rw [finishInput] at hv
        rw [hvs] at hv
        simp only [Except.ok.injEq] at hv
        by_cases hu0 : u0 = 0
        · rw [if_pos hu0] at hv
          cases hv
        · rw [if_neg hu0] at hv
          by_cases hu1 : u0 = 1
          · rw [if_pos hu1] at hv
            simp only [Except.ok.injEq] at hv
            rw [← hv] at spec
            subst hu1
            exact finSpec_cons_destroyS g i L st st' b0 hvs spec
          · rw [if_neg hu1] at hv
            simp only [Except.ok.injEq] at hv
            rw [← hv] at spec
            exact finSpec_cons_decS g i L st st' b0 u0 (by omega) hvs spec
      · rw [finishInput] at hv
        rw [hvs] at hv
        simp only [Except.ok.injEq] at hv
        by_cases hu0 : u0 = 0
        · rw [if_pos hu0] at hv
          cases hv
        · rw [if_neg hu0] at hv
          by_cases hu1 : u0 = 1
          · rw [if_pos hu1] at hv
            simp only [Except.ok.injEq] at hv
            rw [← hv] at spec
            subst hu1
            exact finSpec_cons_destroyV g i L st st' b0 hvs spec
          · rw [if_neg hu1] at hv
            simp only [Except.ok.injEq] at hv
            rw [← hv] at spec
            exact finSpec_cons_decV g i L st st' b0 u0 (by omega) hvs spec
theorem le_foldl_max : ∀ (l : List Int) (a : Int), a ≤ l.foldl max a := by
  intro l
  induction l with
  | nil => intro a; simp
  | cons x l ih =>
    intro a
    rw [List.foldl_cons]
    exact le_trans (le_max_left a x) (ih (max a x))
theorem dMaxIn_nonneg (g : Graph) (d : Nat → Int) (n : Nat) :
    0 ≤ dMaxIn g d n := le_foldl_max _ 0
theorem dMaxIn_congr (g : Graph) (d d' : Nat → Int) (n : Nat)
    (h : ∀ i ∈ g.nodeInputs n,
      d' (g.socketNode (g.origin i)) = d (g.socketNode (g.origin i))) :
    dMaxIn g d' n = dMaxIn g d n := by
  unfold dMaxIn
  have : (g.nodeInputs n).map (fun i => d' (g.socketNode (g.origin i))) =
      (g.nodeInputs n).map (fun i => d (g.socketNode (g.origin i))) := by
    apply List.map_congr_left
    intro i hi
    exact h i hi
  rw [this]
theorem dExt_refl (d : Nat → Int) : DExt d d := fun _ _ => rfl
theorem dExt_trans {d1 d2 d3 : Nat → Int} (h1 : DExt d1 d2)
    (h2 : DExt d2 d3) : DExt d1 d3 := by
  intro m hm
  rw [h2 m (by rw [h1 m hm]; exact hm), h1 m hm]
theorem dFinalize (g : Graph) (hwf : GraphWF g) (n : Nat)
    (hn : n ∈ g.functionNodes) (d : Nat → Int) (stk : List Nat)
    (hinv : DInvAll g d) (hneg : d n = -1)
    (hu : dUnresolved g d n = []) :
    dStep1 g (.drun ⟨d, n :: stk⟩) =
      .drun ⟨upd d n (dMaxIn g d n + 1), stk⟩ ∧
    DExt d (upd d n (dMaxIn g d n + 1)) ∧
    DInvAll g (upd d n (dMaxIn g d n + 1)) ∧
    0 ≤ upd d n (dMaxIn g d n + 1) n := by
  obtain ⟨hvok, hdz, hfix⟩ := hinv
  have h0 : ¬ (0 ≤ d n) := by rw [hneg]; decide
  have hres : ∀ i ∈ g.nodeInputs n, 0 ≤ d (g.socketNode (g.origin i)) := by
    intro i hi
    have hfil : ∀ i2 ∈ g.nodeInputs n,
        ¬ (d (g.socketNode (g.origin i2)) = -1) := by
      have hmap : ((g.nodeInputs n).filter
          (fun i2 => d (g.socketNode (g.origin i2)) = -1)) = [] := by
        have := hu
        unfold dUnresolved at this
        exact List.map_eq_nil_iff.mp this
      intro i2 hi2 hd2
      have : i2 ∈ ((g.nodeInputs n).filter
          (fun i2 => d (g.socketNode (g.origin i2)) = -1)) :=
        List.mem_filter.mpr ⟨hi2, by simpa using hd2⟩
      rw [hmap] at this
      cases this
    rcases hvok (g.socketNode (g.origin i)) with hc | hc
    · exact absurd hc (hfil i hi)
    · exact hc
  have horig_ne : ∀ i ∈ g.nodeInputs n, g.socketNode (g.origin i) ≠ n := by
    intro i hi he
    have := hres i hi
    rw [he, hneg] at this
    exact absurd this (by decide)
  have hdnf : g.isDummy n = false := (hwf.fn_mem n hn).2
  have hstep : dStep1 g (.drun ⟨d, n :: stk⟩) =
      .drun ⟨upd d n (dMaxIn g d n + 1), stk⟩ := by
    simp [dStep1, h0, hu]
  have hext : DExt d (upd d n (dMaxIn g d n + 1)) := by
    intro m hm
    have hne : m ≠ n := by
      intro he
      rw [he, hneg] at hm
      exact absurd hm (by decide)
    exact upd_ne _ _ hne
  refine ⟨hstep, hext, ⟨?_, ?_, ?_⟩, ?_⟩
  · intro m
    by_cases he : m = n
    · right
      rw [he, upd_same]
      have := dMaxIn_nonneg g d n
      omega
    · rw [upd_ne _ _ he]
      exact hvok m
  · intro m hm hdm
    have hne : m ≠ n := by
      intro he
      rw [he, hdnf] at hdm
      cases hdm
    rw [upd_ne _ _ hne]
    exact hdz m hm hdm
  · intro m hm hdm
    by_cases he : m = n
    · subst he
      have hoeq : ∀ i ∈ g.nodeInputs m,
          upd d m (dMaxIn g d m + 1) (g.socketNode (g.origin i)) =
          d (g.socketNode (g.origin i)) := by
        intro i hi
        exact upd_ne _ _ (horig_ne i hi)
      constructor
      · intro i hi
        rw [hoeq i hi]
        exact hres i hi
      · rw [upd_same, dMaxIn_congr g d _ m hoeq]
    · rw [upd_ne _ _ he] at hdm
      obtain ⟨ho, heq⟩ := hfix m hm hdm
      have hoeq : ∀ i ∈ g.nodeInputs m,
          upd d n (dMaxIn g d n + 1) (g.socketNode (g.origin i)) =
          d (g.socketNode (g.origin i)) := by
        intro i hi
        refine upd_ne _ _ ?_
        intro he2
        have := ho i hi
        rw [he2, hneg] at this
        exact absurd this (by decide)
      constructor
      · intro i hi
        rw [hoeq i hi]
        exact ho i hi
      · rw [upd_ne _ _ he, dMaxIn_congr g d _ m hoeq]
        exact heq
  · rw [upd_same]
    have := dMaxIn_nonneg g d n
    omega
theorem dProcessList (g : Graph) (l : List Nat)
    (H : ∀ m ∈ l, ProcessOK g m) :
    ∀ (d : Nat → Int) (stk : List Nat), DInvAll g d →
    (∀ m ∈ l, 0 ≤ d m ∨ m ∈ g.functionNodes) →
    ∃ k d', dRunN g k (.drun ⟨d, l ++ stk⟩) = .drun ⟨d', stk⟩ ∧
      DExt d d' ∧ DInvAll g d' ∧ ∀ m ∈ l, 0 ≤ d' m := by
  induction l with
  | nil =>
    intro d stk hinv _
    exact ⟨0, d, rfl, dExt_refl d, hinv, by simp⟩
  | cons m l ih =>
    intro d stk hinv hpre
    obtain ⟨k1, d1, h1, he1, hinv1, hm1⟩ :=
      H m (List.mem_cons_self m l) d (l ++ stk) hinv
        (hpre m (List.mem_cons_self m l))
    obtain ⟨k2, d2, h2, he2, hinv2, hl2⟩ := ih
      (fun m2 hm2 => H m2 (List.mem_cons_of_mem m hm2)) d1 stk hinv1
      (fun m2 hm2 => by
        rcases hpre m2 (List.mem_cons_of_mem m hm2) with hc | hc
        · exact Or.inl (by rw [he1 m2 hc]; exact hc)
        · exact Or.inr hc)
    refine ⟨k2 + k1, d2, ?_, dExt_trans he1 he2, hinv2, ?_⟩
    · rw [dRunN_add, List.cons_append, h1, h2]
    · intro m2 hm2
      rcases List.mem_cons.mp hm2 with hc | hc
      · rw [hc, he2 m hm1]
        exact hm1
      · exact hl2 m2 hc
theorem dRunN_one (g : Graph) (o : DOC) : dRunN g 1 o = dStep1 g o := rfl
theorem dProcessAux (g : Graph) (rank : Nat → Nat) (hwf : GraphWF g)
    (hrk : RankOK g rank) :
    ∀ R n, n ∈ g.functionNodes → rank n < R → ProcessOK g n := by
  intro R
  induction R with
  | zero => intro n _ hr; cases hr
  | succ R ih =>
    intro n hn hr d stk hinv hpre
    by_cases h0 : 0 ≤ d n
    · refine ⟨1, d, ?_, dExt_refl d, hinv, h0⟩
      rw [dRunN_one]
      simp [dStep1, h0]
    · have hneg : d n = -1 := by
        rcases hinv.1 n with hc | hc
        · exact hc
        · exact absurd hc h0
      have hnlt : n < g.nodeCount := (hwf.fn_mem n hn).1
      have hdnf : g.isDummy n = false := (hwf.fn_mem n hn).2
      have hufacts : ∀ m ∈ dUnresolved g d n, d m = -1 ∧
          m < g.nodeCount ∧ g.isDummy m = false ∧
          m ∈ g.functionNodes ∧ rank m < rank n := by
        intro m hm
        unfold dUnresolved at hm
        obtain ⟨i, hi, hieq⟩ := List.mem_map.mp hm
        obtain ⟨hiIn, hiP⟩ := List.mem_filter.mp hi
        have hdm : d (g.socketNode (g.origin i)) = -1 := by simpa using hiP
        obtain ⟨hilt, hiinp, hisn⟩ := hwf.ni_mem n hnlt i hiIn
        have holt : g.origin i < g.socketCount :=
          hwf.origin_lt i hilt hiinp
        have hmlt : g.socketNode (g.origin i) < g.nodeCount :=
          hwf.node_lt _ holt
        have hmdum : g.isDummy (g.socketNode (g.origin i)) = false := by
          rcases hD : g.isDummy (g.socketNode (g.origin i)) with _ | _
          · rfl
          · have := hinv.2.1 _ hmlt hD
            rw [hdm] at this
            exact absurd this (by decide)
        rw [← hieq]
        refine ⟨hdm, hmlt, hmdum, hwf.fn_complete _ hmlt hmdum, ?_⟩
        exact hrk n hnlt hdnf i hiIn
      rcases hE : dUnresolved g d n with _ | ⟨u0, urest⟩
      · -- all origins resolved: finalize in one step
        obtain ⟨hstep, hext, hinv', hge⟩ :=
          dFinalize g hwf n hn d stk hinv hneg hE
        refine ⟨1, upd d n (dMaxIn g d n + 1), ?_, hext, hinv', hge⟩
        rw [dRunN_one, hstep]
      · -- push the unresolved origins, process them, then rescan
        rw [hE] at hufacts
        have hstep1 : dStep1 g (.drun ⟨d, n :: stk⟩) =
            .drun ⟨d, (u0 :: urest).reverse ++ (n :: stk)⟩ := by
          simp [dStep1, h0, hE]
        obtain ⟨k1, d1, h1, he1, hinv1, hres1⟩ :=
          dProcessList g (u0 :: urest).reverse
            (fun m hm => ih m
              ((hufacts m (List.mem_reverse.mp hm)).2.2.2.1)
              (by
                have := (hufacts m (List.mem_reverse.mp hm)).2.2.2.2
                omega))
            d (n :: stk) hinv
            (fun m hm => Or.inr
              ((hufacts m (List.mem_reverse.mp hm)).2.2.2.1))
        have e1 : dRunN g 1 (.drun ⟨d, n :: stk⟩) =
            .drun ⟨d, (u0 :: urest).reverse ++ (n :: stk)⟩ := by
          rw [dRunN_one, hstep1]
        have e2 : dRunN g (1 + k1) (.drun ⟨d, n :: stk⟩) =
            .drun ⟨d1, n :: stk⟩ := by
          rw [Nat.add_comm 1 k1, dRunN_add, e1, h1]
        by_cases h1n : 0 ≤ d1 n
        · refine ⟨(1 + k1) + 1, d1, ?_, he1, hinv1, h1n⟩
          rw [dRunN, e2]
          simp [dStep1, h1n]
        · have hneg1 : d1 n = -1 := by
            rcases hinv1.1 n with hc | hc
            · exact hc
            · exact absurd hc h1n
          have hu1 : dUnresolved g d1 n = [] := by
            unfold dUnresolved
            rw [List.map_eq_nil_iff, List.filter_eq_nil_iff]
            intro i hiIn hP
            have hd1i : d1 (g.socketNode (g.origin i)) = -1 := by
              simpa using hP
            rcases hinv.1 (g.socketNode (g.origin i)) with hc | hc
            · -- originally unresolved: it is in the pushed list
              have hmem : g.socketNode (g.origin i) ∈
                  dUnresolved g d n := by
                unfold dUnresolved
                exact List.mem_map.mpr ⟨i, List.mem_filter.mpr
                  ⟨hiIn, by simpa using hc⟩, rfl⟩
              rw [hE] at hmem
              have := hres1 _ (List.mem_reverse.mpr hmem)
              rw [hd1i] at this
              exact absurd this (by decide)
            · -- originally resolved: unchanged
              have := he1 _ hc
              rw [hd1i] at this
              rw [← this] at hc
              exact absurd hc (by decide)
          obtain ⟨hstep, hext, hinv', hge⟩ :=
            dFinalize g hwf n hn d1 stk hinv1 hneg1 hu1
          refine ⟨(1 + k1) + 1, upd d1 n (dMaxIn g d1 n + 1), ?_,
            dExt_trans he1 hext, hinv', hge⟩
          rw [dRunN, e2, hstep]
theorem dWorklist_complete (g : Graph) (rank : Nat → Nat)
    (hwf : GraphWF g) (hrk : RankOK g rank) :
    ∃ k dep, dRunN g k (.drun (dInit g)) = .ddone dep ∧
      (∀ n ∈ g.dummyNodes, dep n = 0) ∧
      (∀ n ∈ g.functionNodes,
        0 ≤ dep n ∧ dep n = dMaxIn g dep n + 1) := by
  have hinv0 : DInvAll g (dInit g).depths := by
    refine ⟨?_, ?_, ?_⟩
    · intro m
      show (if m ∈ g.dummyNodes then (0 : Int) else -1) = -1 ∨
        0 ≤ (if m ∈ g.dummyNodes then (0 : Int) else -1)
      by_cases hm : m ∈ g.dummyNodes
      · rw [if_pos hm]; right; decide
      · rw [if_neg hm]; left; rfl
    · intro m hm hdm
      show 0 ≤ (if m ∈ g.dummyNodes then (0 : Int) else -1)
      rw [if_pos (hwf.dn_complete m hm hdm)]
    · intro m hm hge
      exfalso
      have hnd : m ∉ g.dummyNodes := by
        intro hc
        have := (hwf.dn_mem m hc).2
        rw [(hwf.fn_mem m hm).2] at this
        cases this
      have : (dInit g).depths m = -1 := by
        show (if m ∈ g.dummyNodes then (0 : Int) else -1) = -1
        rw [if_neg hnd]
      rw [this] at hge
      exact absurd hge (by decide)
  obtain ⟨k1, d1, h1, he1, hinv1, hres1⟩ :=
    dProcessList g g.functionNodes.reverse
      (fun m hm => dProcessAux g rank hwf hrk (rank m + 1) m
        (List.mem_reverse.mp hm) (Nat.lt_succ_self _))
      (dInit g).depths []
      hinv0
      (fun m hm => Or.inr (List.mem_reverse.mp hm))
  refine ⟨k1 + 1, d1, ?_, ?_, ?_⟩
  · have hi : (DOC.drun (dInit g)) =
        .drun ⟨(dInit g).depths, g.functionNodes.reverse ++ []⟩ := by
      simp [dInit]
    rw [dRunN, hi, h1]
    rfl
  · intro n hn
    have h0 : (dInit g).depths n = 0 := by
      show (if n ∈ g.dummyNodes then (0 : Int) else -1) = 0
      rw [if_pos hn]
    rw [he1 n (by rw [h0]), h0]
  · intro n hn
    have hge := hres1 n (List.mem_reverse.mpr hn)
    exact ⟨hge, (hinv1.2.2 n hn hge).2⟩
/-- C6: `compute_max_depth_per_node` terminates on every acyclic graph
(witnessed by a rank function increasing along edges) and produces a depth
table assigning `0` to every boundary (dummy) node and, to every function
node, `1` plus the maximum of the depths of the nodes producing its inputs
(clamped at `0` when there are none); in particular every function node is
assigned a depth. -/
theorem C6_compute_max_depth_correct (g : Graph) (rank : Nat → Nat)
    (hwf : GraphWF g) (hrk : RankOK g rank) :
    ∃ k dep, dRunN g k (.drun (dInit g)) = .ddone dep ∧
      (∀ n ∈ g.dummyNodes, dep n = 0) ∧
      (∀ n ∈ g.functionNodes,
        0 ≤ dep n ∧ dep n = dMaxIn g dep n + 1) :=
  dWorklist_complete g rank hwf hrk
theorem C6_compute_max_depth_correct_witness :
    ∃ k dep, dRunN exMut k (.drun (dInit exMut)) = .ddone dep ∧
      (∀ n ∈ exMut.dummyNodes, dep n = 0) ∧
      (∀ n ∈ exMut.functionNodes,
        0 ≤ dep n ∧ dep n = dMaxIn exMut dep n + 1) :=
  C6_compute_max_depth_correct exMut exMutRank
    (by constructor <;> decide) (by decide)
theorem runN_one (c : Ctx V) (o : OC V) : runN c 1 o = step1 c o := rfl
theorem dRunN_absorb (g : Graph) {k j : Nat} {o : DOC} {dep : Nat → Int}
    (h : dRunN g k o = .ddone dep) (hle : k ≤ j) :
    dRunN g j o = .ddone dep := by
  have : j = (j - k) + k := by omega
  rw [this, dRunN_add, h, dRunN_ddone]
theorem runN_absorb_done (c : Ctx V) {k j : Nat} {o : OC V} {st : Store V}
    (h : runN c k o = .done st) (hle : k ≤ j) :
    runN c j o = .done st := by
  have : j = (j - k) + k := by omega
  rw [this, runN_add, h, runN_done]
theorem bindAll_ne {V : Type} (minputs : List (Nat × CView V)) :
    ∀ (v : Nat → Option (Slot V)) (o : Nat),
    o ∉ minputs.map Prod.fst →
    minputs.foldl (fun f p => upd f p.1 (some (slotOfView p.2))) v o =
      v o := by
  induction minputs with
  | nil => intro v o _; rfl
  | cons p rest ih =>
    intro v o ho
    rw [List.foldl_cons]
    rw [ih _ o (fun hc => ho (List.mem_cons_of_mem _ hc))]
    refine upd_ne _ _ ?_
    intro he
    exact ho (by rw [he]; exact List.mem_cons_self _ _)
theorem bindAll_mem {V : Type} (minputs : List (Nat × CView V)) :
    ∀ (v : Nat → Option (Slot V)) (o : Nat) (cv : CView V),
    (minputs.map Prod.fst).Nodup → (o, cv) ∈ minputs →
    minputs.foldl (fun f p => upd f p.1 (some (slotOfView p.2))) v o =
      some (slotOfView cv) := by
  induction minputs with
  | nil => intro v o cv _ hm; cases hm
  | cons p rest ih =>
    intro v o cv hnd hm
    rw [List.foldl_cons]
    rcases List.mem_cons.mp hm with he | hr
    · have h1 : o ∉ rest.map Prod.fst := by
        have := (List.nodup_cons.mp hnd).1
        rw [← he] at this
        exact this
      rw [bindAll_ne rest _ o h1, ← he, upd_same]
    · exact ih _ o cv (List.nodup_cons.mp hnd).2 hr
theorem lookupView_mem {V : Type} (minputs : List (Nat × CView V)) :
    ∀ (o : Nat) (cv : CView V),
    (minputs.map Prod.fst).Nodup → (o, cv) ∈ minputs →
    lookupView minputs o = some cv := by
  induction minputs with
  | nil => intro o cv _ hm; cases hm
  | cons p rest ih =>
    intro o cv hnd hm
    unfold lookupView
    rcases List.mem_cons.mp hm with he | hr
    · rw [← he]
      rw [List.find?_cons_of_pos _ (by simp)]
      rfl
    · have hne : p.1 ≠ o := by
        intro he
        have h1 : o ∈ rest.map Prod.fst :=
          List.mem_map.mpr ⟨(o, cv), hr, rfl⟩
        have := (List.nodup_cons.mp hnd).1
        rw [he] at this
        exact this h1
      rw [List.find?_cons_of_neg _ (by simp [hne])]
      exact ih o cv (List.nodup_cons.mp hnd).2 hr
theorem mem_map_fst {V : Type} {minputs : List (Nat × CView V)} {o : Nat}
    (h : o ∈ minputs.map Prod.fst) : ∃ cv, (o, cv) ∈ minputs := by
  obtain ⟨p, hp, he⟩ := List.mem_map.mp h
  exact ⟨p.2, by rw [← he]; exact hp⟩
theorem bindCaller_fold {V : Type} (minputs : List (Nat × CView V)) :
    ∀ (st : Store V), (minputs.map Prod.fst).Nodup →
    (∀ p ∈ minputs, st.values p.1 = none) →
    minputs.foldlM bindCaller st = .ok { st with
      values :=
        (minputs.foldl (fun f p => upd f p.1 (some (slotOfView p.2)))
          st.values) } := by
  induction minputs with
  | nil =>
    intro st _ _
    simp [List.foldlM]
    rfl
  | cons p rest ih =>
    intro st hnd hnone
    rw [List.foldlM_cons]
    have hstep : bindCaller st p = .ok { st with
        values := (upd st.values p.1 (some (slotOfView p.2))) } := by
      rcases p with ⟨o, cv⟩
      rcases cv with f | f
      · show addSingleFromCaller st o f = _
        unfold addSingleFromCaller
        rw [hnone (o, CView.s f) (List.mem_cons_self _ _)]
        rfl
      · show addVectorFromCaller st o f = _
        unfold addVectorFromCaller
        rw [hnone (o, CView.v f) (List.mem_cons_self _ _)]
        rfl
    rw [hstep]
    show rest.foldlM bindCaller _ = _
    rw [ih _ (List.nodup_cons.mp hnd).2 (fun q hq => by
      show upd st.values p.1 (some (slotOfView p.2)) q.1 = none
      have hne : q.1 ≠ p.1 := by
        intro he
        have h1 : q.1 ∈ rest.map Prod.fst := List.mem_map.mpr ⟨q, hq, rfl⟩
        have := (List.nodup_cons.mp hnd).1
        rw [← he] at this
        exact this h1
      rw [upd_ne _ _ hne]
      exact hnone q (List.mem_cons_of_mem _ hq))]
    rfl
theorem runN_pops (c : Ctx V) :
    ∀ (l : List Nat) (st : Store V),
    (∀ s ∈ l, c.g.isInput s = true ∧ inputIsComputed c.g st s = true) →
    runN c (l.length + 1) (.run st l) = .done st := by
  intro l
  induction l with
  | nil =>
    intro st _
    rfl
  | cons x r ih =>
    intro st h
    have hstep : step1 c (.run st (x :: r)) = .run st r := by
      have h1 := (h x (List.mem_cons_self _ _)).1
      have h2 := (h x (List.mem_cons_self _ _)).2
      simp [step1, stepTop, h1, h2]
    have e1 : runN c 1 (.run st (x :: r)) = .run st r := by
      rw [runN_one, hstep]
    show runN c (r.length + 1 + 1) (.run st (x :: r)) = .done st
    rw [Nat.add_right_comm, runN_add, e1,
      ih st (fun s hs => h s (List.mem_cons_of_mem _ hs))]
theorem copyFold_pass (c : Ctx V) (st : Store V) :
    ∀ (zl : List (Nat × DBuf V)) (acc : List (DBuf V)),
    (∀ p ∈ zl, ∃ cv, st.values (c.g.origin p.1) = some (slotOfView cv) ∧
      (match cv, p.2 with
       | CView.s _, DBuf.s _ => c.g.isVec p.1 = false
       | CView.v _, DBuf.v _ => c.g.isVec p.1 = true
       | _, _ => False)) →
    zl.foldlM (copyOneOutput c st) acc = .ok (acc ++ zl.map (fun p =>
      match st.values (c.g.origin p.1), p.2 with
      | some (Slot.sCaller f), DBuf.s ds =>
          DBuf.s (fun j => if j ∈ c.mask then some (f j) else ds j)
      | some (Slot.vCaller f), DBuf.v dv =>
          DBuf.v (fun j => if j ∈ c.mask then dv j ++ f j else dv j)
      | _, db => db)) := by
  intro zl
  induction zl with
  | nil =>
    intro acc _
    simp [List.foldlM, pure, Except.pure]
  | cons p zl ih =>
    intro acc h
    obtain ⟨cv, hval, hkind⟩ := h p (List.mem_cons_self _ _)
    rw [List.foldlM_cons]
    rcases cv with f | f
    · rcases hp2 : p.2 with ds | dv
      · have hvec : c.g.isVec p.1 = false := by
          rw [hp2] at hkind
          exact hkind
        have hslot : st.values (c.g.origin p.1) =
            some (Slot.sCaller f) := hval
        have hone : copyOneOutput c st acc p = .ok (acc ++
            [DBuf.s (fun j => if j ∈ c.mask then some (f j) else ds j)]) := by
          unfold copyOneOutput
          rw [if_neg (by rw [hvec]; intro hc; cases hc)]
          show (do
            let f2 ← getSingleInput c.g st p.1
            match p.2 with
            | DBuf.s ds2 => Except.ok (acc ++
                [DBuf.s (fun j => if j ∈ c.mask then f2 j else ds2 j)])
            | DBuf.v _ => Except.error (Err.typeMismatch p.1)) = _
          rw [show getSingleInput c.g st p.1 =
              .ok (fun j => some (f j)) from by
            unfold getSingleInput
            rw [hslot]]
          rw [hp2]
          rfl
        rw [hone]
        have hrest := ih (acc ++
          [DBuf.s (fun j => if j ∈ c.mask then some (f j) else ds j)])
          (fun q hq => h q (List.mem_cons_of_mem _ hq))
        show List.foldlM (copyOneOutput c st) (acc ++
          [DBuf.s (fun j => if j ∈ c.mask then some (f j) else ds j)]) zl = _
        rw [hrest]
        simp [hslot, hp2]
      · rw [hp2] at hkind
        cases hkind
    · rcases hp2 : p.2 with ds | dv
      · rw [hp2] at hkind
        cases hkind
      · have hvec : c.g.isVec p.1 = true := by
          rw [hp2] at hkind
          exact hkind
        have hslot : st.values (c.g.origin p.1) =
            some (Slot.vCaller f) := hval
        have hone : copyOneOutput c st acc p = .ok (acc ++
            [DBuf.v (fun j => if j ∈ c.mask then dv j ++ f j else dv j)]) := by
          unfold copyOneOutput
          rw [if_pos hvec]
          show (do
            let f2 ← getVectorInput c.g st p.1
            match p.2 with
            | DBuf.v dv2 => Except.ok (acc ++
                [DBuf.v (fun j => if j ∈ c.mask then dv2 j ++ f2 j else dv2 j)])
            | DBuf.s _ => Except.error (Err.typeMismatch p.1)) = _
          rw [show getVectorInput c.g st p.1 = .ok f from by
            unfold getVectorInput
            rw [hslot]]
          rw [hp2]
          rfl
        rw [hone]
        have hrest := ih (acc ++
          [DBuf.v (fun j => if j ∈ c.mask then dv j ++ f j else dv j)])
          (fun q hq => h q (List.mem_cons_of_mem _ hq))
        show List.foldlM (copyOneOutput c st) (acc ++
          [DBuf.v (fun j => if j ∈ c.mask then dv j ++ f j else dv j)]) zl = _
        rw [hrest]
        simp [hslot, hp2]
theorem flatMap_nil_of_all {α β : Type} (l : List α) (f : α → List β)
    (h : ∀ a ∈ l, f a = []) : l.flatMap f = [] := by
  induction l with
  | nil => rfl
  | cons x l ih =>
    rw [List.flatMap_cons, h x (List.mem_cons_self _ _),
      ih (fun a ha => h a (List.mem_cons_of_mem _ ha))]
    rfl
theorem teardownEvents_nil (g : Graph) (st : Store V)
    (h : ∀ o, tdOf st o = []) : teardownEvents g st = [] := by
  rw [teardownEvents_eq]
  exact flatMap_nil_of_all _ _ (fun o _ => h o)
theorem callFn_eval {V : Type} (g : Graph) (bodyS : Nat → Nat → V)
    (bodyV : Nat → Nat → List V) (minputs : List (Nat × CView V))
    (mouts mask : List Nat) (douts : List (DBuf V)) (F : Nat)
    (dep : Nat → Int) (st : Store V)
    (hm : mask.isEmpty = false)
    (hd : dRunN g F (.drun (dInit g)) = .ddone dep)
    (hs : schedPart g bodyS bodyV minputs mouts mask dep F = .done st) :
    callFn g bodyS bodyV minputs mouts mask douts F =
      match (mouts.zip douts).foldlM
          (copyOneOutput ⟨g, bodyS, bodyV, mask, dep⟩ st) [] with
      | .error e => .fail e st.events
      | .ok outs => .ok outs (st.events ++ teardownEvents g st) := by
  unfold callFn
  rw [hm]
  rw [if_neg (by decide : ¬ ((false : Bool) = true))]
  rw [hd]
  show (match schedPart g bodyS bodyV minputs mouts mask dep F with
    | OC.run st2 _ => CallOut.fail Err.fuel st2.events
    | OC.fail e st2 => CallOut.fail e st2.events
    | OC.done st2 =>
      match (mouts.zip douts).foldlM
          (copyOneOutput ⟨g, bodyS, bodyV, mask, dep⟩ st2) [] with
      | .error e => CallOut.fail e st2.events
      | .ok outs => CallOut.ok outs (st2.events ++ teardownEvents g st2)) = _
  rw [hs]
/-- C7: when every requested output socket originates directly at a
caller-bound boundary socket, the call succeeds, invokes no function node,
and each destination receives the caller-supplied view values copied
unchanged over the mask (vector destinations are extended per index). -/
theorem C7_boundary_passthrough {V : Type} (g : Graph) (rank : Nat → Nat)
    (bodyS : Nat → Nat → V) (bodyV : Nat → Nat → List V)
    (minputs : List (Nat × CView V)) (mouts mask : List Nat)
    (douts : List (DBuf V))
    (hwf : GraphWF g) (hrk : RankOK g rank)
    (hcw : CallWF g minputs mouts)
    (horig : ∀ r ∈ mouts, g.origin r ∈ minputs.map Prod.fst)
    (hdb : ∀ p ∈ mouts.zip douts,
      if g.isVec p.1 = true then ∃ f2, p.2 = DBuf.v f2
      else ∃ f2, p.2 = DBuf.s f2)
    (hmask : mask ≠ []) :
    ∃ fuel outs tr,
      callFn g bodyS bodyV minputs mouts mask douts fuel = .ok outs tr ∧
      invokesOf tr = [] ∧
      outs = (mouts.zip douts).map (fun p =>
        match lookupView minputs (g.origin p.1), p.2 with
        | some (CView.s f), DBuf.s ds =>
            DBuf.s (fun j => if j ∈ mask then some (f j) else ds j)
        | some (CView.v f), DBuf.v dv =>
            DBuf.v (fun j => if j ∈ mask then dv j ++ f j else dv j)
        | _, db => db) := by
  obtain ⟨k1, dep, hdep, _, _⟩ := dWorklist_complete g rank hwf hrk
  obtain ⟨st0, hst0v, hst0e, hbind⟩ : ∃ st0 : Store V,
      st0.values = (minputs.foldl
        (fun f p => upd f p.1 (some (slotOfView p.2))) (fun _ => none)) ∧
      st0.events = [] ∧
      minputs.foldlM bindCaller (initStore V) = .ok st0 :=
    ⟨_, rfl, rfl, bindCaller_fold minputs (initStore V) hcw.mi_nodup
      (fun p _ => rfl)⟩
  have hslots : ∀ r ∈ mouts, ∃ cv, (g.origin r, cv) ∈ minputs ∧
      st0.values (g.origin r) = some (slotOfView cv) := by
    intro r hr
    obtain ⟨cv, hm⟩ := mem_map_fst (horig r hr)
    refine ⟨cv, hm, ?_⟩
    rw [hst0v]
    exact bindAll_mem minputs _ _ cv hcw.mi_nodup hm
  have hme : mask.isEmpty = false := by
    rcases mask with _ | ⟨x, xs⟩
    · exact absurd rfl hmask
    · rfl
  have hrun : runN ⟨g, bodyS, bodyV, mask, dep⟩ (mouts.length + 1)
      (.run st0 mouts.reverse) = .done st0 := by
    have := runN_pops ⟨g, bodyS, bodyV, mask, dep⟩ mouts.reverse st0
      (fun s hs => by
        have hsm : s ∈ mouts := List.mem_reverse.mp hs
        refine ⟨(hcw.mo_mem s hsm).2.1, ?_⟩
        obtain ⟨cv, _, hv⟩ := hslots s hsm
        show (st0.values (g.origin s)).isSome = true
        rw [hv]
        rfl)
    rw [List.length_reverse] at this
    exact this
  have hsched : schedPart g bodyS bodyV minputs mouts mask dep
      (max k1 (mouts.length + 1)) = .done st0 := by
    unfold schedPart
    rw [hbind]
    exact runN_absorb_done _ hrun (le_max_right _ _)
  have hdepF : dRunN g (max k1 (mouts.length + 1)) (.drun (dInit g)) =
      .ddone dep := dRunN_absorb g hdep (le_max_left _ _)
  have hcopy := copyFold_pass ⟨g, bodyS, bodyV, mask, dep⟩ st0
    (mouts.zip douts) []
    (fun p hp => by
      rcases p with ⟨r, db⟩
      have hrm : r ∈ mouts := (List.mem_zip hp).1
      obtain ⟨cv, hmin, hv⟩ := hslots r hrm
      refine ⟨cv, hv, ?_⟩
      obtain ⟨hrlt, hrin, _⟩ := hcw.mo_mem r hrm
      have hcat := hcw.mi_cat _ hmin
      have hocat := hwf.origin_cat r hrlt hrin
      have hdbr := hdb (r, db) hp
      rcases cv with f | f
      · have hvec : g.isVec r = false := by
          rw [← hocat]
          exact hcat
        rw [hvec] at hdbr
        obtain ⟨f2, he⟩ := hdbr
        rw [he]
        exact hvec
      · have hvec : g.isVec r = true := by
          rw [← hocat]
          exact hcat
        rw [hvec] at hdbr
        obtain ⟨f2, he⟩ := hdbr
        rw [he]
        exact hvec)
  have htd : teardownEvents g st0 = [] := by
    refine teardownEvents_nil g st0 (fun o => ?_)
    unfold tdOf
    rw [hst0v]
    by_cases ho : o ∈ minputs.map Prod.fst
    · obtain ⟨cv, hm⟩ := mem_map_fst ho
      rw [bindAll_mem minputs _ _ cv hcw.mi_nodup hm]
      rcases cv with f | f
      · rfl
      · rfl
    · rw [bindAll_ne minputs _ o ho]
      rfl
  refine ⟨max k1 (mouts.length + 1),
    (mouts.zip douts).map (fun p =>
      match lookupView minputs (g.origin p.1), p.2 with
      | some (CView.s f), DBuf.s ds =>
          DBuf.s (fun j => if j ∈ mask then some (f j) else ds j)
      | some (CView.v f), DBuf.v dv =>
          DBuf.v (fun j => if j ∈ mask then dv j ++ f j else dv j)
      | _, db => db),
    st0.events ++ teardownEvents g st0, ?_, ?_, rfl⟩
  · rw [callFn_eval g bodyS bodyV minputs mouts mask douts _ dep st0
      hme hdepF hsched]
    rw [hcopy]
    have hmap : ∀ p ∈ mouts.zip douts,
        (match st0.values (g.origin p.1), p.2 with
          | some (Slot.sCaller f), DBuf.s ds =>
              DBuf.s (fun j => if j ∈ mask then some (f j) else ds j)
          | some (Slot.vCaller f), DBuf.v dv =>
              DBuf.v (fun j => if j ∈ mask then dv j ++ f j else dv j)
          | _, db => db) =
        (match lookupView minputs (g.origin p.1), p.2 with
          | some (CView.s f), DBuf.s ds =>
              DBuf.s (fun j => if j ∈ mask then some (f j) else ds j)
          | some (CView.v f), DBuf.v dv =>
              DBuf.v (fun j => if j ∈ mask then dv j ++ f j else dv j)
          | _, db => db) := by
      intro p hp
      rcases p with ⟨r, db⟩
      have hrm : r ∈ mouts := (List.mem_zip hp).1
      obtain ⟨cv, hmin, hv⟩ := hslots r hrm
      have hlk := lookupView_mem minputs _ cv hcw.mi_nodup hmin
      rw [hv, hlk]
      rcases cv with f | f <;> rcases db with ds | dv <;> rfl
    rw [List.map_congr_left hmap]
    rfl
  · rw [htd, hst0e]
    rfl
theorem C7_boundary_passthrough_witness :
    ∃ fuel outs tr,
      callFn exPass (fun _ _ => (0 : Nat)) (fun _ _ => [])
        [(0, CView.s (fun j => j))] [1] [0]
        [DBuf.s (fun _ => none)] fuel = .ok outs tr ∧
      invokesOf tr = [] ∧
      outs = ([1].zip [DBuf.s (fun _ => (none : Option Nat))]).map (fun p =>
        match lookupView [(0, CView.s (fun j => j))] (exPass.origin p.1),
            p.2 with
        | some (CView.s f), DBuf.s ds =>
            DBuf.s (fun j => if j ∈ [0] then some (f j) else ds j)
        | some (CView.v f), DBuf.v dv =>
            DBuf.v (fun j => if j ∈ [0] then dv j ++ f j else dv j)
        | _, db => db) :=
  C7_boundary_passthrough exPass (fun _ => 0) (fun _ _ => 0) (fun _ _ => [])
    [(0, CView.s (fun j => j))] [1] [0] [DBuf.s (fun _ => none)]
    (by constructor <;> decide) (by decide)
    (by
      refine ⟨by decide, by decide, ?_, by decide⟩
      intro p hp
      rw [List.mem_singleton] at hp
      subst hp
      exact rfl)
    (by decide)
    (by
      intro p hp
      rw [show ([1].zip [DBuf.s (fun _ => (none : Option Nat))]) =
        [(1, DBuf.s (fun _ => none))] from rfl] at hp
      rw [List.mem_singleton] at hp
      subst hp
      exact ⟨fun _ => none, rfl⟩)
    (by decide)
theorem cntOrig_pos (g : Graph) (L : List Nat) (i : Nat) (hi : i ∈ L) :
    0 < cntOrig g L (g.origin i) := by
  have : i ∈ L.filter (fun i2 => decide (g.origin i2 = g.origin i)) :=
    List.mem_filter.mpr ⟨hi, by simp⟩
  exact List.length_pos_of_mem this
theorem cntOrig_zero (g : Graph) (L : List Nat) (o : Nat)
    (h : ∀ i ∈ L, g.origin i ≠ o) : cntOrig g L o = 0 := by
  unfold cntOrig
  rw [List.filter_eq_nil_iff.mpr (fun i hi => by simpa using h i hi)]
  rfl
theorem BufOK_of_eq {V : Type} {st st' : Store V}
    (hv : st'.values = st.values) (hn : st'.nextBuf = st.nextBuf)
    (h : BufOK st) : BufOK st' := by
  obtain ⟨hl, hj⟩ := h
  constructor
  · intro o sl hvo ho
    rw [hv] at hvo
    rw [hn]
    exact hl o sl hvo ho
  · intro o1 o2 sl1 sl2 h1 h2 ho1 ho2 hb
    rw [hv] at h1 h2
    exact hj o1 o2 sl1 sl2 h1 h2 ho1 ho2 hb
theorem countAlloc_invoke (n a : Nat) : countAlloc [Ev.invoke n] a = 0 := rfl
theorem countTeardown_invoke (n b : Nat) :
    countTeardown [Ev.invoke n] b = 0 := rfl
theorem countFinDec_invoke (n o : Nat) : countFinDec [Ev.invoke n] o = 0 := rfl
theorem countDestroy_invoke (n b : Nat) :
    countDestroy [Ev.invoke n] b = 0 := rfl
theorem mem_alloc_pos {ext : List Ev} {a b u : Nat}
    (h : Ev.alloc a b u ∈ ext) : 0 < countAlloc ext a := by
  have : Ev.alloc a b u ∈ ext.filter (fun e => match e with
      | Ev.alloc o2 _ _ => decide (o2 = a)
      | _ => false) := List.mem_filter.mpr ⟨h, by simp⟩
  exact List.length_pos_of_mem this
theorem alloc_not_mem_of_count_zero {ext : List Ev} {a : Nat}
    (h : countAlloc ext a = 0) : ∀ b u, Ev.alloc a b u ∉ ext := by
  intro b u hm
  have := mem_alloc_pos hm
  omega
theorem evalFn_spec {V : Type} (c : Ctx V) (n : Nat) (st st' : Store V)
    (hcat : ∀ p ∈ c.g.params n, PCat c.g p)
    (hsep : ∀ i ∈ paramIns (c.g.params n), ∀ o ∈ paramOuts (c.g.params n),
      c.g.origin i ≠ o)
    (hnd : (paramOuts (c.g.params n)).Nodup)
    (hperm : (paramIns (c.g.params n)).Perm (c.g.nodeInputs n))
    (hLorig : ∀ i ∈ c.g.nodeInputs n,
      c.g.origin i ∉ paramOuts (c.g.params n))
    (houts_pre : ∀ o ∈ paramOuts (c.g.params n), st.values o = none)
    (hbuf : BufOK st)
    (hok : evaluateFunction c st n = .ok st') :
    EvalSpec c n st st' := by
  unfold evaluateFunction at hok
  obtain ⟨out, hbind, hrest⟩ := exc_bind_ok hok
  rcases out with ⟨st1, ws⟩
  have hrest2 : (c.g.nodeInputs n).foldlM (finishInput c.g)
      (writeTargets c { st1 with events := st1.events ++ [Ev.invoke n] } ws)
      = .ok st' := hrest
  obtain ⟨rk, hbs0⟩ := bindFold_spec c (c.g.params n) st [] (st1, ws)
    hcat hsep hnd hbuf hbind
  have hbs : BindSpec c (c.g.params n) st st1 rk := hbs0
  have hfs := finishFold_spec c.g (c.g.nodeInputs n) _ st' hrest2
  have hW := writeTargets_values c
    { st1 with events := st1.events ++ [Ev.invoke n] } ws
  have hWv : (writeTargets c
      { st1 with events := st1.events ++ [Ev.invoke n] } ws).values =
      st1.values := hW.1
  have hWe : (writeTargets c
      { st1 with events := st1.events ++ [Ev.invoke n] } ws).events =
      st1.events ++ [Ev.invoke n] := hW.2.1
  have hWn : (writeTargets c
      { st1 with events := st1.events ++ [Ev.invoke n] } ws).nextBuf =
      st1.nextBuf := hW.2.2
  have hrk : rk = [] := by
    rcases hE : rk with _ | ⟨r, rrest⟩
    · rfl
    · exfalso
      obtain ⟨⟨i, hip, hio⟩, hnone1, -⟩ :=
        hbs.rk_src r (by rw [hE]; exact List.mem_cons_self _ _)
      have hiL : i ∈ c.g.nodeInputs n := hperm.mem_iff.mp hip
      have hpos := cntOrig_pos c.g (c.g.nodeInputs n) i hiL
      have hWnone : (writeTargets c
          { st1 with events := st1.events ++ [Ev.invoke n] } ws).values r =
          none := by rw [hWv]; exact hnone1
      have h0 := (hfs.nvals r hWnone).1
      rw [hio] at hpos
      omega
  subst hrk
  have hbuf1 : BufOK st1 := hbs.bufok hbuf
  have hbufW : BufOK (writeTargets c
      { st1 with events := st1.events ++ [Ev.invoke n] } ws) :=
    BufOK_of_eq hWv hWn hbuf1
  have hfr : ∀ o, o ∉ paramOuts (c.g.params n) →
      st1.values o = st.values o := by
    intro o ho
    exact hbs.frame o ho (List.not_mem_nil o)
  have hcnt0 : ∀ o ∈ paramOuts (c.g.params n),
      cntOrig c.g (c.g.nodeInputs n) o = 0 := by
    intro o ho
    refine cntOrig_zero _ _ _ (fun i hi => ?_)
    intro he
    exact hLorig i hi (he ▸ ho)
  refine ⟨?_, ?_, ?_, ?_, ?_, ?_, hfs.bufok hbufW, ?_⟩
  · -- vals_out
    intro o ho
    obtain ⟨b, hv1, hblt, hfresh⟩ := hbs.outs o ho
    have hWo : (writeTargets c
        { st1 with events := st1.events ++ [Ev.invoke n] } ws).values o =
        some (mkOwn V (c.g.isVec o) b ((c.g.targets o).length)) := by
      rw [hWv]; exact hv1
    refine ⟨b, hfresh rfl, ?_⟩
    rcases hvec : c.g.isVec o with _ | _
    · have hWo2 : (writeTargets c
          { st1 with events := st1.events ++ [Ev.invoke n] } ws).values o =
          some (Slot.sOwn b ((c.g.targets o).length)) := by
        rw [hWo, hvec]
        rfl
      have := (hfs.ovals o b _ hWo2).2
      rw [hcnt0 o ho] at this
      rw [this, if_neg (by omega)]
      simp [mkOwn, hvec]
    · have hWo2 : (writeTargets c
          { st1 with events := st1.events ++ [Ev.invoke n] } ws).values o =
          some (Slot.vOwn b ((c.g.targets o).length)) := by
        rw [hWo, hvec]
        rfl
      have := (hfs.ovalsV o b _ hWo2).2
      rw [hcnt0 o ho] at this
      rw [this, if_neg (by omega)]
      simp [mkOwn, hvec]
  · -- vals_none
    intro o ho hnone
    exact (hfs.nvals o (by rw [hWv, hfr o ho]; exact hnone)).2
  · -- vals_caller
    intro o sl ho hv hown
    exact hfs.cvals o sl (by rw [hWv, hfr o ho]; exact hv) hown
  · -- vals_own
    intro o b u ho hv
    exact hfs.ovals o b u (by rw [hWv, hfr o ho]; exact hv)
  · -- vals_ownV
    intro o b u ho hv
    exact hfs.ovalsV o b u (by rw [hWv, hfr o ho]; exact hv)
  · -- nextBuf monotone
    have h1 : st.nextBuf ≤ st1.nextBuf := hbs.nb
    have h2 := hfs.nb
    rw [hWn] at h2
    omega
  · -- event accounting
    obtain ⟨e1, hev1, hinv1, hfd1, hde1, htd1, hall1, hcnt1⟩ := hbs.ev
    obtain ⟨ef, hevf, hinvf, hcaf, hctf, hcff, hdsf, hadjf⟩ := hfs.ev
    refine ⟨e1 ++ ([Ev.invoke n] ++ ef), ?_, ?_, ?_, ?_, ?_, ?_, ?_, ?_⟩
    · rw [hevf, hWe, hev1]
      simp
    · rw [invokesOf_append, invokesOf_append, hinv1, hinvf]
      rfl
    · intro a
      rw [countAlloc_append, countAlloc_append, countAlloc_invoke,
        hcaf a, hcnt1 rfl a]
      omega
    · intro b2
      rw [countTeardown_append, countTeardown_append, countTeardown_invoke,
        htd1 b2, hctf b2]
    · intro o
      rw [countFinDec_append, countFinDec_append, countFinDec_invoke,
        hfd1 o, hcff o, hWv]
      simp only [Nat.zero_add]
      by_cases ho : o ∈ paramOuts (c.g.params n)
      · obtain ⟨b, hv1, -, -⟩ := hbs.outs o ho
        rw [hv1, houts_pre o ho]
        rcases hvec : c.g.isVec o with _ | _ <;>
          simp [mkOwn, hvec, hcnt0 o ho]
      · rw [hfr o ho]
    · intro a b u hm
      rcases List.mem_append.mp hm with h1 | h2
      · obtain ⟨a2, b2, hee, hap, hble, hsl⟩ := hall1 rfl _ h1
        injection hee with h1a h1b h1u
        subst h1a
        subst h1b
        subst h1u
        refine ⟨hap, rfl, hble, ?_⟩
        rcases hvec : c.g.isVec a with _ | _
        · have hWo2 : (writeTargets c
              { st1 with events := st1.events ++ [Ev.invoke n] } ws).values
              a = some (Slot.sOwn b ((c.g.targets a).length)) := by
            rw [hWv, hsl, hvec]
            rfl
          have := (hfs.ovals a b _ hWo2).2
          rw [hcnt0 a hap] at this
          rw [this, if_neg (by omega)]
          simp [mkOwn, hvec]
        · have hWo2 : (writeTargets c
              { st1 with events := st1.events ++ [Ev.invoke n] } ws).values
              a = some (Slot.vOwn b ((c.g.targets a).length)) := by
            rw [hWv, hsl, hvec]
            rfl
          have := (hfs.ovalsV a b _ hWo2).2
          rw [hcnt0 a hap] at this
          rw [this, if_neg (by omega)]
          simp [mkOwn, hvec]
      · rcases List.mem_append.mp h2 with h3 | h4
        · simp at h3
        · exact absurd h4 (alloc_not_mem_of_count_zero (hcaf a) b u)
    · intro b2 hpos
      rw [countDestroy_append, countDestroy_append, countDestroy_invoke,
        hde1 b2] at hpos
      obtain ⟨o, sl, hvo, hso, hbo⟩ := hdsf b2 (by omega)
      rw [hWv] at hvo
      by_cases ho : o ∈ paramOuts (c.g.params n)
      · exfalso
        obtain ⟨b, hv1, -, -⟩ := hbs.outs o ho
        rw [hv1] at hvo
        cases hvo
        have hWo : (writeTargets c
            { st1 with events := st1.events ++ [Ev.invoke n] } ws).values o =
            some (mkOwn V (c.g.isVec o) b ((c.g.targets o).length)) := by
          rw [hWv]; exact hv1
        have hnd2 := (hadjf hbufW o _ hWo (mkOwn_owned _ _ _)).2 (by
          rw [hcnt0 o ho]
          rintro ⟨hx, -⟩
          omega)
        rw [mkOwn_bufOf] at hnd2 hbo
        rw [hbo] at hnd2
        omega
      · rw [hfr o ho] at hvo
        exact ⟨o, sl, hvo, hso, hbo, ho⟩
    · intro o sl hvo hso ho
      have hWo : (writeTargets c
          { st1 with events := st1.events ++ [Ev.invoke n] } ws).values o =
          some sl := by
        rw [hWv, hfr o ho]; exact hvo
      have hadj2 := hadjf hbufW o sl hWo hso
      constructor
      · intro hcase
        obtain ⟨hd1, p, q, hsplit, hq⟩ := hadj2.1 hcase
        refine ⟨?_, e1 ++ ([Ev.invoke n] ++ p), q, ?_, hq⟩
        · rw [countDestroy_append, countDestroy_append, countDestroy_invoke,
            hde1 _, hd1]
        · rw [hsplit]
          simp
      · intro hcase
        rw [countDestroy_append, countDestroy_append, countDestroy_invoke,
          hde1 _, hadj2.2 hcase]
theorem PWF_PCat (g : Graph) (n : Nat) (p : PSpec) (h : PWF g n p) :
    PCat g p := by
  rcases p with i | i | o | o | ⟨i, o⟩ | ⟨i, o⟩
  · exact h.2
  · exact h.2
  · exact h
  · exact h
  · exact h.2
  · exact h.2
theorem upR_rank (g : Graph) (rank : Nat → Nat) (hrk : RankOK g rank)
    {m n : Nat} (h : upR g m n) : rank m < rank n := by
  induction h with
  | single he =>
    obtain ⟨hn, hd, i, hi, hsn⟩ := he
    rw [← hsn]
    exact hrk _ hn hd i hi
  | tail _ he ih =>
    obtain ⟨hn, hd, i, hi, hsn⟩ := he
    have := hrk _ hn hd i hi
    rw [hsn] at this
    omega
theorem upR_irrefl (g : Graph) (rank : Nat → Nat) (hrk : RankOK g rank)
    (n : Nat) : ¬ upR g n n := by
  intro h
  have := upR_rank g rank hrk h
  omega
theorem length_nodup_mem_eq {α : Type} [DecidableEq α] {l1 l2 : List α}
    (h1 : l1.Nodup) (h2 : l2.Nodup) (h : ∀ a, a ∈ l1 ↔ a ∈ l2) :
    l1.length = l2.length := by
  rw [← List.toFinset_card_of_nodup h1, ← List.toFinset_card_of_nodup h2]
  congr 1
  ext a
  simp [h a]
theorem length_filter_split {α : Type} (l : List α) (p q : α → Bool) :
    (l.filter p).length =
      (l.filter (fun a => p a && q a)).length +
      (l.filter (fun a => p a && !(q a))).length := by
  induction l with
  | nil => rfl
  | cons x l ih =>
    by_cases hp : p x
    · by_cases hq : q x
      · rw [List.filter_cons_of_pos (by simp [hp]),
          List.filter_cons_of_pos (by simp [hp, hq]),
          List.filter_cons_of_neg (by simp [hp, hq])]
        simp only [List.length_cons]
        omega
      · rw [List.filter_cons_of_pos (by simp [hp]),
          List.filter_cons_of_neg (by simp [hp, hq]),
          List.filter_cons_of_pos (by simp [hp, hq])]
        simp only [List.length_cons]
        omega
    · rw [List.filter_cons_of_neg (by simp [hp]),
        List.filter_cons_of_neg (by simp [hp]),
        List.filter_cons_of_neg (by simp [hp])]
      exact ih
theorem unfin_pos (g : Graph) (st : Store V) {t o : Nat}
    (ht : t ∈ g.targets o) (hf : ¬ finished g st t) : 0 < unfin g st o := by
  have : t ∈ (g.targets o).filter (fun t2 => !(decide (finished g st t2))) :=
    List.mem_filter.mpr ⟨ht, by simpa using hf⟩
  exact List.length_pos_of_mem this
theorem unfin_all (g : Graph) (st : Store V) (o : Nat)
    (h : ∀ t ∈ g.targets o, ¬ finished g st t) :
    unfin g st o = (g.targets o).length := by
  unfold unfin
  rw [List.filter_eq_self.mpr (fun t ht => by simpa using h t ht)]
theorem invoked_step {st st2 : Store V} {ext : List Ev} {n : Nat}
    (he : st2.events = st.events ++ ext) (hi : invokesOf ext = [n]) :
    ∀ m, invoked st2 m ↔ invoked st m ∨ m = n := by
  intro m
  unfold invoked
  rw [he, List.mem_append]
  constructor
  · rintro (h | h)
    · exact Or.inl h
    · right
      have : m ∈ invokesOf ext := (mem_invokesOf ext m).mpr h
      rw [hi] at this
      simpa using this
  · rintro (h | h)
    · exact Or.inl h
    · right
      subst h
      exact (mem_invokesOf ext m).mp (by rw [hi]; exact List.mem_singleton.mpr rfl)
theorem invoked_mono {st st2 : Store V} {ext : List Ev}
    (he : st2.events = st.events ++ ext) {m : Nat} (h : invoked st m) :
    invoked st2 m := by
  unfold invoked at h ⊢
  rw [he, List.mem_append]
  exact Or.inl h
theorem cnt_targets (g : Graph) (hwf : GraphWF g) (n o : Nat)
    (hn : n < g.nodeCount) (ho : o < g.socketCount) :
    cntOrig g (g.nodeInputs n) o =
      ((g.targets o).filter (fun t => decide (g.socketNode t = n))).length := by
  unfold cntOrig
  refine length_nodup_mem_eq
    ((hwf.ni_nodup n hn).filter _) ((hwf.tgt_nodup o ho).filter _) ?_
  intro a
  rw [List.mem_filter, List.mem_filter]
  constructor
  · rintro ⟨ha, hoa⟩
    have hoa2 : g.origin a = o := by simpa using hoa
    obtain ⟨halt, hain, hasn⟩ := hwf.ni_mem n hn a ha
    refine ⟨?_, by simp [hasn]⟩
    rw [← hoa2]
    exact hwf.tgt_complete a halt hain
  · rintro ⟨ha, hsa⟩
    have hsa2 : g.socketNode a = n := by simpa using hsa
    obtain ⟨halt, hain, haor⟩ := hwf.tgt_mem o ho a ha
    refine ⟨?_, by simp [haor]⟩
    rw [← hsa2]
    exact hwf.ni_complete a halt hain
theorem unfin_dec (g : Graph) (hwf : GraphWF g) (st st2 : Store V)
    {ext : List Ev} {n : Nat} (o : Nat)
    (hn : n < g.nodeCount) (ho : o < g.socketCount)
    (he : st2.events = st.events ++ ext) (hi : invokesOf ext = [n])
    (hninv : ¬ invoked st n) :
    unfin g st o = unfin g st2 o + cntOrig g (g.nodeInputs n) o := by
  unfold unfin
  rw [cnt_targets g hwf n o hn ho]
  rw [length_filter_split (g.targets o)
    (fun t => !(decide (finished g st t)))
    (fun t => decide (g.socketNode t = n))]
  have h1 : (g.targets o).filter
      (fun t => !(decide (finished g st t)) && decide (g.socketNode t = n)) =
      (g.targets o).filter (fun t => decide (g.socketNode t = n)) := by
    refine List.filter_congr (fun t _ => ?_)
    by_cases hsn : g.socketNode t = n
    · have hnf : ¬ finished g st t := by
        unfold finished
        rw [hsn]
        exact hninv
      simp [hsn, hnf]
    · simp [hsn]
  have h2 : (g.targets o).filter
      (fun t => !(decide (finished g st t)) &&
        !(decide (g.socketNode t = n))) =
      (g.targets o).filter (fun t => !(decide (finished g st2 t))) := by
    refine List.filter_congr (fun t _ => ?_)
    have hiff := invoked_step he hi (g.socketNode t)
    by_cases hf2 : finished g st2 t
    · have : finished g st t ∨ g.socketNode t = n := hiff.mp hf2
      rcases this with hc | hc
      · simp [hc, hf2]
      · simp [hc, hf2]
    · have hnf : ¬ finished g st t := fun hc => hf2 (hiff.mpr (Or.inl hc))
      have hnn : ¬ (g.socketNode t = n) := fun hc => hf2 (hiff.mpr (Or.inr hc))
      simp [hnf, hnn, hf2]
  rw [h1, h2]
  omega
theorem mem_insKey (key : Nat → Int) (x a : Nat) :
    ∀ l, a ∈ insKey key x l ↔ a = x ∨ a ∈ l := by
  intro l
  induction l with
  | nil => simp [insKey]
  | cons y ys ih =>
    unfold insKey
    by_cases hk : key x ≤ key y
    · rw [if_pos hk]
      simp
    · rw [if_neg hk]
      simp only [List.mem_cons, ih]
      constructor
      · rintro (h | h | h)
        · exact Or.inr (Or.inl h)
        · exact Or.inl h
        · exact Or.inr (Or.inr h)
      · rintro (h | h | h)
        · exact Or.inr (Or.inl h)
        · exact Or.inl h
        · exact Or.inr (Or.inr h)
theorem mem_sortKey (key : Nat → Int) (a : Nat) :
    ∀ l, a ∈ sortKey key l ↔ a ∈ l := by
  intro l
  induction l with
  | nil => simp [sortKey]
  | cons x xs ih =>
    unfold sortKey
    rw [mem_insKey, ih]
    simp
theorem SInv_tail {V : Type} {g : Graph} {base : Nat → Option (Slot V)}
    {st : Store V} {x : Nat} {r : List Nat}
    (h : SInv g base st (x :: r)) : SInv g base st r := by
  refine ⟨fun s hs => h.stk_lt s (List.mem_cons_of_mem _ hs),
    fun i hi => h.stk_in i (List.mem_cons_of_mem _ hi),
    fun o ho => h.stk_out o (List.mem_cons_of_mem _ ho),
    ?_, ?_, h.slot_fn, h.slot_live, h.slot_dummy, h.slot_input,
    h.slot_big, h.inv_fn, h.inv_ord, h.inv_nodup, h.slot_pos, h.bufok⟩
  · intro pre o post hdec hout s hs
    exact h.shape (x :: pre) o post (by rw [hdec]; rfl) hout s
      (List.mem_cons_of_mem _ hs)
  · intro pre i post hdec hin hnd
    exact h.below (x :: pre) i post (by rw [hdec]; rfl) hin hnd
theorem SInv_push_origin {V : Type} {g : Graph}
    {base : Nat → Option (Slot V)} {st : Store V} {x : Nat} {r : List Nat}
    (hwf : GraphWF g)
    (h : SInv g base st (x :: r))
    (hin : g.isInput x = true)
    (hnc : inputIsComputed g st x = false) :
    SInv g base st (g.origin x :: x :: r) := by
  have hxlt : x < g.socketCount := h.stk_lt x (List.mem_cons_self _ _)
  have holt : g.origin x < g.socketCount := hwf.origin_lt x hxlt hin
  have hoo : g.isInput (g.origin x) = false := hwf.origin_out x hxlt hin
  refine ⟨?_, ?_, ?_, ?_, ?_, h.slot_fn, h.slot_live, h.slot_dummy,
    h.slot_input, h.slot_big, h.inv_fn, h.inv_ord, h.inv_nodup,
    h.slot_pos, h.bufok⟩
  · intro s hs
    rcases List.mem_cons.mp hs with he | hs2
    · rw [he]; exact holt
    · exact h.stk_lt s hs2
  · intro i hi hii
    rcases List.mem_cons.mp hi with he | hi2
    · rw [he] at hii
      rw [hii] at hoo
      cases hoo
    · exact h.stk_in i hi2 hii
  · intro o ho hoz
    rcases List.mem_cons.mp ho with he | ho2
    · subst he
      intro hinv
      have hm := h.inv_fn _ hinv
      have hlive := h.slot_live (g.origin x) holt hoo hm.2 hinv
        (Or.inr (unfin_pos g st
          (hwf.tgt_complete x hxlt hin)
          (h.stk_in x (List.mem_cons_self _ _) hin)))
      unfold inputIsComputed at hnc
      rw [hnc] at hlive
      cases hlive
    · exact h.stk_out o ho2 hoz
  · intro pre o post hdec hout s hs
    rcases pre with _ | ⟨p0, pre'⟩
    · cases hs
    · rw [List.cons_append] at hdec
      injection hdec with h1 h2
      rcases List.mem_cons.mp hs with he | hs2
      · -- s is the pushed origin
        subst he
        rw [← h1]
        have hpre' : ∃ pre'', pre' = x :: pre'' := by
          rcases pre' with _ | ⟨q0, pre''⟩
          · exfalso
            injection h2 with h3 h4
            rw [← h3] at hout
            rw [hin] at hout
            cases hout
          · injection h2 with h3 h4
            exact ⟨pre'', by rw [h3]⟩
        obtain ⟨pre'', hpe⟩ := hpre'
        have hx := h.shape pre' o post h2 hout x (by
          rw [hpe]; exact List.mem_cons_self _ _)
        unfold UpS demNode at hx ⊢
        rw [hin] at hx
        rw [hoo]
        exact hx
      · exact h.shape pre' o post h2 hout s hs2
  · intro pre i post hdec hii hnd
    rcases pre with _ | ⟨p0, pre'⟩
    · injection hdec with h1 h2
      rw [h1] at hoo
      rw [hii] at hoo
      cases hoo
    · rw [List.cons_append] at hdec
      injection hdec with h1 h2
      exact h.below pre' i post h2 hii hnd
theorem SInv_push_missing {V : Type} {g : Graph}
    {base : Nat → Option (Slot V)} {st : Store V} {x : Nat} {r : List Nat}
    (hwf : GraphWF g) (key : Nat → Int)
    (h : SInv g base st (x :: r))
    (hout : g.isInput x = false)
    (hndum : g.isDummy (g.socketNode x) = false) :
    SInv g base st ((sortKey key ((g.nodeInputs (g.socketNode x)).filter
      (fun i => !(inputIsComputed g st i)))).reverse ++ x :: r) := by
  have hxlt : x < g.socketCount := h.stk_lt x (List.mem_cons_self _ _)
  have hnlt : g.socketNode x < g.nodeCount := hwf.node_lt x hxlt
  have hmem : ∀ s, s ∈ (sortKey key ((g.nodeInputs (g.socketNode x)).filter
      (fun i => !(inputIsComputed g st i)))).reverse ↔
      (s ∈ g.nodeInputs (g.socketNode x) ∧
        inputIsComputed g st s = false) := by
    intro s
    rw [List.mem_reverse, mem_sortKey, List.mem_filter]
    simp
  have hifacts : ∀ s, s ∈ g.nodeInputs (g.socketNode x) →
      s < g.socketCount ∧ g.isInput s = true ∧
      g.socketNode s = g.socketNode x :=
    fun s hs => hwf.ni_mem _ hnlt s hs
  have hedge : ∀ s ∈ g.nodeInputs (g.socketNode x),
      UpS g s (g.socketNode x) := by
    intro s hs
    unfold UpS demNode
    rw [(hifacts s hs).2.1]
    exact Relation.TransGen.single ⟨hnlt, hndum, s, hs, rfl⟩
  refine ⟨?_, ?_, ?_, ?_, ?_, h.slot_fn, h.slot_live, h.slot_dummy,
    h.slot_input, h.slot_big, h.inv_fn, h.inv_ord, h.inv_nodup,
    h.slot_pos, h.bufok⟩
  · intro s hs
    rcases List.mem_append.mp hs with hs1 | hs2
    · exact (hifacts s ((hmem s).mp hs1).1).1
    · rcases List.mem_cons.mp hs2 with he | hs3
      · rw [he]; exact hxlt
      · exact h.stk_lt s (List.mem_cons_of_mem _ hs3)
  · intro i hi hii
    rcases List.mem_append.mp hi with hi1 | hi2
    · obtain ⟨hiN, -⟩ := (hmem i).mp hi1
      unfold finished
      rw [(hifacts i hiN).2.2]
      exact h.stk_out x (List.mem_cons_self _ _) hout
    · exact h.stk_in i hi2 hii
  · intro o ho hoz
    rcases List.mem_append.mp ho with ho1 | ho2
    · obtain ⟨hoN, -⟩ := (hmem o).mp ho1
      rw [(hifacts o hoN).2.1] at hoz
      cases hoz
    · exact h.stk_out o ho2 hoz
  · intro pre o post hdec hoz s hs
    rcases List.append_eq_append_iff.mp hdec with
      ⟨a', hc, hb⟩ | ⟨c', ha, hd⟩
    · -- o lies within x :: r
      have hup : upR g (g.socketNode x) (g.socketNode o) ∨
          o = x := by
        rcases a' with _ | ⟨q0, a''⟩
        · right
          injection hb with h3 h4
          exact h3.symm
        · left
          injection hb with h3 h4
          have := h.shape (q0 :: a'') o post (by rw [h4, h3]; rfl) hoz q0
            (List.mem_cons_self _ _)
          unfold UpS demNode at this
          rw [← h3, hout] at this
          exact this
      rw [hc] at hs
      rcases List.mem_append.mp hs with hs1 | hs2
      · obtain ⟨hsN, -⟩ := (hmem s).mp hs1
        rcases hup with hup1 | hup2
        · have h1 := hedge s hsN
          unfold UpS at h1 ⊢
          exact Relation.TransGen.trans h1 hup1
        · rw [hup2]
          exact hedge s hsN
      · rcases a' with _ | ⟨q0, a''⟩
        · cases hs2
        · injection hb with h3 h4
          have := h.shape (q0 :: a'') o post (by rw [h4, h3]; rfl) hoz s hs2
          exact this
    · -- o is x (empty overlap) or inside the pushed inputs (impossible)
      rcases c' with _ | ⟨q0, c''⟩
      · injection hd with h3 h4
        have hpre : pre = (sortKey key
            ((g.nodeInputs (g.socketNode x)).filter
              (fun i => !(inputIsComputed g st i)))).reverse := by
          rw [ha]
          simp
        rw [hpre] at hs
        obtain ⟨hsN, -⟩ := (hmem s).mp hs
        rw [h3]
        exact hedge s hsN
      · exfalso
        injection hd with h3 h4
        have : o ∈ (sortKey key ((g.nodeInputs (g.socketNode x)).filter
            (fun i => !(inputIsComputed g st i)))).reverse := by
          rw [ha, ← h3]
          exact List.mem_append_right _ (List.mem_cons_self _ _)
        obtain ⟨hoN, -⟩ := (hmem o).mp this
        rw [(hifacts o hoN).2.1] at hoz
        cases hoz
  · intro pre i post hdec hii hnd2
    rcases List.append_eq_append_iff.mp hdec with
      ⟨a', hc, hb⟩ | ⟨c', ha, hd⟩
    · -- i lies within x :: r
      rcases a' with _ | ⟨q0, a''⟩
      · exfalso
        injection hb with h3 h4
        rw [h3] at hout
        rw [hii] at hout
        cases hout
      · injection hb with h3 h4
        exact h.below (q0 :: a'') i post (by rw [h4, h3]; rfl) hii hnd2
    · -- i is one of the pushed inputs: x is the output below it
      rcases c' with _ | ⟨q0, c''⟩
      · exfalso
        injection hd with h3 h4
        rw [h3] at hii
        rw [hii] at hout
        cases hout
      · injection hd with h3 h4
        have hiP : i ∈ (sortKey key ((g.nodeInputs (g.socketNode x)).filter
            (fun i2 => !(inputIsComputed g st i2)))).reverse := by
          rw [ha, ← h3]
          exact List.mem_append_right _ (List.mem_cons_self _ _)
        obtain ⟨hiN, -⟩ := (hmem i).mp hiP
        refine ⟨c'', x, r, h4, hout, ?_⟩
        exact (hifacts i hiN).2.2.symm
theorem mkOwn_usersOf {V : Type} (vec : Bool) (b u : Nat) :
    (mkOwn V vec b u).usersOf = u := by
  rcases vec <;> simp [mkOwn, Slot.usersOf]
theorem unfin_le (g : Graph) (st : Store V) (o : Nat) :
    unfin g st o ≤ (g.targets o).length :=
  List.length_filter_le _ _
theorem SExt_refl (g : Graph) (st : Store V) : SExt g st st :=
  ⟨fun _ h => h, fun _ _ _ _ h => h⟩
theorem SExt_trans {g : Graph} {st1 st2 st3 : Store V}
    (h1 : SExt g st1 st2) (h2 : SExt g st2 st3) : SExt g st1 st3 := by
  refine ⟨fun m hm => h2.1 m (h1.1 m hm), ?_⟩
  intro i hlt hin hf3 hs
  refine h2.2 i hlt hin hf3 (h1.2 i hlt hin ?_ hs)
  intro hf2
  exact hf3 (h2.1 _ hf2)
theorem SInv_eval {V : Type} {c : Ctx V} (rank : Nat → Nat)
    {base : Nat → Option (Slot V)} {st st2 : Store V} {x : Nat}
    {r : List Nat}
    (hwf : GraphWF c.g) (hrk : RankOK c.g rank)
    (hbase : ∀ o sl, base o = some sl → sl.owned = false)
    (h : SInv c.g base st (x :: r))
    (hout : c.g.isInput x = false)
    (hndum : c.g.isDummy (c.g.socketNode x) = false)
    (hmiss : ∀ i ∈ c.g.nodeInputs (c.g.socketNode x),
      inputIsComputed c.g st i = true)
    (hok : evaluateFunction c st (c.g.socketNode x) = .ok st2) :
    SInv c.g base st2 r ∧ SExt c.g st st2 := by
  have hxlt : x < c.g.socketCount := h.stk_lt x (List.mem_cons_self _ _)
  have hnlt : c.g.socketNode x < c.g.nodeCount := hwf.node_lt x hxlt
  have hninv : ¬ invoked st (c.g.socketNode x) :=
    h.stk_out x (List.mem_cons_self _ _) hout
  have hperm := hwf.pi_perm _ hnlt hndum
  have hLorig : ∀ i ∈ c.g.nodeInputs (c.g.socketNode x),
      c.g.origin i ∉ paramOuts (c.g.params (c.g.socketNode x)) := by
    intro i hi hop
    have hr1 := hrk _ hnlt hndum i hi
    have hsn := (hwf.po_mem _ hnlt hndum _ hop).2.2
    rw [hsn] at hr1
    omega
  have houts_pre : ∀ o ∈ paramOuts (c.g.params (c.g.socketNode x)),
      st.values o = none := by
    intro o ho
    obtain ⟨holt, hoout, hosn⟩ := hwf.po_mem _ hnlt hndum o ho
    rcases hv : st.values o with _ | sl
    · rfl
    · exfalso
      have := (h.slot_fn o holt hoout (by rw [hosn]; exact hndum) sl hv).2.2.1
      rw [hosn] at this
      exact hninv this
  have es : EvalSpec c (c.g.socketNode x) st st2 := by
    refine evalFn_spec c _ st st2
      (fun p hp => PWF_PCat _ _ _ (hwf.p_wf _ hnlt hndum p hp))
      ?_ (hwf.po_nodup _ hnlt hndum) hperm hLorig houts_pre h.bufok hok
    intro i hi o ho he
    exact hLorig i (hperm.mem_iff.mp hi) (he ▸ ho)
  obtain ⟨ext, hev, hinvf, hca, hct, hcf, hall, hds, hadj⟩ := es.ev
  have hstep := invoked_step hev hinvf
  have hshape_ne : ∀ o2 ∈ r, c.g.isInput o2 = false →
      c.g.socketNode o2 ≠ c.g.socketNode x := by
    intro o2 ho2 hoz he
    obtain ⟨pre, post, hdec⟩ := List.append_of_mem ho2
    have := h.shape (x :: pre) o2 post (by rw [hdec]; rfl) hoz x
      (List.mem_cons_self _ _)
    unfold UpS demNode at this
    rw [hout, he] at this
    exact upR_irrefl c.g rank hrk _ this
  have hbelow_ne : ∀ i ∈ r, c.g.isInput i = true →
      c.g.isDummy (c.g.socketNode i) = false →
      c.g.socketNode i ≠ c.g.socketNode x := by
    intro i hi hii hind he
    obtain ⟨pre, post, hdec⟩ := List.append_of_mem hi
    obtain ⟨pre2, o2, post2, hpost, ho2out, ho2sn⟩ :=
      h.below (x :: pre) i post (by rw [hdec]; rfl) hii hind
    refine hshape_ne o2 ?_ ho2out ?_
    · rw [hdec]
      refine List.mem_append_right _ ?_
      rw [hpost]
      exact List.mem_cons_of_mem _ (List.mem_append_right _
        (List.mem_cons_self _ _))
    · rw [ho2sn, he]
  have hunfin_dec : ∀ o2, o2 < c.g.socketCount →
      unfin c.g st o2 = unfin c.g st2 o2 +
        cntOrig c.g (c.g.nodeInputs (c.g.socketNode x)) o2 :=
    fun o2 ho2 => unfin_dec c.g hwf st st2 o2 hnlt ho2 hev hinvf hninv
  refine ⟨⟨?_, ?_, ?_, ?_, ?_, ?_, ?_, ?_, ?_, ?_, ?_, ?_, ?_, ?_,
    es.bufok⟩, ?_⟩
  · intro s hs
    exact h.stk_lt s (List.mem_cons_of_mem _ hs)
  · intro i hi hii hfin
    rcases (hstep _).mp hfin with hc | hc
    · exact h.stk_in i (List.mem_cons_of_mem _ hi) hii hc
    · have hind : c.g.isDummy (c.g.socketNode i) = false := by
        rw [hc]; exact hndum
      exact hbelow_ne i hi hii hind hc
  · intro o ho hoz hinv2
    rcases (hstep _).mp hinv2 with hc | hc
    · exact h.stk_out o (List.mem_cons_of_mem _ ho) hoz hc
    · exact hshape_ne o ho hoz hc
  · intro pre o post hdec hoz s hs
    exact h.shape (x :: pre) o post (by rw [hdec]; rfl) hoz s
      (List.mem_cons_of_mem _ hs)
  · intro pre i post hdec hii hnd2
    exact h.below (x :: pre) i post (by rw [hdec]; rfl) hii hnd2
  · -- slot_fn
    intro o2 holt hoo hond sl hv2
    by_cases hop : o2 ∈ paramOuts (c.g.params (c.g.socketNode x))
    · obtain ⟨b, hble, hv'⟩ := es.vals_out o2 hop
      rw [hv'] at hv2
      obtain rfl : mkOwn V (c.g.isVec o2) b ((c.g.targets o2).length) = sl :=
        Option.some.inj hv2
      have hsn := (hwf.po_mem _ hnlt hndum _ hop).2.2
      have htne : ∀ t ∈ c.g.targets o2, ¬ finished c.g st2 t := by
        intro t ht hfin
        obtain ⟨htlt, htin, htor⟩ := hwf.tgt_mem o2 holt t ht
        rcases (hstep _).mp hfin with hc | hc
        · have htnd : c.g.isDummy (c.g.socketNode t) = false :=
            (h.inv_fn _ hc).2
          have := h.inv_ord t htlt htin htnd hc
          rw [htor, hsn] at this
          rcases this with h1 | h1
          · exact hninv h1
          · rw [hndum] at h1
            cases h1
        · have : t ∈ c.g.nodeInputs (c.g.socketNode x) := by
            rw [← hc]
            exact hwf.ni_complete t htlt htin
          exact hLorig t this (htor ▸ hop)
      refine ⟨mkOwn_owned _ _ _, ?_, ?_, ?_⟩
      · rcases hvec : c.g.isVec o2 with _ | _
        · constructor
          · intro hc; cases hc
          · rintro ⟨b2, u2, hc⟩
            simp [mkOwn] at hc
        · constructor
          · intro _
            exact ⟨b, (c.g.targets o2).length, by simp [mkOwn]⟩
          · intro _; rfl
      · rw [hsn]
        exact (hstep _).mpr (Or.inr rfl)
      · rw [mkOwn_usersOf, unfin_all c.g st2 o2 htne]
    · rcases hv : st.values o2 with _ | sl0
      · rw [es.vals_none o2 hop hv] at hv2
        cases hv2
      · obtain ⟨hown0, hcat0, hinv0, husers0⟩ :=
          h.slot_fn o2 holt hoo hond sl0 hv
        rcases sl0 with ⟨w⟩ | ⟨w⟩ | ⟨b, u⟩ | ⟨b, u⟩
        · simp [Slot.owned] at hown0
        · simp [Slot.owned] at hown0
        · obtain ⟨hle, hv'⟩ := es.vals_own o2 b u hop hv
          rw [hv'] at hv2
          by_cases hfull : 0 < cntOrig c.g
              (c.g.nodeInputs (c.g.socketNode x)) o2 ∧
              cntOrig c.g (c.g.nodeInputs (c.g.socketNode x)) o2 = u
          · rw [if_pos hfull] at hv2
            cases hv2
          · rw [if_neg hfull] at hv2
            obtain rfl : Slot.sOwn b (u - cntOrig c.g
                (c.g.nodeInputs (c.g.socketNode x)) o2) = sl :=
              Option.some.inj hv2
            refine ⟨rfl, ?_, (hstep _).mpr (Or.inl hinv0), ?_⟩
            · constructor
              · intro hc
                have := hcat0.mp hc
                obtain ⟨b2, u2, hc2⟩ := this
                cases hc2
              · rintro ⟨b2, u2, hc⟩
                cases hc
            · show u - cntOrig c.g (c.g.nodeInputs (c.g.socketNode x)) o2 =
                unfin c.g st2 o2
              have hud := hunfin_dec o2 holt
              have hu0 : u = unfin c.g st o2 := husers0
              omega
        · obtain ⟨hle, hv'⟩ := es.vals_ownV o2 b u hop hv
          rw [hv'] at hv2
          by_cases hfull : 0 < cntOrig c.g
              (c.g.nodeInputs (c.g.socketNode x)) o2 ∧
              cntOrig c.g (c.g.nodeInputs (c.g.socketNode x)) o2 = u
          · rw [if_pos hfull] at hv2
            cases hv2
          · rw [if_neg hfull] at hv2
            obtain rfl : Slot.vOwn b (u - cntOrig c.g
                (c.g.nodeInputs (c.g.socketNode x)) o2) = sl :=
              Option.some.inj hv2
            refine ⟨rfl, ?_, (hstep _).mpr (Or.inl hinv0), ?_⟩
            · constructor
              · intro _
                exact ⟨b, _, rfl⟩
              · intro _
                exact hcat0.mpr ⟨b, u, rfl⟩
            · show u - cntOrig c.g (c.g.nodeInputs (c.g.socketNode x)) o2 =
                unfin c.g st2 o2
              have hud := hunfin_dec o2 holt
              have hu0 : u = unfin c.g st o2 := husers0
              omega
  · -- slot_live
    intro o2 holt hoo hond hinv2 hcond
    by_cases hop : o2 ∈ paramOuts (c.g.params (c.g.socketNode x))
    · obtain ⟨b, hble, hv'⟩ := es.vals_out o2 hop
      rw [hv']
      rfl
    · have hinv0 : invoked st (c.g.socketNode o2) := by
        rcases (hstep _).mp hinv2 with hc | hc
        · exact hc
        · exfalso
          have := hwf.po_complete o2 holt hoo hond
          rw [hc] at this
          exact hop this
      have hud := hunfin_dec o2 holt
      have hcond0 : c.g.targets o2 = [] ∨ 0 < unfin c.g st o2 := by
        rcases hcond with hc | hc
        · exact Or.inl hc
        · right
          omega
      have hsome := h.slot_live o2 holt hoo hond hinv0 hcond0
      rcases hv : st.values o2 with _ | sl0
      · rw [hv] at hsome
        cases hsome
      · obtain ⟨hown0, hcat0, -, husers0⟩ :=
          h.slot_fn o2 holt hoo hond sl0 hv
        have hnotfull : ¬ (0 < cntOrig c.g
            (c.g.nodeInputs (c.g.socketNode x)) o2 ∧
            cntOrig c.g (c.g.nodeInputs (c.g.socketNode x)) o2 =
              sl0.usersOf) := by
          rintro ⟨hpos, heq⟩
          have hle2 := unfin_le c.g st o2
          rcases hcond with hc | hc
          · rw [hc] at hle2
            simp at hle2
            rw [husers0, hle2] at heq
            omega
          · rw [husers0] at heq
            omega
        rcases sl0 with ⟨w⟩ | ⟨w⟩ | ⟨b, u⟩ | ⟨b, u⟩
        · simp [Slot.owned] at hown0
        · simp [Slot.owned] at hown0
        · obtain ⟨-, hv'⟩ := es.vals_own o2 b u hop hv
          rw [hv', if_neg (by
            intro hc
            exact hnotfull ⟨hc.1, by rw [hc.2]; rfl⟩)]
          rfl
        · obtain ⟨-, hv'⟩ := es.vals_ownV o2 b u hop hv
          rw [hv', if_neg (by
            intro hc
            exact hnotfull ⟨hc.1, by rw [hc.2]; rfl⟩)]
          rfl
  · -- slot_dummy
    intro o2 holt hoo hodum
    have hop : o2 ∉ paramOuts (c.g.params (c.g.socketNode x)) := by
      intro hc
      have := (hwf.po_mem _ hnlt hndum _ hc).2.2
      rw [this] at hodum
      rw [hndum] at hodum
      cases hodum
    have hold := h.slot_dummy o2 holt hoo hodum
    rcases hb2 : base o2 with _ | sl
    · rw [hb2] at hold
      exact es.vals_none o2 hop hold
    · rw [hb2] at hold
      rw [es.vals_caller o2 sl hop hold (hbase o2 sl hb2)]
  · -- slot_input
    intro i hii
    have hop : i ∉ paramOuts (c.g.params (c.g.socketNode x)) := by
      intro hc
      have := (hwf.po_mem _ hnlt hndum _ hc).2.1
      rw [hii] at this
      cases this
    exact es.vals_none i hop (h.slot_input i hii)
  · -- slot_big
    intro o2 ho2
    have hop : o2 ∉ paramOuts (c.g.params (c.g.socketNode x)) := by
      intro hc
      have := (hwf.po_mem _ hnlt hndum _ hc).1
      omega
    exact es.vals_none o2 hop (h.slot_big o2 ho2)
  · -- inv_fn
    intro m hm
    rcases (hstep _).mp hm with hc | hc
    · exact h.inv_fn m hc
    · rw [hc]
      exact ⟨hnlt, hndum⟩
  · -- inv_ord
    intro i hilt hii hind hfin
    rcases (hstep _).mp hfin with hc | hc
    · rcases h.inv_ord i hilt hii hind hc with h1 | h1
      · exact Or.inl ((hstep _).mpr (Or.inl h1))
      · exact Or.inr h1
    · have hiN : i ∈ c.g.nodeInputs (c.g.socketNode x) := by
        rw [← hc]
        exact hwf.ni_complete i hilt hii
      have hcomp := hmiss i hiN
      unfold inputIsComputed at hcomp
      rcases hdum2 : c.g.isDummy (c.g.socketNode (c.g.origin i)) with _ | _
      · left
        rcases hv : st.values (c.g.origin i) with _ | sl0
        · rw [hv] at hcomp
          cases hcomp
        · have holt2 : c.g.origin i < c.g.socketCount :=
            hwf.origin_lt i hilt hii
          have hoo2 : c.g.isInput (c.g.origin i) = false :=
            hwf.origin_out i hilt hii
          have := (h.slot_fn _ holt2 hoo2 hdum2 sl0 hv).2.2.1
          exact (hstep _).mpr (Or.inl this)
      · exact Or.inr rfl
  · -- inv_nodup
    rw [hev, invokesOf_append, hinvf]
    refine List.Nodup.append h.inv_nodup (List.nodup_singleton _) ?_
    intro a ha hb
    rw [List.mem_singleton] at hb
    subst hb
    exact hninv ((mem_invokesOf _ _).mp ha)
  · -- slot_pos
    intro o2 sl hv2 hso
    by_cases hop : o2 ∈ paramOuts (c.g.params (c.g.socketNode x))
    · obtain ⟨b, hble, hv'⟩ := es.vals_out o2 hop
      rw [hv'] at hv2
      obtain rfl := Option.some.inj hv2
      rw [mkOwn_usersOf]
      rcases hlen : c.g.targets o2 with _ | ⟨t, ts⟩
      · exact Or.inl rfl
      · right
        simp
    · rcases hv : st.values o2 with _ | sl0
      · rw [es.vals_none o2 hop hv] at hv2
        cases hv2
      · rcases sl0 with ⟨w⟩ | ⟨w⟩ | ⟨b, u⟩ | ⟨b, u⟩
        · rw [es.vals_caller o2 _ hop hv rfl] at hv2
          obtain rfl := Option.some.inj hv2
          simp [Slot.owned] at hso
        · rw [es.vals_caller o2 _ hop hv rfl] at hv2
          obtain rfl := Option.some.inj hv2
          simp [Slot.owned] at hso
        · obtain ⟨hle, hv'⟩ := es.vals_own o2 b u hop hv
          rw [hv'] at hv2
          by_cases hfull : 0 < cntOrig c.g
              (c.g.nodeInputs (c.g.socketNode x)) o2 ∧
              cntOrig c.g (c.g.nodeInputs (c.g.socketNode x)) o2 = u
          · rw [if_pos hfull] at hv2
            cases hv2
          · rw [if_neg hfull] at hv2
            obtain rfl := Option.some.inj hv2
            rcases h.slot_pos o2 _ hv rfl with hc | hc
            · exact Or.inl hc
            · right
              show 0 < u - cntOrig c.g (c.g.nodeInputs (c.g.socketNode x)) o2
              have hc2 : (0:Nat) < u := hc
              rcases Nat.eq_zero_or_pos (cntOrig c.g
                  (c.g.nodeInputs (c.g.socketNode x)) o2) with h0 | h0
              · omega
              · have : cntOrig c.g (c.g.nodeInputs (c.g.socketNode x)) o2 ≠
                    u := fun hc3 => hfull ⟨h0, hc3⟩
                omega
        · obtain ⟨hle, hv'⟩ := es.vals_ownV o2 b u hop hv
          rw [hv'] at hv2
          by_cases hfull : 0 < cntOrig c.g
              (c.g.nodeInputs (c.g.socketNode x)) o2 ∧
              cntOrig c.g (c.g.nodeInputs (c.g.socketNode x)) o2 = u
          · rw [if_pos hfull] at hv2
            cases hv2
          · rw [if_neg hfull] at hv2
            obtain rfl := Option.some.inj hv2
            rcases h.slot_pos o2 _ hv rfl with hc | hc
            · exact Or.inl hc
            · right
              show 0 < u - cntOrig c.g (c.g.nodeInputs (c.g.socketNode x)) o2
              have hc2 : (0:Nat) < u := hc
              rcases Nat.eq_zero_or_pos (cntOrig c.g
                  (c.g.nodeInputs (c.g.socketNode x)) o2) with h0 | h0
              · omega
              · have : cntOrig c.g (c.g.nodeInputs (c.g.socketNode x)) o2 ≠
                    u := fun hc3 => hfull ⟨h0, hc3⟩
                omega
  · -- the evaluation step is a progress extension
    refine ⟨fun m hm => (hstep m).mpr (Or.inl hm), ?_⟩
    intro i hilt hiin hf2 hsome
    rcases hv : st.values (c.g.origin i) with _ | sl0
    · rw [hv] at hsome
      cases hsome
    · set f := c.g.origin i with hf
      by_cases hop : f ∈ paramOuts (c.g.params (c.g.socketNode x))
      · obtain ⟨b, -, hv'⟩ := es.vals_out f hop
        rw [hv']
        rfl
      · rcases sl0 with ⟨w⟩ | ⟨w⟩ | ⟨b, u⟩ | ⟨b, u⟩
        · rw [es.vals_caller f _ hop hv rfl]
          rfl
        · rw [es.vals_caller f _ hop hv rfl]
          rfl
        · obtain ⟨hle, hv'⟩ := es.vals_own f b u hop hv
          rw [hv']
          by_cases hfull : 0 < cntOrig c.g
              (c.g.nodeInputs (c.g.socketNode x)) f ∧
              cntOrig c.g (c.g.nodeInputs (c.g.socketNode x)) f = u
          · exfalso
            -- full consumption would finish every target, including i
            have hflt : f < c.g.socketCount := hwf.origin_lt i hilt hiin
            have hfout : c.g.isInput f = false := hwf.origin_out i hilt hiin
            have hfnd : c.g.isDummy (c.g.socketNode f) = false := by
              rcases hD : c.g.isDummy (c.g.socketNode f) with _ | _
              · rfl
              · exfalso
                have := h.slot_dummy f hflt hfout hD
                rw [hv] at this
                have h2 := hbase f _ this.symm
                simp [Slot.owned] at h2
            have husers := (h.slot_fn f hflt hfout hfnd _ hv).2.2.2
            have hud := hunfin_dec f hflt
            have hu0 : unfin c.g st2 f = 0 := by
              have hu1 : u = unfin c.g st f := husers
              omega
            have hmem : i ∈ (c.g.targets f).filter
                (fun t => !(decide (finished c.g st2 t))) :=
              List.mem_filter.mpr ⟨hwf.tgt_complete i hilt hiin,
                by simpa using hf2⟩
            have := List.length_pos_of_mem hmem
            unfold unfin at hu0
            omega
          · rw [if_neg hfull]
            rfl
        · obtain ⟨hle, hv'⟩ := es.vals_ownV f b u hop hv
          rw [hv']
          by_cases hfull : 0 < cntOrig c.g
              (c.g.nodeInputs (c.g.socketNode x)) f ∧
              cntOrig c.g (c.g.nodeInputs (c.g.socketNode x)) f = u
          · exfalso
            have hflt : f < c.g.socketCount := hwf.origin_lt i hilt hiin
            have hfout : c.g.isInput f = false := hwf.origin_out i hilt hiin
            have hfnd : c.g.isDummy (c.g.socketNode f) = false := by
              rcases hD : c.g.isDummy (c.g.socketNode f) with _ | _
              · rfl
              · exfalso
                have := h.slot_dummy f hflt hfout hD
                rw [hv] at this
                have h2 := hbase f _ this.symm
                simp [Slot.owned] at h2
            have husers := (h.slot_fn f hflt hfout hfnd _ hv).2.2.2
            have hud := hunfin_dec f hflt
            have hu0 : unfin c.g st2 f = 0 := by
              have hu1 : u = unfin c.g st f := husers
              omega
            have hmem : i ∈ (c.g.targets f).filter
                (fun t => !(decide (finished c.g st2 t))) :=
              List.mem_filter.mpr ⟨hwf.tgt_complete i hilt hiin,
                by simpa using hf2⟩
            have := List.length_pos_of_mem hmem
            unfold unfin at hu0
            omega
          · rw [if_neg hfull]
            rfl
theorem step1_SInv {V : Type} (c : Ctx V) (rank : Nat → Nat)
    (base : Nat → Option (Slot V))
    (hwf : GraphWF c.g) (hrk : RankOK c.g rank)
    (hbase : ∀ o sl, base o = some sl → sl.owned = false)
    (o : OC V) (ho : OCInv c.g base o) :
    OCInv c.g base (step1 c o) := by
  rcases o with ⟨st, stk⟩ | st | ⟨e, st⟩
  · rcases stk with _ | ⟨x, r⟩
    · exact ho
    · have hgoal : ∀ (res : Except Err (Store V × Act)),
          stepTop c st x = res →
          OCInv c.g base (match res with
            | .error e => OC.fail e st
            | .ok (st', .pop) => OC.run st' r
            | .ok (st', .push l) => OC.run st' (l.reverse ++ (x :: r))) →
          OCInv c.g base (step1 c (.run st (x :: r))) := by
        intro res hres hOC
        show OCInv c.g base (match stepTop c st x with
          | .error e => OC.fail e st
          | .ok (st', .pop) => OC.run st' r
          | .ok (st', .push l) => OC.run st' (l.reverse ++ (x :: r)))
        rw [hres]
        exact hOC
      by_cases hin : c.g.isInput x = true
      · by_cases hcomp : inputIsComputed c.g st x = true
        · refine hgoal (.ok (st, .pop)) ?_ (SInv_tail ho)
          unfold stepTop
          rw [if_pos hin, if_pos hcomp]
        · refine hgoal (.ok (st, .push [c.g.origin x])) ?_
            (SInv_push_origin hwf ho hin (Bool.not_eq_true _ ▸ hcomp))
          unfold stepTop
          rw [if_pos hin, if_neg hcomp]
      · have hin2 : c.g.isInput x = false := by
          rcases hb : c.g.isInput x with _ | _
          · rfl
          · exact absurd hb hin
        by_cases hdum : c.g.isDummy (c.g.socketNode x) = true
        · refine hgoal (.error (.dummyCall (c.g.socketNode x))) ?_ trivial
          unfold stepTop
          rw [if_neg hin, if_pos hdum]
        · have hdum2 : c.g.isDummy (c.g.socketNode x) = false := by
            rcases hb : c.g.isDummy (c.g.socketNode x) with _ | _
            · rfl
            · exact absurd hb hdum
          by_cases hmiss : ((c.g.nodeInputs (c.g.socketNode x)).filter
              (fun i => !(inputIsComputed c.g st i))).isEmpty = true
          · rcases hev : evaluateFunction c st (c.g.socketNode x) with
              e2 | st2
            · refine hgoal (.error e2) ?_ trivial
              unfold stepTop
              rw [if_neg hin, if_neg hdum, if_pos hmiss]
              rw [hev]
              rfl
            · refine hgoal (.ok (st2, .pop)) ?_ ?_
              · unfold stepTop
                rw [if_neg hin, if_neg hdum, if_pos hmiss]
                rw [hev]
                rfl
              · refine (SInv_eval rank hwf hrk hbase ho hin2 hdum2 ?_
                  hev).1
                intro i hi
                rcases hb : inputIsComputed c.g st i with _ | _
                · exfalso
                  have : i ∈ (c.g.nodeInputs (c.g.socketNode x)).filter
                      (fun i2 => !(inputIsComputed c.g st i2)) :=
                    List.mem_filter.mpr ⟨hi, by rw [hb]; rfl⟩
                  rw [List.isEmpty_iff] at hmiss
                  rw [hmiss] at this
                  cases this
                · rfl
          · refine hgoal (.ok (st, .push (sortKey
                (fun i => c.depths (c.g.socketNode (c.g.origin i)))
                ((c.g.nodeInputs (c.g.socketNode x)).filter
                  (fun i => !(inputIsComputed c.g st i)))))) ?_
              (SInv_push_missing hwf _ ho hin2 hdum2)
            unfold stepTop
            rw [if_neg hin, if_neg hdum, if_neg hmiss]
  · exact ho
  · exact ho
theorem runN_OCInv {V : Type} (c : Ctx V) (rank : Nat → Nat)
    (base : Nat → Option (Slot V))
    (hwf : GraphWF c.g) (hrk : RankOK c.g rank)
    (hbase : ∀ o sl, base o = some sl → sl.owned = false)
    (k : Nat) (o : OC V) (ho : OCInv c.g base o) :
    OCInv c.g base (runN c k o) := by
  induction k with
  | zero => exact ho
  | succ k ih => exact step1_SInv c rank base hwf hrk hbase _ ih
theorem bindAll_caller {V : Type} (minputs : List (Nat × CView V)) :
    ∀ (v : Nat → Option (Slot V)) (o : Nat) (sl : Slot V),
    minputs.foldl (fun f p => upd f p.1 (some (slotOfView p.2))) v o =
      some sl →
    v o = some sl ∨ ∃ cv, sl = slotOfView cv := by
  induction minputs with
  | nil => intro v o sl h; exact Or.inl h
  | cons p rest ih =>
    intro v o sl h
    rw [List.foldl_cons] at h
    rcases ih _ o sl h with hc | hc
    · by_cases he : o = p.1
      · subst he
        rw [upd_same] at hc
        exact Or.inr ⟨p.2, (Option.some.inj hc).symm⟩
      · rw [upd_ne _ _ he] at hc
        exact Or.inl hc
    · exact Or.inr hc
theorem slotOfView_owned {V : Type} (cv : CView V) :
    (slotOfView cv).owned = false := by
  rcases cv <;> rfl
theorem baseOf_owned {V : Type} (minputs : List (Nat × CView V)) (o : Nat)
    (sl : Slot V) (h : baseOf minputs o = some sl) : sl.owned = false := by
  unfold baseOf at h
  rcases bindAll_caller minputs _ o sl h with hc | ⟨cv, hc⟩
  · cases hc
  · rw [hc]
    exact slotOfView_owned cv
theorem init_SInv {V : Type} (g : Graph) (minputs : List (Nat × CView V))
    (mouts : List Nat) (st0 : Store V)
    (hwf : GraphWF g) (hcw : CallWF g minputs mouts)
    (hv : st0.values = baseOf minputs) (he : st0.events = []) :
    SInv g (baseOf minputs) st0 mouts.reverse := by
  have hninv : ∀ m, ¬ invoked st0 m := by
    intro m hm
    unfold invoked at hm
    rw [he] at hm
    cases hm
  have hmo : ∀ s ∈ mouts.reverse, s < g.socketCount ∧ g.isInput s = true ∧
      g.isDummy (g.socketNode s) = true :=
    fun s hs => hcw.mo_mem s (List.mem_reverse.mp hs)
  refine ⟨fun s hs => (hmo s hs).1, ?_, ?_, ?_, ?_, ?_, ?_, ?_, ?_, ?_,
    ?_, ?_, ?_, ?_, ?_⟩
  · intro i hi _ hf
    exact hninv _ hf
  · intro o ho hoz
    rw [(hmo o ho).2.1] at hoz
    cases hoz
  · intro pre o post hdec hoz s hs
    exfalso
    have : o ∈ mouts.reverse := by
      rw [hdec]
      exact List.mem_append_right _ (List.mem_cons_self _ _)
    rw [(hmo o this).2.1] at hoz
    cases hoz
  · intro pre i post hdec hii hnd
    exfalso
    have : i ∈ mouts.reverse := by
      rw [hdec]
      exact List.mem_append_right _ (List.mem_cons_self _ _)
    rw [(hmo i this).2.2] at hnd
    cases hnd
  · intro o holt hoo hond sl hvs
    exfalso
    rw [hv] at hvs
    rcases bindAll_caller minputs _ o sl hvs with hc | ⟨cv, hc⟩
    · cases hc
    · have : o ∈ minputs.map Prod.fst := by
        by_contra hno
        unfold baseOf at hvs
        rw [bindAll_ne minputs _ o hno] at hvs
        cases hvs
      obtain ⟨cv2, hm⟩ := mem_map_fst this
      have := (hcw.mi_mem _ hm).2.2
      rw [this] at hond
      cases hond
  · intro o _ _ _ hinv
    exact absurd hinv (hninv _)
  · intro o _ _ _
    rw [hv]
  · intro i hii
    rw [hv]
    unfold baseOf
    refine bindAll_ne minputs _ i ?_
    intro hc
    obtain ⟨cv, hm⟩ := mem_map_fst hc
    have := (hcw.mi_mem _ hm).2.1
    rw [hii] at this
    cases this
  · intro o ho
    rw [hv]
    unfold baseOf
    refine bindAll_ne minputs _ o ?_
    intro hc
    obtain ⟨cv, hm⟩ := mem_map_fst hc
    have := (hcw.mi_mem _ hm).1
    omega
  · intro m hm
    exact absurd hm (hninv _)
  · intro i _ _ _ hf
    exact absurd hf (hninv _)
  · rw [he]
    exact List.nodup_nil
  · intro o sl hvs hso
    exfalso
    rw [hv] at hvs
    have := baseOf_owned minputs o sl hvs
    rw [this] at hso
    cases hso
  · constructor
    · intro o sl hvs hso
      exfalso
      rw [hv] at hvs
      have := baseOf_owned minputs o sl hvs
      rw [this] at hso
      cases hso
    · intro o1 o2 sl1 sl2 h1 h2 ho1 _ _
      exfalso
      rw [hv] at h1
      have := baseOf_owned minputs o1 sl1 h1
      rw [this] at ho1
      cases ho1
theorem invokesOf_flatMap_nil {α : Type} (l : List α) (f : α → List Ev)
    (h : ∀ a ∈ l, invokesOf (f a) = []) : invokesOf (l.flatMap f) = [] := by
  induction l with
  | nil => rfl
  | cons x l ih =>
    rw [List.flatMap_cons, invokesOf_append, h x (List.mem_cons_self _ _),
      ih (fun a ha => h a (List.mem_cons_of_mem _ ha))]
    rfl
theorem invokesOf_teardown (g : Graph) (st : Store V) :
    invokesOf (teardownEvents g st) = [] := by
  rw [teardownEvents_eq]
  refine invokesOf_flatMap_nil _ _ (fun o _ => ?_)
  unfold tdOf
  rcases st.values o with _ | sl
  · rfl
  · rcases sl <;> rfl
theorem schedPart_done_inv {V : Type} (g : Graph) (bodyS : Nat → Nat → V)
    (bodyV : Nat → Nat → List V) (minputs : List (Nat × CView V))
    (mouts mask : List Nat) (dep : Nat → Int) (fuel : Nat) (st : Store V)
    (h : schedPart g bodyS bodyV minputs mouts mask dep fuel = OC.done st) :
    ∃ st0, minputs.foldlM bindCaller (initStore V) = .ok st0 ∧
      runN ⟨g, bodyS, bodyV, mask, dep⟩ fuel (.run st0 mouts.reverse) =
        .done st := by
  unfold schedPart at h
  split at h
  · cases h
  · rename_i st0 heq
    exact ⟨st0, heq, h⟩
theorem callFn_ok_inv {V : Type} (g : Graph) (bodyS : Nat → Nat → V)
    (bodyV : Nat → Nat → List V) (minputs : List (Nat × CView V))
    (mouts mask : List Nat) (douts : List (DBuf V)) (fuel : Nat)
    (outs : List (DBuf V)) (tr : List Ev)
    (h : callFn g bodyS bodyV minputs mouts mask douts fuel = .ok outs tr) :
    tr = [] ∨
    ∃ dep st, dRunN g fuel (.drun (dInit g)) = .ddone dep ∧
      schedPart g bodyS bodyV minputs mouts mask dep fuel = .done st ∧
      tr = st.events ++ teardownEvents g st := by
  unfold callFn at h
  split at h
  · cases h
    exact Or.inl rfl
  · split at h
    · cases h
    · rename_i dep heqd
      split at h
      · cases h
      · cases h
      · rename_i st heqs
        replace h : (match List.foldlM (copyOneOutput
            { g := g, bodyS := bodyS, bodyV := bodyV, mask := mask,
              depths := dep } st) [] (mouts.zip douts) with
          | Except.error e => CallOut.fail e st.events
          | Except.ok outs2 => CallOut.ok outs2
              (st.events ++ teardownEvents g st)) = CallOut.ok outs tr := h
        rcases hc : (mouts.zip douts).foldlM
            (copyOneOutput ⟨g, bodyS, bodyV, mask, dep⟩ st) [] with e2 | outs2
        · rw [hc] at h
          cases h
        · rw [hc] at h
          cases h
          exact Or.inr ⟨dep, st, heqd, heqs, rfl⟩
/-- C1: over one call of `MF_EvaluateNetwork::call` on an acyclic graph
(witnessed by a rank increasing along edges), each function node's
function is invoked at most once: the list of `invoke` events in the
returned trace has no duplicates. -/
theorem C1_single_invocation_per_node {V : Type} (g : Graph)
    (rank : Nat → Nat) (bodyS : Nat → Nat → V) (bodyV : Nat → Nat → List V)
    (minputs : List (Nat × CView V)) (mouts mask : List Nat)
    (douts : List (DBuf V)) (fuel : Nat) (outs : List (DBuf V))
    (tr : List Ev)
    (hwf : GraphWF g) (hrk : RankOK g rank)
    (hcw : CallWF g minputs mouts)
    (hok : callFn g bodyS bodyV minputs mouts mask douts fuel =
      .ok outs tr) :
    (invokesOf tr).Nodup := by
  rcases callFn_ok_inv g bodyS bodyV minputs mouts mask douts fuel outs tr
      hok with htr | ⟨dep, st, hd, hs, htr⟩
  · rw [htr]
    exact List.nodup_nil
  · obtain ⟨st0, hb, hr⟩ :=
      schedPart_done_inv g bodyS bodyV minputs mouts mask dep fuel st hs
    have hb2 := bindCaller_fold minputs (initStore V) hcw.mi_nodup
      (fun p _ => rfl)
    rw [hb] at hb2
    have hst0 := Except.ok.inj hb2
    have hinv0 : SInv g (baseOf minputs) st0 mouts.reverse := by
      refine init_SInv g minputs mouts st0 hwf hcw ?_ ?_
      · rw [hst0]
        rfl
      · rw [hst0]
        rfl
    have hfin := runN_OCInv ⟨g, bodyS, bodyV, mask, dep⟩ rank
      (baseOf minputs) hwf hrk (baseOf_owned minputs) fuel
      (.run st0 mouts.reverse) hinv0
    rw [hr] at hfin
    have hnodup := hfin.inv_nodup
    rw [htr, invokesOf_append, invokesOf_teardown g st]
    rw [List.append_nil]
    exact hnodup
theorem C1_single_invocation_per_node_witness :
    (invokesOf (callFn exCaller (fun o j => o + j) (fun _ _ => [])
      exCallerIns [3] [0] [DBuf.s (fun _ => none)] 10).trace).Nodup := by
  rcases hE : callFn exCaller (fun o j => o + j) (fun _ _ => [])
      exCallerIns [3] [0] [DBuf.s (fun _ => none)] 10 with
    ⟨outs, tr⟩ | ⟨e, tr⟩
  · have := C1_single_invocation_per_node exCaller (fun n => n)
      (fun o j => o + j) (fun _ _ => []) exCallerIns [3] [0]
      [DBuf.s (fun _ => none)] 10 outs tr
      (by constructor <;> decide) (by decide)
      (by
        refine ⟨by decide, by decide, ?_, by decide⟩
        intro p hp
        rw [show exCallerIns = [(0, CView.s (fun j => 7 * j))] from rfl,
          List.mem_singleton] at hp
        subst hp
        exact rfl)
      hE
    exact this
  · exfalso
    have hok : (callFn exCaller (fun o j => o + j) (fun _ _ => [])
        exCallerIns [3] [0] [DBuf.s (fun _ => none)] 10).isOk = true := by
      decide
    rw [hE] at hok
    cases hok
/-- C5 (amended): at every state the scheduler loop reaches, a slot is
present for a function-node output iff that output has been computed and
is not yet fully consumed (its remaining-user count always matching the
number of unfinished targets), and a boundary output's slot is present iff
supplied by the caller — from-caller slots persist even when fully
consumed, which is the correction to the claimed "present iff computed
and not yet fully consumed". -/
theorem C5_slot_presence_amended {V : Type} (g : Graph) (rank : Nat → Nat)
    (bodyS : Nat → Nat → V) (bodyV : Nat → Nat → List V)
    (minputs : List (Nat × CView V)) (mouts mask : List Nat)
    (dep : Nat → Int) (fuel : Nat) (st : Store V)
    (hwf : GraphWF g) (hrk : RankOK g rank)
    (hcw : CallWF g minputs mouts) (st0 : Store V)
    (hb : minputs.foldlM bindCaller (initStore V) = .ok st0)
    (hreach : (∃ stk, runN ⟨g, bodyS, bodyV, mask, dep⟩ fuel
        (.run st0 mouts.reverse) = .run st stk) ∨
      runN ⟨g, bodyS, bodyV, mask, dep⟩ fuel
        (.run st0 mouts.reverse) = .done st) :
    slotPresenceIff g minputs st := by
  have hb2 := bindCaller_fold minputs (initStore V) hcw.mi_nodup
    (fun p _ => rfl)
  rw [hb] at hb2
  have hst0 := Except.ok.inj hb2
  have hinv0 : SInv g (baseOf minputs) st0 mouts.reverse := by
    refine init_SInv g minputs mouts st0 hwf hcw ?_ ?_
    · rw [hst0]
      rfl
    · rw [hst0]
      rfl
  have hfin := runN_OCInv ⟨g, bodyS, bodyV, mask, dep⟩ rank
    (baseOf minputs) hwf hrk (baseOf_owned minputs) fuel
    (.run st0 mouts.reverse) hinv0
  have hSI : ∃ stk2, SInv g (baseOf minputs) st stk2 := by
    rcases hreach with ⟨stk, hE⟩ | hE
    · rw [hE] at hfin
      exact ⟨stk, hfin⟩
    · rw [hE] at hfin
      exact ⟨[], hfin⟩
  obtain ⟨stk2, hS⟩ := hSI
  refine ⟨?_, ?_, ?_⟩
  · intro o holt hoo hond
    constructor
    · intro hsome
      rcases hv : st.values o with _ | sl
      · rw [hv] at hsome
        cases hsome
      · obtain ⟨hown, -, hinv, husers⟩ := hS.slot_fn o holt hoo hond sl hv
        refine ⟨hinv, ?_⟩
        rcases hS.slot_pos o sl hv hown with hc | hc
        · exact Or.inl hc
        · right
          rw [husers] at hc
          exact hc
    · rintro ⟨hinv, hcond⟩
      exact hS.slot_live o holt hoo hond hinv hcond
  · intro o sl holt hoo hond hv
    exact (hS.slot_fn o holt hoo hond sl hv).2.2.2
  · intro o holt hoo hodum
    exact hS.slot_dummy o holt hoo hodum
theorem C5_slot_presence_amended_witness :
    slotPresenceIff exCaller exCallerIns
      (schedPart (V := Nat) exCaller (fun o j => o + j) (fun _ _ => [])
        exCallerIns [3] [0] (fun _ => 0) 2).store := by
  have hb := bindCaller_fold exCallerIns (initStore Nat)
    (by decide) (fun p _ => rfl)
  have hsp : schedPart (V := Nat) exCaller (fun o j => o + j)
      (fun _ _ => []) exCallerIns [3] [0] (fun _ => 0) 2 =
      runN ⟨exCaller, (fun o j => o + j), (fun _ _ => []), [0],
        (fun _ => 0)⟩ 2 (.run { initStore Nat with
          values := (exCallerIns.foldl
            (fun f p => upd f p.1 (some (slotOfView p.2)))
            (initStore Nat).values) } [3].reverse) := by
    unfold schedPart
    rw [hb]
  rcases hE : runN ⟨exCaller, (fun o j => o + j), (fun _ _ => []), [0],
      (fun _ => 0)⟩ 2 (.run { initStore Nat with
        values := (exCallerIns.foldl
          (fun f p => upd f p.1 (some (slotOfView p.2)))
          (initStore Nat).values) } [3].reverse) with
    ⟨st, stk⟩ | st | ⟨e, st⟩
  · have := C5_slot_presence_amended exCaller (fun n => n)
      (fun o j => o + j) (fun _ _ => []) exCallerIns [3] [0]
      (fun _ => 0) 2 st
      (by constructor <;> decide) (by decide)
      (by
        refine ⟨by decide, by decide, ?_, by decide⟩
        intro p hp
        rw [show exCallerIns = [(0, CView.s (fun j => 7 * j))] from rfl,
          List.mem_singleton] at hp
        subst hp
        exact rfl)
      _ hb (Or.inl ⟨stk, hE⟩)
    rw [hsp, hE]
    exact this
  · have := C5_slot_presence_amended exCaller (fun n => n)
      (fun o j => o + j) (fun _ _ => []) exCallerIns [3] [0]
      (fun _ => 0) 2 st
      (by constructor <;> decide) (by decide)
      (by
        refine ⟨by decide, by decide, ?_, by decide⟩
        intro p hp
        rw [show exCallerIns = [(0, CView.s (fun j => 7 * j))] from rfl,
          List.mem_singleton] at hp
        subst hp
        exact rfl)
      _ hb (Or.inr hE)
    rw [hsp, hE]
    exact this
  · exfalso
    have hok : (runN ⟨exCaller, (fun o j => o + j), (fun _ _ => []), [0],
        (fun _ => 0)⟩ 2 (.run { initStore Nat with
          values := (exCallerIns.foldl
            (fun f p => upd f p.1 (some (slotOfView p.2)))
            (initStore Nat).values) } [3].reverse)).isFail = false := by
      decide
    rw [hE] at hok
    cases hok
theorem step1_eq_pop (c : Ctx V) (st : Store V) (x : Nat) (r : List Nat)
    (hin : c.g.isInput x = true) (hcomp : inputIsComputed c.g st x = true) :
    step1 c (.run st (x :: r)) = .run st r := by
  show (match stepTop c st x with
    | .error e => OC.fail e st
    | .ok (st', .pop) => OC.run st' r
    | .ok (st', .push l) => OC.run st' (l.reverse ++ (x :: r))) = _
  rw [show stepTop c st x = .ok (st, .pop) from by
    unfold stepTop
    rw [if_pos hin, if_pos hcomp]]
theorem step1_eq_pushOrigin (c : Ctx V) (st : Store V) (x : Nat)
    (r : List Nat) (hin : c.g.isInput x = true)
    (hcomp : ¬ inputIsComputed c.g st x = true) :
    step1 c (.run st (x :: r)) = .run st (c.g.origin x :: x :: r) := by
  show (match stepTop c st x with
    | .error e => OC.fail e st
    | .ok (st', .pop) => OC.run st' r
    | .ok (st', .push l) => OC.run st' (l.reverse ++ (x :: r))) = _
  rw [show stepTop c st x = .ok (st, .push [c.g.origin x]) from by
    unfold stepTop
    rw [if_pos hin, if_neg hcomp]]
  rfl
theorem step1_eq_pushMissing (c : Ctx V) (st : Store V) (x : Nat)
    (r : List Nat) (hin : c.g.isInput x = false)
    (hdum : c.g.isDummy (c.g.socketNode x) = false)
    (hmiss : ¬ ((c.g.nodeInputs (c.g.socketNode x)).filter
      (fun i => !(inputIsComputed c.g st i))).isEmpty = true) :
    step1 c (.run st (x :: r)) = .run st ((sortKey
      (fun i => c.depths (c.g.socketNode (c.g.origin i)))
      ((c.g.nodeInputs (c.g.socketNode x)).filter
        (fun i => !(inputIsComputed c.g st i)))).reverse ++ (x :: r)) := by
  show (match stepTop c st x with
    | .error e => OC.fail e st
    | .ok (st', .pop) => OC.run st' r
    | .ok (st', .push l) => OC.run st' (l.reverse ++ (x :: r))) = _
  rw [show stepTop c st x = .ok (st, .push (sortKey
      (fun i => c.depths (c.g.socketNode (c.g.origin i)))
      ((c.g.nodeInputs (c.g.socketNode x)).filter
        (fun i => !(inputIsComputed c.g st i))))) from by
    unfold stepTop
    rw [if_neg (by rw [hin]; intro hc; cases hc),
      if_neg (by rw [hdum]; intro hc; cases hc), if_neg hmiss]]
theorem step1_eq_eval (c : Ctx V) (st st2 : Store V) (x : Nat)
    (r : List Nat) (hin : c.g.isInput x = false)
    (hdum : c.g.isDummy (c.g.socketNode x) = false)
    (hmiss : ((c.g.nodeInputs (c.g.socketNode x)).filter
      (fun i => !(inputIsComputed c.g st i))).isEmpty = true)
    (hev : evaluateFunction c st (c.g.socketNode x) = .ok st2) :
    step1 c (.run st (x :: r)) = .run st2 r := by
  show (match stepTop c st x with
    | .error e => OC.fail e st
    | .ok (st', .pop) => OC.run st' r
    | .ok (st', .push l) => OC.run st' (l.reverse ++ (x :: r))) = _
  rw [show stepTop c st x = .ok (st2, .pop) from by
    unfold stepTop
    rw [if_neg (by rw [hin]; intro hc; cases hc),
      if_neg (by rw [hdum]; intro hc; cases hc), if_pos hmiss, hev]
    rfl]
theorem bindParamFold_ok {V : Type} (c : Ctx V) :
    ∀ (ps : List PSpec) (st : Store V) (ws : List WTgt),
    (∀ i ∈ paramIns ps, ∀ o ∈ paramOuts ps, c.g.origin i ≠ o) →
    (paramOuts ps).Nodup →
    (∀ p ∈ ps, (match p with
      | PSpec.sIn i => ∃ sl, st.values (c.g.origin i) = some sl ∧
          ((∃ b u, sl = Slot.sOwn b u) ∨ ∃ f, sl = Slot.sCaller f)
      | PSpec.vIn i => ∃ sl, st.values (c.g.origin i) = some sl ∧
          ((∃ b u, sl = Slot.vOwn b u) ∨ ∃ f, sl = Slot.vCaller f)
      | PSpec.sOut o => st.values o = none
      | PSpec.vOut o => st.values o = none
      | _ => False)) →
    ∃ out, ps.foldlM (bindParam c) (st, ws) = .ok out ∧
      ∀ o, o ∉ paramOuts ps → out.1.values o = st.values o := by
  intro ps
  induction ps with
  | nil =>
    intro st ws _ _ _
    exact ⟨(st, ws), rfl, fun o _ => rfl⟩
  | cons p ps ih =>
    intro st ws hsep hnd hcond
    have hpo1 : ∀ o ∈ p.outs, o ∈ paramOuts (p :: ps) := by
      intro o ho
      rw [paramOuts_cons]
      exact List.mem_append_left _ ho
    have hpo2 : ∀ o ∈ paramOuts ps, o ∈ paramOuts (p :: ps) := by
      intro o ho
      rw [paramOuts_cons]
      exact List.mem_append_right _ ho
    have hstep : ∃ st1 ws1, bindParam c (st, ws) p = .ok (st1, ws1) ∧
        ∀ o, o ∉ p.outs → st1.values o = st.values o := by
      have hc := hcond p (List.mem_cons_self _ _)
      rcases p with i | i | o | o | ⟨i, o⟩ | ⟨i, o⟩
      · obtain ⟨sl, hv, hk⟩ := hc
        rcases hk with ⟨b, u, rfl⟩ | ⟨f, rfl⟩
        · refine ⟨st, ws, ?_, fun _ _ => rfl⟩
          show (do
            let _ ← getSingleInput c.g st i
            Except.ok (st, ws)) = _
          rw [show getSingleInput c.g st i = .ok (st.sheap b) from by
            unfold getSingleInput
            rw [hv]]
          rfl
        · refine ⟨st, ws, ?_, fun _ _ => rfl⟩
          show (do
            let _ ← getSingleInput c.g st i
            Except.ok (st, ws)) = _
          rw [show getSingleInput c.g st i =
              .ok (fun j => some (f j)) from by
            unfold getSingleInput
            rw [hv]]
          rfl
      · obtain ⟨sl, hv, hk⟩ := hc
        rcases hk with ⟨b, u, rfl⟩ | ⟨f, rfl⟩
        · refine ⟨st, ws, ?_, fun _ _ => rfl⟩
          show (do
            let _ ← getVectorInput c.g st i
            Except.ok (st, ws)) = _
          rw [show getVectorInput c.g st i = .ok (st.vheap b) from by
            unfold getVectorInput
            rw [hv]]
          rfl
        · refine ⟨st, ws, ?_, fun _ _ => rfl⟩
          show (do
            let _ ← getVectorInput c.g st i
            Except.ok (st, ws)) = _
          rw [show getVectorInput c.g st i = .ok f from by
            unfold getVectorInput
            rw [hv]]
          rfl
      · refine ⟨{ st with
            values := (upd st.values o
              (some (.sOwn st.nextBuf ((c.g.targets o).length))))
            nextBuf := st.nextBuf + 1
            sheap := (upd st.sheap st.nextBuf (fun _ => none))
            events := (st.events ++
              [.alloc o st.nextBuf ((c.g.targets o).length)]) },
          ws ++ [⟨o, st.nextBuf, false⟩], ?_, ?_⟩
        · show (do
            let (b, st') ← allocateSingleOutput c.g st o
            Except.ok (st', ws ++ [(⟨o, b, false⟩ : WTgt)])) = _
          rw [show allocateSingleOutput c.g st o = .ok (st.nextBuf,
              { st with
                values := (upd st.values o
                  (some (.sOwn st.nextBuf ((c.g.targets o).length))))
                nextBuf := st.nextBuf + 1
                sheap := (upd st.sheap st.nextBuf (fun _ => none))
                events := (st.events ++
                  [.alloc o st.nextBuf ((c.g.targets o).length)]) }) from by
            unfold allocateSingleOutput
            rw [hc]]
          rfl
        · intro o2 ho2
          have hne : o2 ≠ o := by
            intro he
            exact ho2 (by rw [he]; exact List.mem_singleton.mpr rfl)
          exact upd_ne _ _ hne
      · refine ⟨{ st with
            values := (upd st.values o
              (some (.vOwn st.nextBuf ((c.g.targets o).length))))
            nextBuf := st.nextBuf + 1
            vheap := (upd st.vheap st.nextBuf (fun _ => []))
            events := (st.events ++
              [.alloc o st.nextBuf ((c.g.targets o).length)]) },
          ws ++ [⟨o, st.nextBuf, true⟩], ?_, ?_⟩
        · show (do
            let (b, st') ← allocateVectorOutput c.g st o
            Except.ok (st', ws ++ [(⟨o, b, true⟩ : WTgt)])) = _
          rw [show allocateVectorOutput c.g st o = .ok (st.nextBuf,
              { st with
                values := (upd st.values o
                  (some (.vOwn st.nextBuf ((c.g.targets o).length))))
                nextBuf := st.nextBuf + 1
                vheap := (upd st.vheap st.nextBuf (fun _ => []))
                events := (st.events ++
                  [.alloc o st.nextBuf ((c.g.targets o).length)]) }) from by
            unfold allocateVectorOutput
            rw [hc]]
          rfl
        · intro o2 ho2
          have hne : o2 ≠ o := by
            intro he
            exact ho2 (by rw [he]; exact List.mem_singleton.mpr rfl)
          exact upd_ne _ _ hne
      · exact absurd hc (by simp)
      · exact absurd hc (by simp)
    obtain ⟨st1, ws1, hbp, hfr1⟩ := hstep
    have hdisj : ∀ o ∈ p.outs, o ∉ paramOuts ps := by
      intro o ho hmem
      rw [paramOuts_cons] at hnd
      exact (List.disjoint_of_nodup_append hnd) ho hmem
    obtain ⟨out, hfold, hfr2⟩ := ih st1 ws1
      (fun i hi o ho => hsep i
        (by rw [paramIns_cons]; exact List.mem_append_right _ hi)
        o (hpo2 o ho))
      (by rw [paramOuts_cons] at hnd; exact hnd.of_append_right)
      (by
        intro q hq
        have hcq := hcond q (List.mem_cons_of_mem _ hq)
        rcases q with i | i | o | o | ⟨i, o⟩ | ⟨i, o⟩
        · obtain ⟨sl, hv, hk⟩ := hcq
          refine ⟨sl, ?_, hk⟩
          rw [hfr1 _ ?_]
          · exact hv
          · intro hmem
            exact hsep i
              (by rw [paramIns_cons]
                  refine List.mem_append_right _ ?_
                  exact List.mem_flatten.mpr
                    ⟨PSpec.ins (PSpec.sIn i),
                     List.mem_map_of_mem PSpec.ins hq,
                     by simp [PSpec.ins]⟩)
              (c.g.origin i) (hpo1 _ hmem) rfl
        · obtain ⟨sl, hv, hk⟩ := hcq
          refine ⟨sl, ?_, hk⟩
          rw [hfr1 _ ?_]
          · exact hv
          · intro hmem
            exact hsep i
              (by rw [paramIns_cons]
                  refine List.mem_append_right _ ?_
                  exact List.mem_flatten.mpr
                    ⟨PSpec.ins (PSpec.vIn i),
                     List.mem_map_of_mem PSpec.ins hq,
                     by simp [PSpec.ins]⟩)
              (c.g.origin i) (hpo1 _ hmem) rfl
        · show st1.values o = none
          rw [hfr1 _ (fun hmem => hdisj _ hmem (List.mem_flatten.mpr
            ⟨PSpec.outs (PSpec.sOut o),
             List.mem_map_of_mem PSpec.outs hq,
             by simp [PSpec.outs]⟩))]
          exact hcq
        · show st1.values o = none
          rw [hfr1 _ (fun hmem => hdisj _ hmem (List.mem_flatten.mpr
            ⟨PSpec.outs (PSpec.vOut o),
             List.mem_map_of_mem PSpec.outs hq,
             by simp [PSpec.outs]⟩))]
          exact hcq
        · exact hcq
        · exact hcq)
    refine ⟨out, ?_, ?_⟩
    · rw [List.foldlM_cons, hbp]
      exact hfold
    · intro o ho
      rw [hfr2 o (fun hmem => ho (hpo2 o hmem)),
        hfr1 o (fun hmem => ho (hpo1 o hmem))]
theorem cntOrig_pos_ex (g : Graph) (L : List Nat) (o : Nat)
    (h : 0 < cntOrig g L o) : ∃ i ∈ L, g.origin i = o := by
  unfold cntOrig at h
  rcases hE : L.filter (fun i => decide (g.origin i = o)) with _ | ⟨i, t⟩
  · rw [hE] at h
    simp at h
  · have hm : i ∈ L.filter (fun i => decide (g.origin i = o)) := by
      rw [hE]
      exact List.mem_cons_self _ _
    obtain ⟨hi, hd⟩ := List.mem_filter.mp hm
    exact ⟨i, hi, of_decide_eq_true hd⟩
theorem length_filter_mono {α : Type} (l : List α) (p q : α → Bool)
    (h : ∀ a ∈ l, p a = true → q a = true) :
    (l.filter p).length ≤ (l.filter q).length := by
  induction l with
  | nil => exact Nat.le_refl _
  | cons a l ih =>
    have ih2 := ih (fun b hb => h b (List.mem_cons_of_mem _ hb))
    by_cases hp : p a = true
    · rw [List.filter_cons, List.filter_cons, if_pos hp,
        if_pos (h a (List.mem_cons_self _ _) hp)]
      exact Nat.succ_le_succ ih2
    · by_cases hq : q a = true
      · rw [List.filter_cons, List.filter_cons, if_neg hp, if_pos hq]
        exact Nat.le_succ_of_le ih2
      · rw [List.filter_cons, List.filter_cons, if_neg hp, if_neg hq]
        exact ih2
theorem cnt_le_unfin {V : Type} (g : Graph) (hwf : GraphWF g)
    (st : Store V) (n o : Nat) (hn : n < g.nodeCount)
    (ho : o < g.socketCount) (hninv : ¬ invoked st n) :
    cntOrig g (g.nodeInputs n) o ≤ unfin g st o := by
  rw [cnt_targets g hwf n o hn ho]
  unfold unfin
  refine length_filter_mono (g.targets o) _ _ ?_
  intro t _ hp
  have hsn : g.socketNode t = n := of_decide_eq_true hp
  have hnf : ¬ finished g st t := by
    unfold finished
    rw [hsn]
    exact hninv
  simpa using hnf
theorem finishFold_ok {V : Type} (g : Graph) :
    ∀ (L : List Nat) (st : Store V),
    (∀ o, 0 < cntOrig g L o → ∃ sl, st.values o = some sl ∧
      (sl.owned = true → cntOrig g L o ≤ sl.usersOf)) →
    ∃ st', L.foldlM (finishInput g) st = .ok st' := by
  intro L
  induction L with
  | nil =>
    intro st _
    exact ⟨st, rfl⟩
  | cons i L ih =>
    intro st hcond
    have hle : ∀ o, cntOrig g L o ≤ cntOrig g (i :: L) o := by
      intro o
      rw [cntOrig_cons]
      split <;> omega
    have hlift : ∀ o, 0 < cntOrig g L o → 0 < cntOrig g (i :: L) o :=
      fun o h => Nat.lt_of_lt_of_le h (hle o)
    obtain ⟨sl, hv, hcnt⟩ := hcond (g.origin i)
      (cntOrig_pos g (i :: L) i (List.mem_cons_self _ _))
    rcases sl with ⟨view⟩ | ⟨view⟩ | ⟨b, u⟩ | ⟨b, u⟩
    · have hstep : finishInput g st i = .ok { st with
          events := st.events ++ [Ev.finNoop (g.origin i)] } := by
        rw [finishInput, hv]
      obtain ⟨st', hrest⟩ := ih { st with
          events := st.events ++ [Ev.finNoop (g.origin i)] }
        (fun o hpos => by
          obtain ⟨sl2, hv2, hc2⟩ := hcond o (hlift o hpos)
          exact ⟨sl2, hv2, fun hw => Nat.le_trans (hle o) (hc2 hw)⟩)
      exact ⟨st', by rw [List.foldlM_cons, hstep]; exact hrest⟩
    · have hstep : finishInput g st i = .ok { st with
          events := st.events ++ [Ev.finNoop (g.origin i)] } := by
        rw [finishInput, hv]
      obtain ⟨st', hrest⟩ := ih { st with
          events := st.events ++ [Ev.finNoop (g.origin i)] }
        (fun o hpos => by
          obtain ⟨sl2, hv2, hc2⟩ := hcond o (hlift o hpos)
          exact ⟨sl2, hv2, fun hw => Nat.le_trans (hle o) (hc2 hw)⟩)
      exact ⟨st', by rw [List.foldlM_cons, hstep]; exact hrest⟩
    · have hcnt2 : cntOrig g (i :: L) (g.origin i) ≤ u := hcnt rfl
      have hceq := cntOrig_cons_eq g L (rfl : g.origin i = g.origin i)
      by_cases hu1 : u = 1
      · subst hu1
        have hLf : cntOrig g L (g.origin i) = 0 := by omega
        have hstep : finishInput g st i = .ok { st with
            values := upd st.values (g.origin i) none
            events := st.events ++
              [Ev.finDec (g.origin i) 0, Ev.destroy b] } := by
          rw [finishInput, hv]
          rfl
        obtain ⟨st', hrest⟩ := ih { st with
            values := upd st.values (g.origin i) none
            events := st.events ++
              [Ev.finDec (g.origin i) 0, Ev.destroy b] }
          (fun o hpos => by
            have hne : o ≠ g.origin i := by
              intro he
              rw [he, hLf] at hpos
              omega
            obtain ⟨sl2, hv2, hc2⟩ := hcond o (hlift o hpos)
            refine ⟨sl2, ?_, fun hw => Nat.le_trans (hle o) (hc2 hw)⟩
            show upd st.values (g.origin i) none o = some sl2
            rw [upd_ne _ _ hne]
            exact hv2)
        exact ⟨st', by rw [List.foldlM_cons, hstep]; exact hrest⟩
      · have hu0 : ¬ u = 0 := by omega
        have hstep : finishInput g st i = .ok { st with
            values := upd st.values (g.origin i)
              (some (Slot.sOwn b (u - 1)))
            events := st.events ++ [Ev.finDec (g.origin i) (u - 1)] } := by
          rw [finishInput, hv]
          show (if u = 0 then Except.error (Err.underflow (g.origin i))
            else if u = 1 then
              Except.ok { st with
                values := upd st.values (g.origin i) none
                events := st.events ++
                  [Ev.finDec (g.origin i) 0, Ev.destroy b] }
            else Except.ok { st with
              values := upd st.values (g.origin i)
                (some (Slot.sOwn b (u - 1)))
              events := st.events ++
                [Ev.finDec (g.origin i) (u - 1)] }) = _
          rw [if_neg hu0, if_neg hu1]
        obtain ⟨st', hrest⟩ := ih { st with
            values := upd st.values (g.origin i)
              (some (Slot.sOwn b (u - 1)))
            events := st.events ++ [Ev.finDec (g.origin i) (u - 1)] }
          (fun o hpos => by
            by_cases hne : o = g.origin i
            · refine ⟨Slot.sOwn b (u - 1), ?_, fun _ => ?_⟩
              · show upd st.values (g.origin i)
                  (some (Slot.sOwn b (u - 1))) o = _
                rw [hne, upd_same]
              · show cntOrig g L o ≤ u - 1
                rw [hne]
                omega
            · obtain ⟨sl2, hv2, hc2⟩ := hcond o (hlift o hpos)
              refine ⟨sl2, ?_, fun hw => Nat.le_trans (hle o) (hc2 hw)⟩
              show upd st.values (g.origin i)
                (some (Slot.sOwn b (u - 1))) o = some sl2
              rw [upd_ne _ _ hne]
              exact hv2)
        exact ⟨st', by rw [List.foldlM_cons, hstep]; exact hrest⟩
    · have hcnt2 : cntOrig g (i :: L) (g.origin i) ≤ u := hcnt rfl
      have hceq := cntOrig_cons_eq g L (rfl : g.origin i = g.origin i)
      by_cases hu1 : u = 1
      · subst hu1
        have hLf : cntOrig g L (g.origin i) = 0 := by omega
        have hstep : finishInput g st i = .ok { st with
            values := upd st.values (g.origin i) none
            events := st.events ++
              [Ev.finDec (g.origin i) 0, Ev.destroy b] } := by
          rw [finishInput, hv]
          rfl
        obtain ⟨st', hrest⟩ := ih { st with
            values := upd st.values (g.origin i) none
            events := st.events ++
              [Ev.finDec (g.origin i) 0, Ev.destroy b] }
          (fun o hpos => by
            have hne : o ≠ g.origin i := by
              intro he
              rw [he, hLf] at hpos
              omega
            obtain ⟨sl2, hv2, hc2⟩ := hcond o (hlift o hpos)
            refine ⟨sl2, ?_, fun hw => Nat.le_trans (hle o) (hc2 hw)⟩
            show upd st.values (g.origin i) none o = some sl2
            rw [upd_ne _ _ hne]
            exact hv2)
        exact ⟨st', by rw [List.foldlM_cons, hstep]; exact hrest⟩
      · have hu0 : ¬ u = 0 := by omega
        have hstep : finishInput g st i = .ok { st with
            values := upd st.values (g.origin i)
              (some (Slot.vOwn b (u - 1)))
            events := st.events ++ [Ev.finDec (g.origin i) (u - 1)] } := by
          rw [finishInput, hv]
          show (if u = 0 then Except.error (Err.underflow (g.origin i))
            else if u = 1 then
              Except.ok { st with
                values := upd st.values (g.origin i) none
                events := st.events ++
                  [Ev.finDec (g.origin i) 0, Ev.destroy b] }
            else Except.ok { st with
              values := upd st.values (g.origin i)
                (some (Slot.vOwn b (u - 1)))
              events := st.events ++
                [Ev.finDec (g.origin i) (u - 1)] }) = _
          rw [if_neg hu0, if_neg hu1]
        obtain ⟨st', hrest⟩ := ih { st with
            values := upd st.values (g.origin i)
              (some (Slot.vOwn b (u - 1)))
            events := st.events ++ [Ev.finDec (g.origin i) (u - 1)] }
          (fun o hpos => by
            by_cases hne : o = g.origin i
            · refine ⟨Slot.vOwn b (u - 1), ?_, fun _ => ?_⟩
              · show upd st.values (g.origin i)
                  (some (Slot.vOwn b (u - 1))) o = _
                rw [hne, upd_same]
              · show cntOrig g L o ≤ u - 1
                rw [hne]
                omega
            · obtain ⟨sl2, hv2, hc2⟩ := hcond o (hlift o hpos)
              refine ⟨sl2, ?_, fun hw => Nat.le_trans (hle o) (hc2 hw)⟩
              show upd st.values (g.origin i)
                (some (Slot.vOwn b (u - 1))) o = some sl2
              rw [upd_ne _ _ hne]
              exact hv2)
        exact ⟨st', by rw [List.foldlM_cons, hstep]; exact hrest⟩
theorem foldl_upd_mem {V : Type} (minputs : List (Nat × CView V)) :
    ∀ (v : Nat → Option (Slot V)) (o : Nat) (sl : Slot V),
    minputs.foldl (fun f p => upd f p.1 (some (slotOfView p.2))) v o =
      some sl →
    v o = some sl ∨ ∃ cv, (o, cv) ∈ minputs ∧ sl = slotOfView cv := by
  induction minputs with
  | nil =>
    intro v o sl h
    exact Or.inl h
  | cons p rest ih =>
    intro v o sl h
    rw [List.foldl_cons] at h
    rcases ih _ o sl h with hc | ⟨cv, hm, he⟩
    · by_cases he2 : o = p.1
      · subst he2
        rw [upd_same] at hc
        exact Or.inr ⟨p.2, List.mem_cons_self _ _,
          (Option.some.inj hc).symm⟩
      · rw [upd_ne _ _ he2] at hc
        exact Or.inl hc
    · exact Or.inr ⟨cv, List.mem_cons_of_mem _ hm, he⟩
theorem baseOf_mem {V : Type} (minputs : List (Nat × CView V)) (o : Nat)
    (sl : Slot V) (h : baseOf minputs o = some sl) :
    ∃ cv, (o, cv) ∈ minputs ∧ sl = slotOfView cv := by
  rcases foldl_upd_mem minputs _ o sl h with hc | hc
  · cases hc
  · exact hc
theorem baseOf_cat {V : Type} (g : Graph) (minputs : List (Nat × CView V))
    (mouts : List Nat) (hcw : CallWF g minputs mouts) :
    ∀ o sl, baseOf minputs o = some sl →
    (g.isVec o = false → ∃ f, sl = Slot.sCaller f) ∧
    (g.isVec o = true → ∃ f, sl = Slot.vCaller f) := by
  intro o sl h
  obtain ⟨cv, hm, he⟩ := baseOf_mem minputs o sl h
  have hcat := hcw.mi_cat (o, cv) hm
  rcases cv with f | f
  · have hcat2 : g.isVec o = false := hcat
    refine ⟨fun _ => ⟨f, by rw [he]; rfl⟩, fun hx => ?_⟩
    rw [hcat2] at hx
    cases hx
  · have hcat2 : g.isVec o = true := hcat
    refine ⟨fun hx => ?_, fun _ => ⟨f, by rw [he]; rfl⟩⟩
    rw [hcat2] at hx
    cases hx
theorem foldl_upd_isSome {V : Type} (minputs : List (Nat × CView V)) :
    ∀ (v : Nat → Option (Slot V)) (o : Nat),
    o ∈ minputs.map Prod.fst ∨ (v o).isSome = true →
    ((minputs.foldl (fun f p => upd f p.1 (some (slotOfView p.2))) v)
      o).isSome = true := by
  induction minputs with
  | nil =>
    intro v o h
    rcases h with h | h
    · cases h
    · exact h
  | cons p rest ih =>
    intro v o h
    rw [List.foldl_cons]
    refine ih _ o ?_
    by_cases he : o = p.1
    · right
      rw [he, upd_same]
      rfl
    · rcases h with h | h
      · rw [List.map_cons] at h
        rcases List.mem_cons.mp h with h2 | h2
        · exact absurd h2 he
        · exact Or.inl h2
      · right
        rw [upd_ne _ _ he]
        exact h
theorem baseOf_isSome {V : Type} (minputs : List (Nat × CView V)) (o : Nat)
    (h : o ∈ minputs.map Prod.fst) : (baseOf minputs o).isSome = true :=
  foldl_upd_isSome minputs _ o (Or.inl h)
theorem evalFn_ok {V : Type} (c : Ctx V) (base : Nat → Option (Slot V))
    (st : Store V) (stk : List Nat) (n : Nat)
    (hwf : GraphWF c.g) (hnm : NoMut c.g)
    (hnlt : n < c.g.nodeCount) (hndum : c.g.isDummy n = false)
    (hninv : ¬ invoked st n)
    (hbase : ∀ o sl, base o = some sl →
      (c.g.isVec o = false → ∃ f, sl = Slot.sCaller f) ∧
      (c.g.isVec o = true → ∃ f, sl = Slot.vCaller f))
    (h : SInv c.g base st stk)
    (hLorig : ∀ i ∈ c.g.nodeInputs n,
      c.g.origin i ∉ paramOuts (c.g.params n))
    (hcomp : ∀ i ∈ c.g.nodeInputs n, inputIsComputed c.g st i = true) :
    ∃ st', evaluateFunction c st n = .ok st' ∧ invoked st' n := by
  have hperm := hwf.pi_perm n hnlt hndum
  have hnd := hwf.po_nodup n hnlt hndum
  have hsep : ∀ i ∈ paramIns (c.g.params n),
      ∀ o ∈ paramOuts (c.g.params n), c.g.origin i ≠ o := by
    intro i hi o ho he
    exact hLorig i (hperm.mem_iff.mp hi) (he ▸ ho)
  have hslot : ∀ i ∈ c.g.nodeInputs n, ∃ sl,
      st.values (c.g.origin i) = some sl ∧
      (c.g.isVec i = false →
        (∃ b u, sl = Slot.sOwn b u) ∨ ∃ f, sl = Slot.sCaller f) ∧
      (c.g.isVec i = true →
        (∃ b u, sl = Slot.vOwn b u) ∨ ∃ f, sl = Slot.vCaller f) := by
    intro i hi
    obtain ⟨hilt, hiin, hisn⟩ := hwf.ni_mem n hnlt i hi
    have holt := hwf.origin_lt i hilt hiin
    have hoout := hwf.origin_out i hilt hiin
    have hocat := hwf.origin_cat i hilt hiin
    have hcompi := hcomp i hi
    unfold inputIsComputed at hcompi
    rcases hv : st.values (c.g.origin i) with _ | sl
    · rw [hv] at hcompi
      simp at hcompi
    · by_cases hdum : c.g.isDummy (c.g.socketNode (c.g.origin i)) = true
      · have hb := h.slot_dummy _ holt hoout hdum
        rw [hb] at hv
        refine ⟨sl, rfl, ?_, ?_⟩
        · intro hivec
          obtain ⟨f, hf⟩ := (hbase _ sl hv).1 (by rw [hocat, hivec])
          exact Or.inr ⟨f, hf⟩
        · intro hivec
          obtain ⟨f, hf⟩ := (hbase _ sl hv).2 (by rw [hocat, hivec])
          exact Or.inr ⟨f, hf⟩
      · have hdum2 : c.g.isDummy (c.g.socketNode (c.g.origin i)) = false := by
          rcases hD : c.g.isDummy (c.g.socketNode (c.g.origin i)) with _ | _
          · rfl
          · exact absurd hD hdum
        obtain ⟨hown, hcatIff, -, -⟩ := h.slot_fn _ holt hoout hdum2 sl hv
        refine ⟨sl, rfl, ?_, ?_⟩
        · intro hivec
          have hov : c.g.isVec (c.g.origin i) = false := by
            rw [hocat, hivec]
          rcases sl with ⟨f⟩ | ⟨f⟩ | ⟨b, u⟩ | ⟨b, u⟩
          · simp [Slot.owned] at hown
          · simp [Slot.owned] at hown
          · exact Or.inl ⟨b, u, rfl⟩
          · exfalso
            have hx := hcatIff.mpr ⟨b, u, rfl⟩
            rw [hov] at hx
            cases hx
        · intro hivec
          have hov : c.g.isVec (c.g.origin i) = true := by
            rw [hocat, hivec]
          obtain ⟨b, u, hbu⟩ := hcatIff.mp hov
          exact Or.inl ⟨b, u, hbu⟩
  have hpc : ∀ p ∈ c.g.params n, (match p with
      | PSpec.sIn i => ∃ sl, st.values (c.g.origin i) = some sl ∧
          ((∃ b u, sl = Slot.sOwn b u) ∨ ∃ f, sl = Slot.sCaller f)
      | PSpec.vIn i => ∃ sl, st.values (c.g.origin i) = some sl ∧
          ((∃ b u, sl = Slot.vOwn b u) ∨ ∃ f, sl = Slot.vCaller f)
      | PSpec.sOut o => st.values o = none
      | PSpec.vOut o => st.values o = none
      | _ => False) := by
    intro p hp
    have hw := hwf.p_wf n hnlt hndum p hp
    rcases p with i | i | o | o | ⟨i, o2⟩ | ⟨i, o2⟩
    · obtain ⟨sl, hv, hc1, -⟩ := hslot i hw.1
      exact ⟨sl, hv, hc1 hw.2⟩
    · obtain ⟨sl, hv, -, hc2⟩ := hslot i hw.1
      exact ⟨sl, hv, hc2 hw.2⟩
    · have homem : o ∈ paramOuts (c.g.params n) :=
        List.mem_flatten.mpr ⟨PSpec.outs (PSpec.sOut o),
          List.mem_map_of_mem PSpec.outs hp, by simp [PSpec.outs]⟩
      obtain ⟨holt, hoout, hosn⟩ := hwf.po_mem n hnlt hndum o homem
      show st.values o = none
      rcases hv : st.values o with _ | sl
      · rfl
      · exfalso
        have hx := (h.slot_fn o holt hoout (by rw [hosn]; exact hndum)
          sl hv).2.2.1
        rw [hosn] at hx
        exact hninv hx
    · have homem : o ∈ paramOuts (c.g.params n) :=
        List.mem_flatten.mpr ⟨PSpec.outs (PSpec.vOut o),
          List.mem_map_of_mem PSpec.outs hp, by simp [PSpec.outs]⟩
      obtain ⟨holt, hoout, hosn⟩ := hwf.po_mem n hnlt hndum o homem
      show st.values o = none
      rcases hv : st.values o with _ | sl
      · rfl
      · exfalso
        have hx := (h.slot_fn o holt hoout (by rw [hosn]; exact hndum)
          sl hv).2.2.1
        rw [hosn] at hx
        exact hninv hx
    · have hF : False := hnm n hnlt _ hp
      exact hF.elim
    · have hF : False := hnm n hnlt _ hp
      exact hF.elim
  obtain ⟨out, hbind, hfr0⟩ :=
    bindParamFold_ok c (c.g.params n) st [] hsep hnd hpc
  rcases out with ⟨st1, ws⟩
  have hfr : ∀ o, o ∉ paramOuts (c.g.params n) →
      st1.values o = st.values o := hfr0
  have hW := writeTargets_values c
    { st1 with events := st1.events ++ [Ev.invoke n] } ws
  obtain ⟨st', hfin⟩ := finishFold_ok c.g (c.g.nodeInputs n)
    (writeTargets c { st1 with events := st1.events ++ [Ev.invoke n] } ws)
    (by
      intro o hpos
      obtain ⟨i, hiL, hio⟩ := cntOrig_pos_ex c.g (c.g.nodeInputs n) o hpos
      obtain ⟨hilt, hiin, hisn⟩ := hwf.ni_mem n hnlt i hiL
      have hnot : o ∉ paramOuts (c.g.params n) := by
        rw [← hio]
        exact hLorig i hiL
      have hveq : (writeTargets c { st1 with
          events := st1.events ++ [Ev.invoke n] } ws).values o =
          st.values o := by
        rw [hW.1]
        exact hfr o hnot
      have holt : o < c.g.socketCount := by
        rw [← hio]
        exact hwf.origin_lt i hilt hiin
      have hoout : c.g.isInput o = false := by
        rw [← hio]
        exact hwf.origin_out i hilt hiin
      have hcompi := hcomp i hiL
      unfold inputIsComputed at hcompi
      rw [hio] at hcompi
      rcases hv : st.values o with _ | sl
      · rw [hv] at hcompi
        simp at hcompi
      · refine ⟨sl, by rw [hveq]; exact hv, ?_⟩
        intro hown
        by_cases hdum : c.g.isDummy (c.g.socketNode o) = true
        · exfalso
          have hb := h.slot_dummy o holt hoout hdum
          rw [hb] at hv
          rcases hx : c.g.isVec o with _ | _
          · obtain ⟨f, hf⟩ := (hbase o sl hv).1 hx
            rw [hf] at hown
            simp [Slot.owned] at hown
          · obtain ⟨f, hf⟩ := (hbase o sl hv).2 hx
            rw [hf] at hown
            simp [Slot.owned] at hown
        · have hdum2 : c.g.isDummy (c.g.socketNode o) = false := by
            rcases hD : c.g.isDummy (c.g.socketNode o) with _ | _
            · rfl
            · exact absurd hD hdum
          obtain ⟨-, -, -, husers⟩ := h.slot_fn o holt hoout hdum2 sl hv
          rw [husers]
          exact cnt_le_unfin c.g hwf st n o hnlt holt hninv)
  have heval : evaluateFunction c st n = .ok st' := by
    unfold evaluateFunction
    rw [hbind]
    exact hfin
  refine ⟨st', heval, ?_⟩
  have hfs := finishFold_spec c.g (c.g.nodeInputs n) _ st' hfin
  obtain ⟨ext, hev, -⟩ := hfs.ev
  unfold invoked
  rw [hev, hW.2.1]
  refine List.mem_append.mpr (Or.inl ?_)
  refine List.mem_append.mpr (Or.inr ?_)
  exact List.mem_singleton.mpr rfl
theorem sProcessList {V : Type} (c : Ctx V)
    (base : Nat → Option (Slot V)) :
    ∀ (l : List Nat), (∀ s ∈ l, ProcOK2 c base s) →
    ∀ (st : Store V) (rest : List Nat),
    SInv c.g base st (l ++ rest) →
    ∃ m st2, runN c m (.run st (l ++ rest)) = .run st2 rest ∧
      SInv c.g base st2 rest ∧ SExt c.g st st2 ∧
      (∀ s ∈ l, (c.g.isInput s = true → ¬ finished c.g st2 s →
          inputIsComputed c.g st2 s = true) ∧
        (c.g.isInput s = false → invoked st2 (c.g.socketNode s))) := by
  intro l
  induction l with
  | nil =>
    intro _ st rest hinv
    exact ⟨0, st, rfl, hinv, SExt_refl c.g st,
      fun s hs => absurd hs (List.not_mem_nil s)⟩
  | cons s l ih =>
    intro hp st rest hinv
    have hinv0 : SInv c.g base st (s :: (l ++ rest)) := hinv
    obtain ⟨m1, st1, h1, hS1, hE1, hc1in, hc1out⟩ :=
      hp s (List.mem_cons_self _ _) st (l ++ rest) hinv0
    obtain ⟨m2, st2, h2, hS2, hE2, hc2⟩ :=
      ih (fun t ht => hp t (List.mem_cons_of_mem _ ht)) st1 rest hS1
    refine ⟨m2 + m1, st2, ?_, hS2, SExt_trans hE1 hE2, ?_⟩
    · rw [List.cons_append, runN_add, h1, h2]
    · intro t ht
      rcases List.mem_cons.mp ht with he | ht2
      · subst he
        constructor
        · intro hin hnf
          have hc := hc1in hin
          unfold inputIsComputed at hc ⊢
          exact hE2.2 t (hinv0.stk_lt t (List.mem_cons_self _ _)) hin hnf hc
        · intro hout
          exact hE2.1 _ (hc1out hout)
      · exact hc2 t ht2
theorem sProcessEntry {V : Type} (c : Ctx V) (rank : Nat → Nat)
    (minputs : List (Nat × CView V)) (mouts : List Nat)
    (hwf : GraphWF c.g) (hrk : RankOK c.g rank) (hnm : NoMut c.g)
    (hcw : CallWF c.g minputs mouts) (hbound : BoundOK c.g minputs) :
    ∀ K s, 2 * rank (demNode c.g s) +
        (if c.g.isInput s then 1 else 0) < K →
      (c.g.isInput s = false → c.g.isDummy (c.g.socketNode s) = false) →
      ProcOK2 c (baseOf minputs) s := by
  intro K
  induction K with
  | zero =>
    intro s hK
    exact absurd hK (Nat.not_lt_zero _)
  | succ K ih =>
    intro s hK hsout st r hinv
    by_cases hin : c.g.isInput s = true
    · by_cases hcomp : inputIsComputed c.g st s = true
      · refine ⟨1, st, ?_, SInv_tail hinv, SExt_refl c.g st,
          fun _ => hcomp, fun hout => ?_⟩
        · rw [runN_one]
          exact step1_eq_pop c st s r hin hcomp
        · rw [hin] at hout
          cases hout
      · have hslt : s < c.g.socketCount :=
          hinv.stk_lt s (List.mem_cons_self _ _)
        have holt := hwf.origin_lt s hslt hin
        have hoout := hwf.origin_out s hslt hin
        have hodum : c.g.isDummy (c.g.socketNode (c.g.origin s)) = false := by
          rcases hD : c.g.isDummy (c.g.socketNode (c.g.origin s)) with _ | _
          · rfl
          · exfalso
            apply hcomp
            unfold inputIsComputed
            rw [hinv.slot_dummy _ holt hoout hD]
            exact baseOf_isSome minputs _ (hbound s hslt hin hD)
        have hpush := step1_eq_pushOrigin c st s r hin hcomp
        have hinv2 := SInv_push_origin hwf hinv hin (by
          rcases hb : inputIsComputed c.g st s with _ | _
          · rfl
          · exact absurd hb hcomp)
        have hdem : demNode c.g (c.g.origin s) =
            c.g.socketNode (c.g.origin s) := by
          simp [demNode, hoout]
        have hdemS : demNode c.g s = c.g.socketNode (c.g.origin s) := by
          simp [demNode, hin]
        have hKo : 2 * rank (demNode c.g (c.g.origin s)) +
            (if c.g.isInput (c.g.origin s) then 1 else 0) < K := by
          have h1 : (if c.g.isInput (c.g.origin s) then 1 else 0) = 0 := by
            simp [hoout]
          have h2 : (if c.g.isInput s then 1 else 0) = 1 := by
            simp [hin]
          rw [hdem, h1]
          rw [hdemS, h2] at hK
          omega
        obtain ⟨m2, st2, h2, hS2, hE2, -, hc2out⟩ :=
          ih (c.g.origin s) hKo (fun _ => hodum) st (s :: r) hinv2
        have hinvoked : invoked st2 (c.g.socketNode (c.g.origin s)) :=
          hc2out hoout
        have hcomp2 : inputIsComputed c.g st2 s = true := by
          unfold inputIsComputed
          have hnf : ¬ finished c.g st2 s :=
            hS2.stk_in s (List.mem_cons_self _ _) hin
          exact hS2.slot_live (c.g.origin s) holt hoout hodum hinvoked
            (Or.inr (unfin_pos c.g st2 (hwf.tgt_complete s hslt hin) hnf))
        have hpop := step1_eq_pop c st2 s r hin hcomp2
        have e1 : runN c 1 (.run st (s :: r)) =
            .run st (c.g.origin s :: s :: r) := by
          rw [runN_one]
          exact hpush
        have e2 : runN c (m2 + 1) (.run st (s :: r)) = .run st2 (s :: r) := by
          rw [runN_add c m2 1, e1]
          exact h2
        refine ⟨1 + (m2 + 1), st2, ?_, SInv_tail hS2, hE2,
          fun _ => hcomp2, fun hout => ?_⟩
        · rw [runN_add c 1 (m2 + 1), e2, runN_one]
          exact hpop
        · rw [hin] at hout
          cases hout
    · have hin2 : c.g.isInput s = false := by
        rcases hb : c.g.isInput s with _ | _
        · rfl
        · exact absurd hb hin
      have hdum := hsout hin2
      have hslt : s < c.g.socketCount :=
        hinv.stk_lt s (List.mem_cons_self _ _)
      have hnlt : c.g.socketNode s < c.g.nodeCount := hwf.node_lt s hslt
      have hninv : ¬ invoked st (c.g.socketNode s) :=
        hinv.stk_out s (List.mem_cons_self _ _) hin2
      have hLorig : ∀ i ∈ c.g.nodeInputs (c.g.socketNode s),
          c.g.origin i ∉ paramOuts (c.g.params (c.g.socketNode s)) := by
        intro i hi hop
        have hr1 := hrk _ hnlt hdum i hi
        have hsn := (hwf.po_mem _ hnlt hdum _ hop).2.2
        rw [hsn] at hr1
        omega
      by_cases hmiss : ((c.g.nodeInputs (c.g.socketNode s)).filter
          (fun i => !(inputIsComputed c.g st i))).isEmpty = true
      · have hcompall : ∀ i ∈ c.g.nodeInputs (c.g.socketNode s),
            inputIsComputed c.g st i = true := by
          intro i hi
          rcases hb : inputIsComputed c.g st i with _ | _
          · exfalso
            have hmemf : i ∈ (c.g.nodeInputs (c.g.socketNode s)).filter
                (fun i2 => !(inputIsComputed c.g st i2)) :=
              List.mem_filter.mpr ⟨hi, by rw [hb]; rfl⟩
            rw [List.isEmpty_iff] at hmiss
            rw [hmiss] at hmemf
            cases hmemf
          · rfl
        obtain ⟨st2, hev, hinvk⟩ := evalFn_ok c (baseOf minputs) st
          (s :: r) (c.g.socketNode s) hwf hnm hnlt hdum hninv
          (baseOf_cat c.g minputs mouts hcw) hinv hLorig hcompall
        obtain ⟨hS2, hE2⟩ := SInv_eval rank hwf hrk (baseOf_owned minputs)
          hinv hin2 hdum hcompall hev
        refine ⟨1, st2, ?_, hS2, hE2, fun hc => ?_, fun _ => hinvk⟩
        · rw [runN_one]
          exact step1_eq_eval c st st2 s r hin2 hdum hmiss hev
        · rw [hin2] at hc
          cases hc
      · have hpush := step1_eq_pushMissing c st s r hin2 hdum hmiss
        have hinvP := SInv_push_missing hwf
          (fun i => c.depths (c.g.socketNode (c.g.origin i))) hinv hin2 hdum
        have hmemL : ∀ t, t ∈ (sortKey
            (fun i => c.depths (c.g.socketNode (c.g.origin i)))
            ((c.g.nodeInputs (c.g.socketNode s)).filter
              (fun i => !(inputIsComputed c.g st i)))).reverse ↔
            (t ∈ c.g.nodeInputs (c.g.socketNode s) ∧
              inputIsComputed c.g st t = false) := by
          intro t
          rw [List.mem_reverse, mem_sortKey, List.mem_filter]
          simp
        have hdemS : demNode c.g s = c.g.socketNode s := by
          simp [demNode, hin2]
        have hK2 : 2 * rank (c.g.socketNode s) < K + 1 := by
          rw [hdemS] at hK
          simp [hin2] at hK
          omega
        have hproc : ∀ t ∈ (sortKey
            (fun i => c.depths (c.g.socketNode (c.g.origin i)))
            ((c.g.nodeInputs (c.g.socketNode s)).filter
              (fun i => !(inputIsComputed c.g st i)))).reverse,
            ProcOK2 c (baseOf minputs) t := by
          intro t ht
          obtain ⟨htmem, -⟩ := (hmemL t).mp ht
          obtain ⟨htlt, hti, htsn⟩ := hwf.ni_mem _ hnlt t htmem
          have hrkt := hrk _ hnlt hdum t htmem
          have hdemT : demNode c.g t =
              c.g.socketNode (c.g.origin t) := by
            simp [demNode, hti]
          refine ih t ?_ (fun hco => by rw [hti] at hco; cases hco)
          rw [hdemT]
          simp [hti]
          omega
        obtain ⟨m1, stM, hrun1, hSM, hEM, hlistc⟩ :=
          sProcessList c (baseOf minputs) _ hproc st (s :: r) hinvP
        have hninvM : ¬ invoked stM (c.g.socketNode s) :=
          hSM.stk_out s (List.mem_cons_self _ _) hin2
        have hcompallM : ∀ i ∈ c.g.nodeInputs (c.g.socketNode s),
            inputIsComputed c.g stM i = true := by
          intro i hi
          have hifacts := hwf.ni_mem _ hnlt i hi
          have hnfM : ¬ finished c.g stM i := by
            unfold finished
            rw [hifacts.2.2]
            exact hninvM
          rcases hb : inputIsComputed c.g st i with _ | _
          · exact (hlistc i ((hmemL i).mpr ⟨hi, hb⟩)).1 hifacts.2.1 hnfM
          · unfold inputIsComputed at hb ⊢
            exact hEM.2 i hifacts.1 hifacts.2.1 hnfM hb
        have hmiss2 : ((c.g.nodeInputs (c.g.socketNode s)).filter
            (fun i => !(inputIsComputed c.g stM i))).isEmpty = true := by
          rw [List.isEmpty_iff]
          refine List.filter_eq_nil_iff.mpr ?_
          intro i hi
          simp [hcompallM i hi]
        obtain ⟨st2, hev, hinvk⟩ := evalFn_ok c (baseOf minputs) stM
          (s :: r) (c.g.socketNode s) hwf hnm hnlt hdum hninvM
          (baseOf_cat c.g minputs mouts hcw) hSM hLorig hcompallM
        obtain ⟨hS2, hE2⟩ := SInv_eval rank hwf hrk (baseOf_owned minputs)
          hSM hin2 hdum hcompallM hev
        have e1 : runN c 1 (.run st (s :: r)) = .run st ((sortKey
            (fun i => c.depths (c.g.socketNode (c.g.origin i)))
            ((c.g.nodeInputs (c.g.socketNode s)).filter
              (fun i => !(inputIsComputed c.g st i)))).reverse ++
              (s :: r)) := by
          rw [runN_one]
          exact hpush
        have e2 : runN c (m1 + 1) (.run st (s :: r)) = .run stM (s :: r) := by
          rw [runN_add c m1 1, e1]
          exact hrun1
        refine ⟨1 + (m1 + 1), st2, ?_, hS2, SExt_trans hEM hE2,
          fun hc => ?_, fun _ => hinvk⟩
        · rw [runN_add c 1 (m1 + 1), e2, runN_one]
          exact step1_eq_eval c stM st2 s r hin2 hdum hmiss2 hev
        · rw [hin2] at hc
          cases hc
theorem sched_terminates {V : Type} (g : Graph)
    (rank : Nat → Nat) (bodyS : Nat → Nat → V) (bodyV : Nat → Nat → List V)
    (minputs : List (Nat × CView V)) (mouts mask : List Nat)
    (dep : Nat → Int)
    (hwf : GraphWF g) (hrk : RankOK g rank)
    (hcw : CallWF g minputs mouts) (hbound : BoundOK g minputs)
    (hnm : NoMut g) :
    schedComputesAll g bodyS bodyV minputs mouts mask dep := by
  have hb := bindCaller_fold minputs (initStore V) hcw.mi_nodup
    (fun p _ => rfl)
  have hinv0 : SInv g (baseOf minputs)
      { initStore V with values := (minputs.foldl
          (fun f p => upd f p.1 (some (slotOfView p.2)))
          (initStore V).values) } mouts.reverse :=
    init_SInv g minputs mouts _ hwf hcw rfl rfl
  have hproc : ∀ s ∈ mouts.reverse,
      ProcOK2 (⟨g, bodyS, bodyV, mask, dep⟩ : Ctx V) (baseOf minputs) s := by
    intro s hs
    obtain ⟨hslt, hsin, hsdum⟩ := hcw.mo_mem s (List.mem_reverse.mp hs)
    refine sProcessEntry ⟨g, bodyS, bodyV, mask, dep⟩ rank minputs mouts
      hwf hrk hnm hcw hbound
      (2 * rank (demNode g s) + 2) s ?_ (fun hco => ?_)
    · show 2 * rank (demNode g s) + (if g.isInput s then 1 else 0) <
        2 * rank (demNode g s) + 2
      have hle1 : (if g.isInput s then 1 else 0) ≤ 1 := by
        split <;> omega
      omega
    · have hco2 : g.isInput s = false := hco
      rw [hsin] at hco2
      cases hco2
  obtain ⟨m1, stF, hrunF, hSF, hEF, hconcl⟩ :=
    sProcessList (⟨g, bodyS, bodyV, mask, dep⟩ : Ctx V) (baseOf minputs)
      mouts.reverse hproc
      { initStore V with values := (minputs.foldl
          (fun f p => upd f p.1 (some (slotOfView p.2)))
          (initStore V).values) } []
      (by rw [List.append_nil]; exact hinv0)
  rw [List.append_nil] at hrunF
  refine ⟨1 + m1, stF, ?_, ?_⟩
  · show schedPart g bodyS bodyV minputs mouts mask dep (1 + m1) =
      .done stF
    unfold schedPart
    rw [hb]
    show runN (⟨g, bodyS, bodyV, mask, dep⟩ : Ctx V) (1 + m1)
      (.run { initStore V with values := (minputs.foldl
          (fun f p => upd f p.1 (some (slotOfView p.2)))
          (initStore V).values) } mouts.reverse) = .done stF
    rw [runN_add _ 1 m1, hrunF, runN_one]
    rfl
  · intro r hr
    obtain ⟨hrlt, hrin, hrdum⟩ := hcw.mo_mem r hr
    have hnf : ¬ finished g stF r := by
      unfold finished
      intro hc
      have hx := (hSF.inv_fn _ hc).2
      rw [hrdum] at hx
      cases hx
    have hcomp := (hconcl r (List.mem_reverse.mpr hr)).1 hrin hnf
    unfold inputIsComputed at hcomp
    exact hcomp
/-- C9 (amended): for an acyclic well-formed graph whose function nodes
have no in-place (mutable) parameters and whose boundary-origin inputs are
all bound by the caller, the scheduler's work-stack loop terminates (some
fuel makes `runN` reach `done` with the stack empty), and at termination
every requested output socket's origin has a materialized value in
storage. The no-mutable-parameter restriction is the correction: with a
mutable parameter the loop can instead stop at the re-keying null-read
contract violation (`C9_counterexample`). -/
theorem C9_termination_amended {V : Type} (g : Graph)
    (rank : Nat → Nat) (bodyS : Nat → Nat → V) (bodyV : Nat → Nat → List V)
    (minputs : List (Nat × CView V)) (mouts mask : List Nat)
    (dep : Nat → Int)
    (hwf : GraphWF g) (hrk : RankOK g rank)
    (hcw : CallWF g minputs mouts) (hbound : BoundOK g minputs)
    (hnm : NoMut g) :
    schedComputesAll g bodyS bodyV minputs mouts mask dep :=
  sched_terminates g rank bodyS bodyV minputs mouts mask dep
    hwf hrk hcw hbound hnm
theorem C9_termination_amended_witness :
    GraphWF exCaller ∧ schedComputesAll (V := Nat) exCaller
      (fun o j => o + j) (fun _ _ => []) exCallerIns [3] [0]
      (fun _ => 0) :=
  ⟨by constructor <;> decide,
   C9_termination_amended exCaller (fun n => n) (fun o j => o + j)
     (fun _ _ => []) exCallerIns [3] [0] (fun _ => 0)
     (by constructor <;> decide) (by decide)
     (by
       refine ⟨by decide, by decide, ?_, by decide⟩
       intro p hp
       rw [show exCallerIns = [(0, CView.s (fun j => 7 * j))] from rfl,
         List.mem_singleton] at hp
       subst hp
       exact rfl)
     (by decide) (by decide)⟩
theorem countAlloc_pos_ex {ext : List Ev} {a : Nat}
    (h : 0 < countAlloc ext a) : ∃ b u, Ev.alloc a b u ∈ ext := by
  unfold countAlloc at h
  rcases hE : ext.filter (fun e => match e with
      | Ev.alloc o2 _ _ => decide (o2 = a)
      | _ => false) with _ | ⟨e, t⟩
  · rw [hE] at h
    simp at h
  · have hm : e ∈ ext.filter (fun e => match e with
        | Ev.alloc o2 _ _ => decide (o2 = a)
        | _ => false) := by
      rw [hE]
      exact List.mem_cons_self _ _
    obtain ⟨he, hp⟩ := List.mem_filter.mp hm
    rcases e with n | ⟨o2, b, u⟩ | ⟨s, d, b, u⟩ | ⟨o2, k⟩ | o2 | b | b
    · cases hp
    · have : o2 = a := of_decide_eq_true hp
      subst this
      exact ⟨b, u, he⟩
    · cases hp
    · cases hp
    · cases hp
    · cases hp
    · cases hp
theorem tdEvents_shape {V : Type} (g : Graph) (st : Store V) :
    ∀ e ∈ teardownEvents g st, ∃ b2, e = Ev.teardown b2 := by
  intro e he
  rw [teardownEvents_eq] at he
  obtain ⟨o, -, hin⟩ := List.mem_flatMap.mp he
  rw [tdOf] at hin
  rcases hv : st.values o with _ | sl
  · rw [hv] at hin
    simp [tdSlot] at hin
  · rw [hv] at hin
    rcases sl with ⟨v⟩ | ⟨v⟩ | ⟨b2, u⟩ | ⟨b2, u⟩
    · simp [tdSlot] at hin
    · simp [tdSlot] at hin
    · simp [tdSlot] at hin
      exact ⟨b2, hin⟩
    · simp [tdSlot] at hin
      exact ⟨b2, hin⟩
theorem countFinDec_zero_of_shape {l : List Ev}
    (h : ∀ e ∈ l, ∃ b2, e = Ev.teardown b2) (o : Nat) :
    countFinDec l o = 0 := by
  unfold countFinDec
  rw [List.filter_eq_nil_iff.mpr (fun e he => by
    obtain ⟨b2, rfl⟩ := h e he
    simp)]
  rfl
theorem countAlloc_zero_of_shape {l : List Ev}
    (h : ∀ e ∈ l, ∃ b2, e = Ev.teardown b2) (o : Nat) :
    countAlloc l o = 0 := by
  unfold countAlloc
  rw [List.filter_eq_nil_iff.mpr (fun e he => by
    obtain ⟨b2, rfl⟩ := h e he
    simp)]
  rfl
theorem countDestroy_zero_of_shape {l : List Ev}
    (h : ∀ e ∈ l, ∃ b2, e = Ev.teardown b2) (b : Nat) :
    countDestroy l b = 0 := by
  unfold countDestroy
  rw [List.filter_eq_nil_iff.mpr (fun e he => by
    obtain ⟨b2, rfl⟩ := h e he
    simp)]
  rfl
theorem alloc_not_mem_of_shape {l : List Ev}
    (h : ∀ e ∈ l, ∃ b2, e = Ev.teardown b2) (o b u : Nat) :
    Ev.alloc o b u ∉ l := by
  intro hm
  obtain ⟨b2, he⟩ := h _ hm
  cases he
theorem countTeardown_flatMap {V : Type} (st : Store V) (b : Nat) :
    ∀ (l : List Nat), countTeardown (l.flatMap (tdOf st)) b =
      (l.filter (fun o => match st.values o with
        | some (Slot.sOwn b2 _) => b2 == b
        | some (Slot.vOwn b2 _) => b2 == b
        | _ => false)).length := by
  intro l
  induction l with
  | nil => rfl
  | cons o t ih =>
    rw [List.flatMap_cons, countTeardown_append, ih, List.filter_cons]
    rcases hv : st.values o with _ | sl
    · simp only [tdOf, hv, tdSlot]
      rw [show countTeardown [] b = 0 from rfl]
      simp
    · rcases sl with ⟨v⟩ | ⟨v⟩ | ⟨b2, u⟩ | ⟨b2, u⟩
      · simp only [tdOf, hv, tdSlot]
        rw [show countTeardown [] b = 0 from rfl]
        simp
      · simp only [tdOf, hv, tdSlot]
        rw [show countTeardown [] b = 0 from rfl]
        simp
      · simp only [tdOf, hv, tdSlot]
        by_cases he : b2 = b
        · rw [if_pos (by simp [he]), show countTeardown [Ev.teardown b2] b =
            1 from by simp [countTeardown, he]]
          simp [Nat.add_comm]
        · rw [if_neg (by simp [he]), show countTeardown [Ev.teardown b2] b =
            0 from by simp [countTeardown, he]]
          simp
      · simp only [tdOf, hv, tdSlot]
        by_cases he : b2 = b
        · rw [if_pos (by simp [he]), show countTeardown [Ev.teardown b2] b =
            1 from by simp [countTeardown, he]]
          simp [Nat.add_comm]
        · rw [if_neg (by simp [he]), show countTeardown [Ev.teardown b2] b =
            0 from by simp [countTeardown, he]]
          simp
theorem length_filter_eq_one {l : List Nat} {o0 : Nat} (hnd : l.Nodup)
    (hm : o0 ∈ l) :
    (l.filter (fun o => o == o0)).length = 1 := by
  induction l with
  | nil => cases hm
  | cons a t ih =>
    rw [List.nodup_cons] at hnd
    rcases List.mem_cons.mp hm with he | hm2
    · subst he
      rw [List.filter_cons, if_pos (by simp)]
      rw [List.filter_eq_nil_iff.mpr (fun e het => by
        simp only [beq_iff_eq]
        intro hc
        rw [hc] at het
        exact absurd het hnd.1)]
      rfl
    · rw [List.filter_cons]
      by_cases he : a = o0
      · rw [he] at hnd
        exact absurd hm2 hnd.1
      · rw [if_neg (by simp [he])]
        exact ih hnd.2 hm2
theorem countTeardown_td_zero {V : Type} (g : Graph) (st : Store V)
    (b : Nat)
    (h : ∀ o sl, st.values o = some sl → sl.owned = true →
      sl.bufOf ≠ b) :
    countTeardown (teardownEvents g st) b = 0 := by
  rw [teardownEvents_eq, countTeardown_flatMap]
  have hnil : (List.range g.socketCount).filter (fun o =>
      match st.values o with
      | some (Slot.sOwn b2 _) => b2 == b
      | some (Slot.vOwn b2 _) => b2 == b
      | _ => false) = [] := by
    refine List.filter_eq_nil_iff.mpr ?_
    intro o _
    show ¬ (match st.values o with
      | some (Slot.sOwn b2 _) => b2 == b
      | some (Slot.vOwn b2 _) => b2 == b
      | _ => false) = true
    rcases hv : st.values o with _ | sl
    · simp
    · rcases sl with ⟨v⟩ | ⟨v⟩ | ⟨b2, u⟩ | ⟨b2, u⟩
      · simp
      · simp
      · have hne := h o (Slot.sOwn b2 u) hv rfl
        simp only [Slot.bufOf] at hne
        simp [hne]
      · have hne := h o (Slot.vOwn b2 u) hv rfl
        simp only [Slot.bufOf] at hne
        simp [hne]
  rw [hnil]
  rfl
theorem countTeardown_td_one {V : Type} (g : Graph) (st : Store V)
    (b o0 : Nat) (sl0 : Slot V)
    (h0 : st.values o0 = some sl0) (hown : sl0.owned = true)
    (hbuf : sl0.bufOf = b) (hlt : o0 < g.socketCount)
    (huniq : ∀ o2 sl2, st.values o2 = some sl2 → sl2.owned = true →
      sl2.bufOf = b → o2 = o0) :
    countTeardown (teardownEvents g st) b = 1 := by
  rw [teardownEvents_eq, countTeardown_flatMap]
  have hcongr : ∀ o ∈ List.range g.socketCount,
      (match st.values o with
        | some (Slot.sOwn b2 _) => b2 == b
        | some (Slot.vOwn b2 _) => b2 == b
        | _ => false) = (o == o0) := by
    intro o _
    rcases hv : st.values o with _ | sl
    · have ho : o ≠ o0 := by
        intro hc
        rw [hc, h0] at hv
        cases hv
      simp [ho]
    · rcases sl with ⟨v⟩ | ⟨v⟩ | ⟨b2, u⟩ | ⟨b2, u⟩
      · have ho : o ≠ o0 := by
          intro hc
          rw [hc, h0] at hv
          injection hv with hv2
          rw [hv2] at hown
          simp [Slot.owned] at hown
        simp [ho]
      · have ho : o ≠ o0 := by
          intro hc
          rw [hc, h0] at hv
          injection hv with hv2
          rw [hv2] at hown
          simp [Slot.owned] at hown
        simp [ho]
      · show (b2 == b) = (o == o0)
        by_cases he : b2 = b
        · have ho : o = o0 := huniq o (Slot.sOwn b2 u) hv rfl
            (by simp [Slot.bufOf, he])
          simp [he, ho]
        · have ho : o ≠ o0 := by
            intro hc
            rw [hc, h0] at hv
            injection hv with hv2
            rw [hv2] at hbuf
            simp only [Slot.bufOf] at hbuf
            exact he hbuf
          simp [he, ho]
      · show (b2 == b) = (o == o0)
        by_cases he : b2 = b
        · have ho : o = o0 := huniq o (Slot.vOwn b2 u) hv rfl
            (by simp [Slot.bufOf, he])
          simp [he, ho]
        · have ho : o ≠ o0 := by
            intro hc
            rw [hc, h0] at hv
            injection hv with hv2
            rw [hv2] at hbuf
            simp only [Slot.bufOf] at hbuf
            exact he hbuf
          simp [he, ho]
  rw [List.filter_congr hcongr]
  exact length_filter_eq_one (List.nodup_range _) (List.mem_range.mpr hlt)
theorem init_AInv {V : Type} (g : Graph) (minputs : List (Nat × CView V))
    (st0 : Store V) (hv : st0.values = baseOf minputs)
    (he : st0.events = []) : AInv g st0 := by
  have hnm : ∀ (o b u : Nat), Ev.alloc o b u ∉ st0.events := by
    intro o b u hm
    rw [he] at hm
    cases hm
  refine ⟨fun o b u hm => absurd hm (hnm o b u),
    fun o b u hm => absurd hm (hnm o b u),
    fun o b u hm => absurd hm (hnm o b u),
    fun o b u hm => absurd hm (hnm o b u), ?_,
    fun o b u hm => absurd hm (hnm o b u), ?_, ?_, ?_⟩
  · intro b hpos
    rw [he] at hpos
    simp [countDestroy] at hpos
  · intro o sl hval hso
    rw [hv] at hval
    have := baseOf_owned minputs o sl hval
    rw [this] at hso
    cases hso
  · intro o _
    rw [he]
    rfl
  · intro b
    rw [he]
    rfl
theorem evalSpec_pres_buf {V : Type} {c : Ctx V} {n : Nat}
    {st st2 : Store V} (es : EvalSpec c n st st2)
    (o2 : Nat) (sl2 : Slot V)
    (ho2 : o2 ∉ paramOuts (c.g.params n))
    (hv2 : st2.values o2 = some sl2) (hso2 : sl2.owned = true) :
    ∃ sl3, st.values o2 = some sl3 ∧ sl3.owned = true ∧
      sl3.bufOf = sl2.bufOf := by
  rcases hvold : st.values o2 with _ | sl3
  · rw [es.vals_none o2 ho2 hvold] at hv2
    cases hv2
  · rcases hso3 : sl3.owned with _ | _
    · rw [es.vals_caller o2 sl3 ho2 hvold hso3] at hv2
      injection hv2 with hsl
      rw [hsl] at hso3
      rw [hso2] at hso3
      cases hso3
    · rcases sl3 with ⟨v⟩ | ⟨v⟩ | ⟨b4, u4⟩ | ⟨b4, u4⟩
      · simp [Slot.owned] at hso3
      · simp [Slot.owned] at hso3
      · obtain ⟨-, hval4⟩ := es.vals_own o2 b4 u4 ho2 hvold
        by_cases hfull4 : 0 < cntOrig c.g (c.g.nodeInputs n) o2 ∧
            cntOrig c.g (c.g.nodeInputs n) o2 = u4
        · rw [if_pos hfull4] at hval4
          rw [hval4] at hv2
          cases hv2
        · rw [if_neg hfull4] at hval4
          rw [hval4] at hv2
          injection hv2 with hsl
          refine ⟨Slot.sOwn b4 u4, rfl, rfl, ?_⟩
          rw [← hsl]
          rfl
      · obtain ⟨-, hval4⟩ := es.vals_ownV o2 b4 u4 ho2 hvold
        by_cases hfull4 : 0 < cntOrig c.g (c.g.nodeInputs n) o2 ∧
            cntOrig c.g (c.g.nodeInputs n) o2 = u4
        · rw [if_pos hfull4] at hval4
          rw [hval4] at hv2
          cases hv2
        · rw [if_neg hfull4] at hval4
          rw [hval4] at hv2
          injection hv2 with hsl
          refine ⟨Slot.vOwn b4 u4, rfl, rfl, ?_⟩
          rw [← hsl]
          rfl
theorem AInv_eval {V : Type} {c : Ctx V} (rank : Nat → Nat)
    {base : Nat → Option (Slot V)} {st st2 : Store V} {x : Nat}
    {r : List Nat}
    (hwf : GraphWF c.g) (hrk : RankOK c.g rank)
    (h : SInv c.g base st (x :: r))
    (hout : c.g.isInput x = false)
    (hndum : c.g.isDummy (c.g.socketNode x) = false)
    (hmiss : ∀ i ∈ c.g.nodeInputs (c.g.socketNode x),
      inputIsComputed c.g st i = true)
    (hA : AInv c.g st)
    (hok : evaluateFunction c st (c.g.socketNode x) = .ok st2) :
    AInv c.g st2 := by
  have hxlt : x < c.g.socketCount := h.stk_lt x (List.mem_cons_self _ _)
  have hnlt : c.g.socketNode x < c.g.nodeCount := hwf.node_lt x hxlt
  have hninv : ¬ invoked st (c.g.socketNode x) :=
    h.stk_out x (List.mem_cons_self _ _) hout
  have hperm := hwf.pi_perm _ hnlt hndum
  have hLorig : ∀ i ∈ c.g.nodeInputs (c.g.socketNode x),
      c.g.origin i ∉ paramOuts (c.g.params (c.g.socketNode x)) := by
    intro i hi hop
    have hr1 := hrk _ hnlt hndum i hi
    have hsn := (hwf.po_mem _ hnlt hndum _ hop).2.2
    rw [hsn] at hr1
    omega
  have houts_pre : ∀ o ∈ paramOuts (c.g.params (c.g.socketNode x)),
      st.values o = none := by
    intro o ho
    obtain ⟨holt, hoout, hosn⟩ := hwf.po_mem _ hnlt hndum o ho
    rcases hv : st.values o with _ | sl
    · rfl
    · exfalso
      have hz := (h.slot_fn o holt hoout (by rw [hosn]; exact hndum)
        sl hv).2.2.1
      rw [hosn] at hz
      exact hninv hz
  have es : EvalSpec c (c.g.socketNode x) st st2 := by
    refine evalFn_spec c _ st st2
      (fun p hp => PWF_PCat _ _ _ (hwf.p_wf _ hnlt hndum p hp))
      ?_ (hwf.po_nodup _ hnlt hndum) hperm hLorig houts_pre h.bufok hok
    intro i hi o ho he
    exact hLorig i (hperm.mem_iff.mp hi) (he ▸ ho)
  obtain ⟨ext, hev, hinvf, hca, hct, hcf, hall, hds, hadj⟩ := es.ev
  have hPop : ∀ o, o ∈ paramOuts (c.g.params (c.g.socketNode x)) →
      c.g.socketNode o = c.g.socketNode x :=
    fun o ho => (hwf.po_mem _ hnlt hndum o ho).2.2
  have hOldNotOut : ∀ o b u, Ev.alloc o b u ∈ st.events →
      o ∉ paramOuts (c.g.params (c.g.socketNode x)) := by
    intro o b u hm ho
    have hi := hA.a_inv o b u hm
    rw [hPop o ho] at hi
    exact hninv hi
  have hcaOld : ∀ o b u, Ev.alloc o b u ∈ st.events →
      countAlloc ext o = 0 := by
    intro o b u hm
    rw [hca o, if_neg (hOldNotOut o b u hm)]
  have hcfDead : ∀ o, st.values o = none → countFinDec ext o = 0 := by
    intro o hvo
    rw [hcf o, hvo]
  have hcstep := invoked_step hev hinvf
  refine ⟨?_, ?_, ?_, ?_, ?_, ?_, ?_, ?_, ?_⟩
  · -- a_once
    intro o b u hm
    rw [hev, List.mem_append] at hm
    rw [hev, countAlloc_append]
    rcases hm with hm | hm
    · rw [hA.a_once o b u hm, hcaOld o b u hm]
    · have hop := (hall o b u hm).1
      have hca0 : countAlloc st.events o = 0 := by
        by_contra hc
        obtain ⟨b2, u2, hm2⟩ := countAlloc_pos_ex (Nat.pos_of_ne_zero hc)
        exact hOldNotOut o b2 u2 hm2 hop
      rw [hca0, hca o, if_pos hop]
  · -- a_tgt
    intro o b u hm
    rw [hev, List.mem_append] at hm
    rcases hm with hm | hm
    · exact hA.a_tgt o b u hm
    · exact (hall o b u hm).2.1
  · -- a_inv
    intro o b u hm
    rw [hev, List.mem_append] at hm
    rcases hm with hm | hm
    · exact (hcstep _).mpr (Or.inl (hA.a_inv o b u hm))
    · exact (hcstep _).mpr (Or.inr (hPop o (hall o b u hm).1))
  · -- a_lt
    intro o b u hm
    rw [hev, List.mem_append] at hm
    rcases hm with hm | hm
    · exact Nat.lt_of_lt_of_le (hA.a_lt o b u hm) es.nb
    · obtain ⟨hop, hu, hble, hv2⟩ := hall o b u hm
      have hx2 := es.bufok.1 o _ hv2 (mkOwn_owned _ _ _)
      rw [mkOwn_bufOf] at hx2
      exact hx2
  · -- d_lt
    intro b hpos
    rw [hev, countDestroy_append] at hpos
    rcases Nat.eq_zero_or_pos (countDestroy st.events b) with hz | hp1
    · have hp2 : 0 < countDestroy ext b := by omega
      obtain ⟨o3, sl3, hv3, hso3, hbf3, -⟩ := hds b hp2
      have hx2 := h.bufok.1 o3 sl3 hv3 hso3
      rw [hbf3] at hx2
      exact Nat.lt_of_lt_of_le hx2 es.nb
    · exact Nat.lt_of_lt_of_le (hA.d_lt b hp1) es.nb
  · -- a_state
    intro o b u hm
    rw [hev, List.mem_append] at hm
    rcases hm with hm | hm
    · have hnotout := hOldNotOut o b u hm
      rcases hA.a_state o b u hm with
        ⟨sl, hvo, hso, hbf, hsum, hposc, hd0⟩ |
        ⟨hvo, hcfe, hupos, hd1, huniq, p, q, hsplit, hq0⟩
      · -- old slot still live before this evaluation
        have hblt : b < st.nextBuf := by
          have hx2 := h.bufok.1 o sl hvo hso
          rw [hbf] at hx2
          exact hx2
        rcases sl with ⟨v⟩ | ⟨v⟩ | ⟨b3, u3⟩ | ⟨b3, u3⟩
        · simp [Slot.owned] at hso
        · simp [Slot.owned] at hso
        · -- single-value owned slot
          have hb3 : b = b3 := by
            have hx3 : b3 = b := by simpa [Slot.bufOf] using hbf
            exact hx3.symm
          subst hb3
          have hsum2 : countFinDec st.events o + u3 = u := hsum
          have hcfown : countFinDec ext o =
              cntOrig c.g (c.g.nodeInputs (c.g.socketNode x)) o := by
            rw [hcf o, hvo]
          obtain ⟨hcle, hval2⟩ := es.vals_own o b u3 hnotout hvo
          by_cases hfull : 0 < cntOrig c.g
                (c.g.nodeInputs (c.g.socketNode x)) o ∧
              cntOrig c.g (c.g.nodeInputs (c.g.socketNode x)) o = u3
          · right
            rw [if_pos hfull] at hval2
            obtain ⟨hd1e, pe, qe, hsplite, hqe0⟩ :=
              (hadj o (Slot.sOwn b u3) hvo rfl hnotout).1 hfull
            have hd1b : countDestroy ext b = 1 := hd1e
            refine ⟨hval2, ?_, ?_, ?_, ?_, ?_⟩
            · rw [hev, countFinDec_append, hcfown]
              omega
            · omega
            · rw [hev, countDestroy_append, hd0]
              omega
            · intro o2 sl2 hv2 hso2
              by_cases ho2 : o2 ∈ paramOuts (c.g.params (c.g.socketNode x))
              · obtain ⟨b2, hble, hv2b⟩ := es.vals_out o2 ho2
                rw [hv2] at hv2b
                injection hv2b with hsl2
                rw [hsl2, mkOwn_bufOf]
                omega
              · by_cases ho2o : o2 = o
                · rw [ho2o, hval2] at hv2
                  cases hv2
                · obtain ⟨sl3, hv3, hso3, hbf3⟩ :=
                    evalSpec_pres_buf es o2 sl2 ho2 hv2 hso2
                  intro hc
                  rw [hc] at hbf3
                  exact ho2o (h.bufok.2 o2 o sl3 (Slot.sOwn b u3) hv3 hvo
                    hso3 rfl hbf3)
            · refine ⟨st.events ++ pe, qe, ?_, hqe0⟩
              rw [hev, hsplite]
              simp [List.append_assoc, Slot.bufOf]
          · left
            rw [if_neg hfull] at hval2
            refine ⟨Slot.sOwn b
              (u3 - cntOrig c.g (c.g.nodeInputs (c.g.socketNode x)) o),
              hval2, rfl, rfl, ?_, ?_, ?_⟩
            · rw [hev, countFinDec_append, hcfown]
              show countFinDec st.events o +
                cntOrig c.g (c.g.nodeInputs (c.g.socketNode x)) o +
                (u3 - cntOrig c.g (c.g.nodeInputs (c.g.socketNode x)) o) = u
              omega
            · intro hup
              show 0 < u3 -
                cntOrig c.g (c.g.nodeInputs (c.g.socketNode x)) o
              have hp3 : 0 < u3 := hposc hup
              rcases Nat.lt_or_ge
                  (cntOrig c.g (c.g.nodeInputs (c.g.socketNode x)) o) u3
                with hlt | hge
              · omega
              · exfalso
                exact hfull ⟨by omega, Nat.le_antisymm hcle hge⟩
            · rw [hev, countDestroy_append, hd0]
              have hdz : countDestroy ext b = 0 :=
                (hadj o (Slot.sOwn b u3) hvo rfl hnotout).2 hfull
              omega
        · -- vector owned slot
          have hb3 : b = b3 := by
            have hx3 : b3 = b := by simpa [Slot.bufOf] using hbf
            exact hx3.symm
          subst hb3
          have hsum2 : countFinDec st.events o + u3 = u := hsum
          have hcfown : countFinDec ext o =
              cntOrig c.g (c.g.nodeInputs (c.g.socketNode x)) o := by
            rw [hcf o, hvo]
          obtain ⟨hcle, hval2⟩ := es.vals_ownV o b u3 hnotout hvo
          by_cases hfull : 0 < cntOrig c.g
                (c.g.nodeInputs (c.g.socketNode x)) o ∧
              cntOrig c.g (c.g.nodeInputs (c.g.socketNode x)) o = u3
          · right
            rw [if_pos hfull] at hval2
            obtain ⟨hd1e, pe, qe, hsplite, hqe0⟩ :=
              (hadj o (Slot.vOwn b u3) hvo rfl hnotout).1 hfull
            have hd1b : countDestroy ext b = 1 := hd1e
            refine ⟨hval2, ?_, ?_, ?_, ?_, ?_⟩
            · rw [hev, countFinDec_append, hcfown]
              omega
            · omega
            · rw [hev, countDestroy_append, hd0]
              omega
            · intro o2 sl2 hv2 hso2
              by_cases ho2 : o2 ∈ paramOuts (c.g.params (c.g.socketNode x))
              · obtain ⟨b2, hble, hv2b⟩ := es.vals_out o2 ho2
                rw [hv2] at hv2b
                injection hv2b with hsl2
                rw [hsl2, mkOwn_bufOf]
                omega
              · by_cases ho2o : o2 = o
                · rw [ho2o, hval2] at hv2
                  cases hv2
                · obtain ⟨sl3, hv3, hso3, hbf3⟩ :=
                    evalSpec_pres_buf es o2 sl2 ho2 hv2 hso2
                  intro hc
                  rw [hc] at hbf3
                  exact ho2o (h.bufok.2 o2 o sl3 (Slot.vOwn b u3) hv3 hvo
                    hso3 rfl hbf3)
            · refine ⟨st.events ++ pe, qe, ?_, hqe0⟩
              rw [hev, hsplite]
              simp [List.append_assoc, Slot.bufOf]
          · left
            rw [if_neg hfull] at hval2
            refine ⟨Slot.vOwn b
              (u3 - cntOrig c.g (c.g.nodeInputs (c.g.socketNode x)) o),
              hval2, rfl, rfl, ?_, ?_, ?_⟩
            · rw [hev, countFinDec_append, hcfown]
              show countFinDec st.events o +
                cntOrig c.g (c.g.nodeInputs (c.g.socketNode x)) o +
                (u3 - cntOrig c.g (c.g.nodeInputs (c.g.socketNode x)) o) = u
              omega
            · intro hup
              show 0 < u3 -
                cntOrig c.g (c.g.nodeInputs (c.g.socketNode x)) o
              have hp3 : 0 < u3 := hposc hup
              rcases Nat.lt_or_ge
                  (cntOrig c.g (c.g.nodeInputs (c.g.socketNode x)) o) u3
                with hlt | hge
              · omega
              · exfalso
                exact hfull ⟨by omega, Nat.le_antisymm hcle hge⟩
            · rw [hev, countDestroy_append, hd0]
              have hdz : countDestroy ext b = 0 :=
                (hadj o (Slot.vOwn b u3) hvo rfl hnotout).2 hfull
              omega
      · -- old slot already fully consumed before this evaluation
        right
        have hval2 := es.vals_none o hnotout hvo
        have hblt : b < st.nextBuf := hA.a_lt o b u hm
        refine ⟨hval2, ?_, hupos, ?_, ?_, ?_⟩
        · rw [hev, countFinDec_append, hcfDead o hvo]
          omega
        · rw [hev, countDestroy_append]
          have hdz : countDestroy ext b = 0 := by
            by_contra hc
            obtain ⟨o3, sl3, hv3, hso3, hbf3, -⟩ :=
              hds b (Nat.pos_of_ne_zero hc)
            exact (huniq o3 sl3 hv3 hso3) hbf3
          omega
        · intro o2 sl2 hv2 hso2
          by_cases ho2 : o2 ∈ paramOuts (c.g.params (c.g.socketNode x))
          · obtain ⟨b2, hble, hv2b⟩ := es.vals_out o2 ho2
            rw [hv2] at hv2b
            injection hv2b with hsl2
            rw [hsl2, mkOwn_bufOf]
            omega
          · obtain ⟨sl3, hv3, hso3, hbf3⟩ :=
              evalSpec_pres_buf es o2 sl2 ho2 hv2 hso2
            intro hc
            rw [hc] at hbf3
            exact (huniq o2 sl3 hv3 hso3) hbf3
        · refine ⟨p, q ++ ext, ?_, ?_⟩
          · rw [hev, hsplit]
            simp [List.append_assoc]
          · rw [countFinDec_append, hq0, hcfDead o hvo]
    · -- freshly allocated in this evaluation
      obtain ⟨hop, hu, hble, hv2⟩ := hall o b u hm
      left
      have hca0 : countAlloc st.events o = 0 := by
        by_contra hc
        obtain ⟨b2, u2, hm2⟩ := countAlloc_pos_ex (Nat.pos_of_ne_zero hc)
        exact hOldNotOut o b2 u2 hm2 hop
      have hcf0 : countFinDec st.events o = 0 := hA.fin_alloc o hca0
      have hvnone : st.values o = none := houts_pre o hop
      refine ⟨mkOwn V (c.g.isVec o) b u, hv2, mkOwn_owned _ _ _,
        mkOwn_bufOf _ _ _, ?_, ?_, ?_⟩
      · rw [hev, countFinDec_append, hcf0, hcfDead o hvnone, mkOwn_usersOf]
        omega
      · intro hup
        rw [mkOwn_usersOf]
        exact hup
      · rw [hev, countDestroy_append]
        have hz1 : countDestroy st.events b = 0 := by
          by_contra hc
          have := hA.d_lt b (Nat.pos_of_ne_zero hc)
          omega
        have hz2 : countDestroy ext b = 0 := by
          by_contra hc
          obtain ⟨o3, sl3, hv3, hso3, hbf3, -⟩ :=
            hds b (Nat.pos_of_ne_zero hc)
          have hx2 := h.bufok.1 o3 sl3 hv3 hso3
          rw [hbf3] at hx2
          omega
        omega
  · -- slot_alloc
    intro o sl hv2 hso2
    rw [hev, List.mem_append]
    by_cases hop : o ∈ paramOuts (c.g.params (c.g.socketNode x))
    · right
      have hpos : 0 < countAlloc ext o := by
        rw [hca o, if_pos hop]
        exact Nat.one_pos
      obtain ⟨b2, u2, hm2⟩ := countAlloc_pos_ex hpos
      obtain ⟨-, hu2, -, hv2b⟩ := hall o b2 u2 hm2
      rw [hv2] at hv2b
      injection hv2b with hsl
      rw [hsl, mkOwn_bufOf, ← hu2]
      exact hm2
    · left
      obtain ⟨sl3, hv3, hso3, hbf3⟩ :=
        evalSpec_pres_buf es o sl hop hv2 hso2
      have hx2 := hA.slot_alloc o sl3 hv3 hso3
      rw [hbf3] at hx2
      exact hx2
  · -- fin_alloc
    intro o hz
    rw [hev, countAlloc_append] at hz
    have hz1 : countAlloc st.events o = 0 := by omega
    have hz2 : countAlloc ext o = 0 := by omega
    rw [hev, countFinDec_append, hA.fin_alloc o hz1]
    have hcfe : countFinDec ext o = 0 := by
      rcases hvo : st.values o with _ | sl3
      · exact hcfDead o hvo
      · rcases sl3 with ⟨v⟩ | ⟨v⟩ | ⟨b3, u3⟩ | ⟨b3, u3⟩
        · rw [hcf o, hvo]
        · rw [hcf o, hvo]
        · exfalso
          have hx2 := hA.slot_alloc o (Slot.sOwn b3 u3) hvo rfl
          have := mem_alloc_pos hx2
          omega
        · exfalso
          have hx2 := hA.slot_alloc o (Slot.vOwn b3 u3) hvo rfl
          have := mem_alloc_pos hx2
          omega
    omega
  · -- td_none
    intro b
    rw [hev, countTeardown_append, hA.td_none b, hct b]
theorem step1_OCA {V : Type} (c : Ctx V) (rank : Nat → Nat)
    (base : Nat → Option (Slot V))
    (hwf : GraphWF c.g) (hrk : RankOK c.g rank)
    (hbase : ∀ o sl, base o = some sl → sl.owned = false)
    (o : OC V) (ho : OCA c.g base o) : OCA c.g base (step1 c o) := by
  rcases o with ⟨st, stk⟩ | st | ⟨e, st⟩
  · rcases stk with _ | ⟨x, r⟩
    · exact ho
    · obtain ⟨hS, hA⟩ := ho
      have hgoal : ∀ (res : Except Err (Store V × Act)),
          stepTop c st x = res →
          OCA c.g base (match res with
            | .error e => OC.fail e st
            | .ok (st', .pop) => OC.run st' r
            | .ok (st', .push l) => OC.run st' (l.reverse ++ (x :: r))) →
          OCA c.g base (step1 c (.run st (x :: r))) := by
        intro res hres hOC
        show OCA c.g base (match stepTop c st x with
          | .error e => OC.fail e st
          | .ok (st', .pop) => OC.run st' r
          | .ok (st', .push l) => OC.run st' (l.reverse ++ (x :: r)))
        rw [hres]
        exact hOC
      by_cases hin : c.g.isInput x = true
      · by_cases hcomp : inputIsComputed c.g st x = true
        · refine hgoal (.ok (st, .pop)) ?_ ⟨SInv_tail hS, hA⟩
          unfold stepTop
          rw [if_pos hin, if_pos hcomp]
        · refine hgoal (.ok (st, .push [c.g.origin x])) ?_
            ⟨SInv_push_origin hwf hS hin (Bool.not_eq_true _ ▸ hcomp), hA⟩
          unfold stepTop
          rw [if_pos hin, if_neg hcomp]
      · have hin2 : c.g.isInput x = false := by
          rcases hb : c.g.isInput x with _ | _
          · rfl
          · exact absurd hb hin
        by_cases hdum : c.g.isDummy (c.g.socketNode x) = true
        · refine hgoal (.error (.dummyCall (c.g.socketNode x))) ?_ trivial
          unfold stepTop
          rw [if_neg hin, if_pos hdum]
        · have hdum2 : c.g.isDummy (c.g.socketNode x) = false := by
            rcases hb : c.g.isDummy (c.g.socketNode x) with _ | _
            · rfl
            · exact absurd hb hdum
          by_cases hmiss : ((c.g.nodeInputs (c.g.socketNode x)).filter
              (fun i => !(inputIsComputed c.g st i))).isEmpty = true
          · have hcompall : ∀ i ∈ c.g.nodeInputs (c.g.socketNode x),
                inputIsComputed c.g st i = true := by
              intro i hi
              rcases hb : inputIsComputed c.g st i with _ | _
              · exfalso
                have hmemf : i ∈ (c.g.nodeInputs (c.g.socketNode x)).filter
                    (fun i2 => !(inputIsComputed c.g st i2)) :=
                  List.mem_filter.mpr ⟨hi, by rw [hb]; rfl⟩
                rw [List.isEmpty_iff] at hmiss
                rw [hmiss] at hmemf
                cases hmemf
              · rfl
            rcases hev : evaluateFunction c st (c.g.socketNode x) with
              e2 | st2
            · refine hgoal (.error e2) ?_ trivial
              unfold stepTop
              rw [if_neg hin, if_neg hdum, if_pos hmiss]
              rw [hev]
              rfl
            · refine hgoal (.ok (st2, .pop)) ?_ ?_
              · unfold stepTop
                rw [if_neg hin, if_neg hdum, if_pos hmiss]
                rw [hev]
                rfl
              · exact ⟨(SInv_eval rank hwf hrk hbase hS hin2 hdum2
                    hcompall hev).1,
                  AInv_eval rank hwf hrk hS hin2 hdum2 hcompall hA hev⟩
          · refine hgoal (.ok (st, .push (sortKey
                (fun i => c.depths (c.g.socketNode (c.g.origin i)))
                ((c.g.nodeInputs (c.g.socketNode x)).filter
                  (fun i => !(inputIsComputed c.g st i)))))) ?_
              ⟨SInv_push_missing hwf _ hS hin2 hdum2, hA⟩
            unfold stepTop
            rw [if_neg hin, if_neg hdum, if_neg hmiss]
  · exact ho
  · exact ho
theorem runN_OCA {V : Type} (c : Ctx V) (rank : Nat → Nat)
    (base : Nat → Option (Slot V))
    (hwf : GraphWF c.g) (hrk : RankOK c.g rank)
    (hbase : ∀ o sl, base o = some sl → sl.owned = false)
    (k : Nat) (o : OC V) (ho : OCA c.g base o) :
    OCA c.g base (runN c k o) := by
  induction k with
  | zero => exact ho
  | succ k ih => exact step1_OCA c rank base hwf hrk hbase _ ih
/-- C4 (amended): for every owned slot created during one successful call
(each recorded by a unique `alloc` event carrying the socket's target
count), the `finish_input` decrements it receives never exceed that
count. When the decrements reach the count (with at least one user) the
buffer is destroyed exactly once, immediately after the last decrement,
and the destructor does not touch it; when they fall short — which
happens for every slot whose remaining consumers are requested boundary
outputs, contradicting the original "equals exactly" claim — the buffer
is never refcount-destroyed and is instead freed exactly once by the
storage destructor at end of call. -/
theorem C4_conservation_amended {V : Type} (g : Graph) (rank : Nat → Nat)
    (bodyS : Nat → Nat → V) (bodyV : Nat → Nat → List V)
    (minputs : List (Nat × CView V)) (mouts mask : List Nat)
    (douts : List (DBuf V)) (fuel : Nat) (outs : List (DBuf V))
    (tr : List Ev)
    (hwf : GraphWF g) (hrk : RankOK g rank)
    (hcw : CallWF g minputs mouts)
    (hok : callFn g bodyS bodyV minputs mouts mask douts fuel =
      .ok outs tr) :
    ∀ o b u, Ev.alloc o b u ∈ tr →
      u = (g.targets o).length ∧
      countAlloc tr o = 1 ∧
      countFinDec tr o ≤ u ∧
      (countFinDec tr o = u ∧ 0 < u →
        countDestroy tr b = 1 ∧ countTeardown tr b = 0 ∧
        ∃ p q, tr = p ++ [Ev.finDec o 0, Ev.destroy b] ++ q ∧
          countFinDec q o = 0) ∧
      (countFinDec tr o < u →
        countDestroy tr b = 0 ∧ countTeardown tr b = 1) := by
  intro o b u hm
  rcases callFn_ok_inv g bodyS bodyV minputs mouts mask douts fuel outs tr
      hok with htr | ⟨dep, st, hd, hs, htr⟩
  · rw [htr] at hm
    cases hm
  · obtain ⟨st0, hb, hr⟩ :=
      schedPart_done_inv g bodyS bodyV minputs mouts mask dep fuel st hs
    have hb2 := bindCaller_fold minputs (initStore V) hcw.mi_nodup
      (fun p _ => rfl)
    rw [hb] at hb2
    have hst0 := Except.ok.inj hb2
    have hinv0 : SInv g (baseOf minputs) st0 mouts.reverse := by
      refine init_SInv g minputs mouts st0 hwf hcw ?_ ?_
      · rw [hst0]
        rfl
      · rw [hst0]
        rfl
    have hA0 : AInv g st0 := by
      refine init_AInv g minputs st0 ?_ ?_
      · rw [hst0]
        rfl
      · rw [hst0]
        rfl
    have hfin := runN_OCA ⟨g, bodyS, bodyV, mask, dep⟩ rank
      (baseOf minputs) hwf hrk (baseOf_owned minputs) fuel
      (.run st0 mouts.reverse) ⟨hinv0, hA0⟩
    rw [hr] at hfin
    obtain ⟨hSF, hAF⟩ := hfin
    have hshape := tdEvents_shape g st
    have hmem : Ev.alloc o b u ∈ st.events := by
      rw [htr, List.mem_append] at hm
      rcases hm with hm2 | hm2
      · exact hm2
      · exact absurd hm2 (alloc_not_mem_of_shape hshape o b u)
    have hcfeq : countFinDec tr o = countFinDec st.events o := by
      rw [htr, countFinDec_append, countFinDec_zero_of_shape hshape]
      rw [Nat.add_zero]
    have hcaeq : countAlloc tr o = countAlloc st.events o := by
      rw [htr, countAlloc_append, countAlloc_zero_of_shape hshape]
      rw [Nat.add_zero]
    have hcdeq : countDestroy tr b = countDestroy st.events b := by
      rw [htr, countDestroy_append, countDestroy_zero_of_shape hshape]
      rw [Nat.add_zero]
    have hcteq : countTeardown tr b =
        countTeardown (teardownEvents g st) b := by
      rw [htr, countTeardown_append, hAF.td_none b]
      rw [Nat.zero_add]
    refine ⟨hAF.a_tgt o b u hmem, ?_, ?_, ?_, ?_⟩
    · rw [hcaeq]
      exact hAF.a_once o b u hmem
    · rcases hAF.a_state o b u hmem with
        ⟨sl, -, -, -, hsum, -, -⟩ | ⟨-, hcfe, -, -, -, -⟩
      · rw [hcfeq]
        omega
      · rw [hcfeq, hcfe]
    · rintro ⟨hcfu, hupos⟩
      rcases hAF.a_state o b u hmem with
        ⟨sl, hvo, hso, hbf, hsum, hposc, hd0⟩ |
        ⟨hvo, hcfe, hup2, hd1, huniq, p, q, hsplit, hq0⟩
      · exfalso
        rw [hcfeq] at hcfu
        have hup3 := hposc hupos
        omega
      · refine ⟨?_, ?_, ?_⟩
        · rw [hcdeq]
          exact hd1
        · rw [hcteq]
          exact countTeardown_td_zero g st b huniq
        · refine ⟨p, q ++ teardownEvents g st, ?_, ?_⟩
          · rw [htr, hsplit]
            simp [List.append_assoc]
          · rw [countFinDec_append, hq0, countFinDec_zero_of_shape hshape]
    · intro hcflt
      rcases hAF.a_state o b u hmem with
        ⟨sl, hvo, hso, hbf, hsum, hposc, hd0⟩ |
        ⟨hvo, hcfe, hup2, hd1, huniq, p, q, hsplit, hq0⟩
      · refine ⟨?_, ?_⟩
        · rw [hcdeq]
          exact hd0
        · rw [hcteq]
          refine countTeardown_td_one g st b o sl hvo hso hbf ?_ ?_
          · by_contra hc
            rw [hSF.slot_big o (Nat.le_of_not_lt hc)] at hvo
            cases hvo
          · intro o2 sl2 hv2 hso2 hbf2
            exact hSF.bufok.2 o2 o sl2 sl hv2 hvo hso2 hso
              (hbf2.trans hbf.symm)
      · exfalso
        rw [hcfeq, hcfe] at hcflt
        omega
theorem C4_conservation_amended_witness :
    Ev.alloc 2 0 1 ∈ (callFn exCaller (fun o j => o + j) (fun _ _ => [])
      exCallerIns [3] [0] [DBuf.s (fun _ => none)] 10).trace ∧
    countFinDec ((callFn exCaller (fun o j => o + j) (fun _ _ => [])
      exCallerIns [3] [0] [DBuf.s (fun _ => none)] 10).trace) 2 ≤ 1 := by
  refine ⟨by decide, ?_⟩
  rcases hE : callFn exCaller (fun o j => o + j) (fun _ _ => [])
      exCallerIns [3] [0] [DBuf.s (fun _ => none)] 10 with
    ⟨outs, tr⟩ | ⟨e, tr⟩
  · have hmem : Ev.alloc 2 0 1 ∈ tr := by
      have h0 : Ev.alloc 2 0 1 ∈ (callFn exCaller (fun o j => o + j)
          (fun _ _ => []) exCallerIns [3] [0]
          [DBuf.s (fun _ => none)] 10).trace := by decide
      rw [hE] at h0
      exact h0
    have hthm := (C4_conservation_amended exCaller (fun n => n)
      (fun o j => o + j) (fun _ _ => []) exCallerIns [3] [0]
      [DBuf.s (fun _ => none)] 10 outs tr
      (by constructor <;> decide) (by decide)
      (by
        refine ⟨by decide, by decide, ?_, by decide⟩
        intro p hp
        rw [show exCallerIns = [(0, CView.s (fun j => 7 * j))] from rfl,
          List.mem_singleton] at hp
        subst hp
        exact rfl)
      hE) 2 0 1 hmem
    exact hthm.2.2.1
  · exfalso
    have hok2 : (callFn exCaller (fun o j => o + j) (fun _ _ => [])
        exCallerIns [3] [0] [DBuf.s (fun _ => none)] 10).isOk = true := by
      decide
    rw [hE] at hok2
    cases hok2
